import Mathlib

/-!
# external_sorter: a shallow embedding

An external sort of a binary file of fixed-width records under a memory budget
(`external_sorter.cpp`, `binary_file_buffer.cpp`, `utils.cpp`, `thread_pool.cpp`).

Conventions of the embedding:

* a file is the list of its bytes; a `NumberType[]` buffer that is filled through
  `reinterpret_cast<char*>` is the list of its bytes, read back as numbers by `toNumbers`;
* `std::size_t` values are natural numbers, with an explicit `% 2^64` where the source
  expression can wrap;
* a task of the chunking phase or of a run reader is run at the point where it is added: the
  orchestrator waits for each of them before it touches what the task touches, so the point
  at which the task runs makes no difference to the result;
* a writeback task of the merge phase stays queued until the orchestrator waits for its flag;
  the batch that is still queued when the outer loop ends is run when the schedule `LastTask`
  says, because the tail flush and the return wait for nothing;
* the pool on its own, and the writers of the output stream, are modelled a second time step
  by step;
* a path or a `std::string` is the list of its characters;
* `std::priority_queue` is the list of its entries, `top()` being an entry of least value;
* the 32-bit counter of run files is a natural number below `2^32` that wraps on increment;
* loops and the recursion of `get` carry a bound (`fuel`), and the lemmas show that the bound
  the program passes is never reached;
* code that can throw returns `Except exception_t`.

The file has three parts: the definitions, the lemmas about them, and one theorem for each claim
about the program (`C1`, `C2`, ...), with the instance that shows its hypotheses can be met.
-/

namespace es

/-! ## Records and their bytes -/

/-- One byte of a file or of a buffer. -/
abbrev Byte := Fin 256

/-- Modelled from the spec: `defines.h` is not among the sources; it declares `number_t`, which the
spec fixes as `uint32` (`N = uint32`, `sizeof(N) = 4`). -/
abbrev number_t := Fin 4294967296

/-- Modelled from the spec: `sizeof(NumberType)` for `number_t = uint32`. -/
def sizeofNumberType : Nat := 4

/-- The range of `std::size_t` on the 64-bit target. -/
def sizeRange : Nat := 18446744073709551616

/-- The range of `uint32_t`, the type of the counter of run files. -/
def uint32Range : Nat := 4294967296

/-- The value `std::numeric_limits<NumberType>::max()`. -/
def numberMax : number_t := 4294967295

/-- The four bytes of a number in host (little-endian) order. -/
def numberBytes (n : number_t) : List Byte :=
  [Fin.ofNat n.val, Fin.ofNat (n.val / 256), Fin.ofNat (n.val / 65536),
    Fin.ofNat (n.val / 16777216)]

/-- The number stored in four bytes in host (little-endian) order. -/
def numberOfBytes (b0 b1 b2 b3 : Byte) : number_t :=
  Fin.ofNat (b0.val + 256 * b1.val + 65536 * b2.val + 16777216 * b3.val)

/-- The bytes of an array of numbers: `reinterpret_cast<const char*>(buffer)`. -/
def toBytes : List number_t → List Byte
  | [] => []
  | n :: ns => numberBytes n ++ toBytes ns

/-- The whole numbers held by a byte buffer: `reinterpret_cast<NumberType*>(buffer)`, up to the
last complete record. -/
def toNumbers : List Byte → List number_t
  | b0 :: b1 :: b2 :: b3 :: rest => numberOfBytes b0 b1 b2 b3 :: toNumbers rest
  | _ => []

/-- Rounds size to count of numbers (`utils.h`). -/
def RoundSize (size : Nat) : Nat :=
  size / sizeofNumberType * sizeofNumberType

/-! ## Streams (`utils.cpp`) -/

/-- The state bits of a stream, `std::ios_base::iostate`. -/
structure iostate where
  eofbit : Bool
  failbit : Bool
  badbit : Bool
  deriving DecidableEq

/-- The value `std::ios_base::goodbit`. -/
def goodbit : iostate := ⟨false, false, false⟩

/-- The value `std::ios_base::failbit | std::ios_base::eofbit`. -/
def failbit_or_eofbit : iostate := ⟨true, true, false⟩

/-- An input file stream: the bytes from the get position to the end of the file, the state
bits and the count of the last unformatted read. -/
structure ifstream where
  rest : List Byte
  state : iostate
  gcount : Nat
  deriving DecidableEq

/-- The call `stream.read(buffer, n)` of `std::istream`: on a stream that is not good the sentry
fails, `failbit` is set and nothing is read; otherwise up to `n` bytes are copied over the front of
the buffer, and reaching the end of the file before `n` bytes sets `eofbit` and `failbit`. -/
def ifstream.read (stream : ifstream) (buffer : List Byte) (n : Nat) : ifstream × List Byte :=
  if stream.state = goodbit then
    let got := stream.rest.take n
    let short := decide (got.length < n)
    ({ rest := stream.rest.drop n, state := ⟨short, short, false⟩, gcount := got.length },
      got ++ buffer.drop got.length)
  else
    ({ stream with state := { stream.state with failbit := true }, gcount := 0 }, buffer)

/-- Results of reading a file (`utils.h`). -/
structure FileReadResult where
  ok_ : Bool
  bytes_count_ : Nat
  deriving DecidableEq

/-- The three returns of `ReadFileStream` (`utils.cpp`), for the value of `stream.rdstate()`
after the read, the value of `stream.gcount()` and the size asked for. -/
def FileReadResult.ofState (stream_state : iostate) (gcount buffer_size : Nat) : FileReadResult :=
  if stream_state = goodbit then
    ⟨true, buffer_size⟩
  else if stream_state = failbit_or_eofbit then
    ⟨true, gcount⟩
  else
    ⟨false, 0⟩

/-- Reads binary file to a buffer (`utils.cpp`); returns the stream and the buffer after the
read together with the result. -/
def ReadFileStream (stream : ifstream) (buffer : List Byte) (buffer_size : Nat) :
    ifstream × List Byte × FileReadResult :=
  let after := stream.read buffer buffer_size
  (after.1, after.2, FileReadResult.ofState after.1.state after.1.gcount buffer_size)

/-- The failures of the program. The first four are the exceptions the source throws; the last
three are outcomes the source leaves undefined or unbounded, made explicit here. -/
inductive exception_t where
  | notEnoughMemory
  | failedToOpen
  | failedToRead
  | failedToWrite
  | divisionByZero
  | outOfBounds
  | outOfFuel
  deriving DecidableEq

/-- Opens input binary file (`utils.cpp`); the argument is the content found at the path, if
the path can be opened. -/
def OpenInputBinaryFileStream (file : Option (List Byte)) : Except exception_t ifstream :=
  match file with
  | none => throw exception_t.failedToOpen
  | some bytes => pure { rest := bytes, state := goodbit, gcount := 0 }

/-- An output file stream: the bytes written so far. -/
structure ofstream where
  content : List Byte
  deriving DecidableEq

/-- Opens output binary file (`utils.cpp`); the argument tells whether the path can be opened. The
file is created empty. -/
def OpenOutputBinaryFileStream (openable : Bool) : Except exception_t ofstream :=
  if openable then pure ⟨[]⟩ else throw exception_t.failedToOpen

/-- The function `WriteFile` of `external_sorter.cpp`: writes the first `size` bytes of the
buffer. A write to the in-memory stream always succeeds, so the throw of the source is never
taken. -/
def WriteFile (stream : ofstream) (buffer : List Byte) (size : Nat) : ofstream :=
  ⟨stream.content ++ buffer.take size⟩

/-! ## Memory sizing (`external_sorter.cpp`) -/

/-- Calculates amount of memory which can be used for buffers: `total_size / denom * num`. For
`total_size < 2^64` the product stays below `2^64`. -/
def CalcUsefulMemorySize (total_size : Nat) : Nat :=
  total_size / 16 * 9

/-- Calculates amount of memory which will be used for intermediate files buffers:
`total_memory * num / denom`, the product taken in `std::size_t`. -/
def CalcFilesBuffersMemorySize (total_memory : Nat) : Nat :=
  (total_memory * 3) % sizeRange / 4

/-- The constant `kMinAvailableMemory`. -/
def kMinAvailableMemory : Nat := 2 * 1024 * 1024

/-- The difference of two `std::size_t` values, which wraps below zero. -/
def sizeSub (a b : Nat) : Nat :=
  (a + sizeRange - b) % sizeRange

/-! ## The run reader (`binary_file_buffer.cpp`) -/

/-- Internal representation of buffer of numbers (`binary_file_buffer.h`); the array is kept as
its bytes. -/
structure buffer_internal where
  is_ready_ : Bool
  numbers_read_ : Nat
  buffer_ : List Byte
  deriving DecidableEq

/-- The constant `kBuffersCount`. -/
def kBuffersCount : Nat := 2

/-- The class `BinaryFileBuffer`: a file buffer that reads chunks of numbers through the thread
pool. -/
structure BinaryFileBuffer where
  buffer_size_ : Nat
  numbers_count_ : Nat
  current_index_ : Nat
  stream_ : ifstream
  buffer_0 : buffer_internal
  buffer_1 : buffer_internal
  deriving DecidableEq

/-- The array made by `std::make_unique<NumberType[]>(count)`: `count` zero numbers, as bytes. -/
def makeNumbersArray (count : Nat) : List Byte :=
  List.replicate (count * sizeofNumberType) 0

/-- The function `BinaryFileBuffer::loadBuffer`. -/
def BinaryFileBuffer.loadBuffer (stream : ifstream) (buffer : buffer_internal)
    (buffer_size : Nat) : Except exception_t (ifstream × buffer_internal) :=
  match ReadFileStream stream buffer.buffer_ buffer_size with
  | (stream, bytes, result) =>
    if result.ok_ = false then
      throw exception_t.failedToRead
    else
      pure (stream, { is_ready_ := true,
                      numbers_read_ := result.bytes_count_ / sizeofNumberType,
                      buffer_ := bytes })

/-- The constructor of `BinaryFileBuffer`; `file` is the content found at `file_path`. The task
it adds (load `buffer_0`, yield, load `buffer_1`) is run here. -/
def BinaryFileBuffer.construct (file : Option (List Byte)) (buffer_size : Nat) :
    Except exception_t BinaryFileBuffer := do
  let buffer_size_ := RoundSize (buffer_size / kBuffersCount)
  let numbers_count_ := buffer_size_ / sizeofNumberType
  let stream_ ← OpenInputBinaryFileStream file
  let loaded_0 ← BinaryFileBuffer.loadBuffer stream_ ⟨false, 0, makeNumbersArray numbers_count_⟩
    buffer_size_
  let loaded_1 ← BinaryFileBuffer.loadBuffer loaded_0.1 ⟨false, 0, makeNumbersArray numbers_count_⟩
    buffer_size_
  pure { buffer_size_ := buffer_size_, numbers_count_ := numbers_count_, current_index_ := 0,
         stream_ := loaded_1.1, buffer_0 := loaded_0.2, buffer_1 := loaded_1.2 }

/-- The function `BinaryFileBuffer::waitForBuffer`, that is `ThreadPool::waitForTask` on the flag
of the buffer: it returns once the flag is set. Every task has already run, so a flag that is
still clear would keep the loop spinning for ever. -/
def BinaryFileBuffer.waitForBuffer (buffer : buffer_internal) : Except exception_t Unit :=
  if buffer.is_ready_ then pure () else throw exception_t.outOfFuel

/-- The function `BinaryFileBuffer::waitForReady`. -/
def BinaryFileBuffer.waitForReady (self : BinaryFileBuffer) : Except exception_t Unit :=
  BinaryFileBuffer.waitForBuffer self.buffer_0

/-- The element `buffer[index]` of a `NumberType[]` kept as bytes; an index past the array is
`outOfBounds`. -/
def numberAt (buffer : List Byte) (index : Nat) : Except exception_t number_t :=
  match (toNumbers buffer)[index]? with
  | some number => pure number
  | none => throw exception_t.outOfBounds

/-- The function `BinaryFileBuffer::get`, with a bound on the depth of its recursion: the result
is the reader after the call and the number delivered, `none` standing for `false`. -/
def BinaryFileBuffer.getFuel : Nat → BinaryFileBuffer →
    Except exception_t (BinaryFileBuffer × Option number_t)
  | 0, _ => throw exception_t.outOfFuel
  | fuel + 1, self =>
    if self.current_index_ < self.buffer_0.numbers_read_ then do
      let number ← numberAt self.buffer_0.buffer_ self.current_index_
      pure ({ self with current_index_ := self.current_index_ + 1 }, some number)
    else if self.buffer_0.numbers_read_ > 0 then do
      BinaryFileBuffer.waitForBuffer self.buffer_1
      -- swap(buffer_0, buffer_1): the flag is copied, the count and the array are exchanged
      let buffer_0 : buffer_internal := ⟨self.buffer_1.is_ready_, self.buffer_1.numbers_read_,
        self.buffer_1.buffer_⟩
      let buffer_1 : buffer_internal := ⟨self.buffer_1.is_ready_, self.buffer_0.numbers_read_,
        self.buffer_0.buffer_⟩
      let buffer_1 : buffer_internal := { buffer_1 with is_ready_ := false, numbers_read_ := 0 }
      -- the task added to the pool
      let loaded ← BinaryFileBuffer.loadBuffer self.stream_ buffer_1 self.buffer_size_
      BinaryFileBuffer.getFuel fuel
        { self with current_index_ := 0, stream_ := loaded.1, buffer_0 := buffer_0,
                    buffer_1 := loaded.2 }
    else
      pure (self, none)

/-- The function `BinaryFileBuffer::get`: the recursive call is made right after a swap, with
`current_index_ = 0`, and returns at once, so depth two is all the source can reach. -/
def BinaryFileBuffer.get (self : BinaryFileBuffer) :
    Except exception_t (BinaryFileBuffer × Option number_t) :=
  BinaryFileBuffer.getFuel 2 self

/-- The results of `count` successive calls of `get`, `none` for a call that returned `false`. -/
def BinaryFileBuffer.getMany : Nat → BinaryFileBuffer → Except exception_t (List (Option number_t))
  | 0, _ => pure []
  | count + 1, self => do
    let step ← self.get
    let later ← BinaryFileBuffer.getMany count step.1
    pure (step.2 :: later)

/-! ## The thread pool (`thread_pool.cpp`) -/

/-- The constant `kMinThreadsCount`. -/
def kMinThreadsCount : Nat := 2

/-- The number of workers the constructor of `ThreadPool` starts, for a given value of
`std::thread::hardware_concurrency()`. -/
def ThreadPool.threads_count (hardware_concurrency : Nat) : Nat :=
  max hardware_concurrency kMinThreadsCount - 1

/-! ## The sorter (`external_sorter.cpp`) -/

/-- The class `ExternalSorter`. The intermediate directory is the map from the id of
`chunk_<id>` to the content of that file. The counter `intermediate_files_count_` is a
`std::atomic_uint32_t`: a number below `2^32`. -/
structure ExternalSorter where
  available_memory_ : Nat
  input_file_stream_ : ifstream
  output_file_stream_ : ofstream
  intermediate_directory : Nat → Option (List Byte)
  intermediate_files_count_ : Nat

/-- The constructor of `ExternalSorter`: `input_file` is the content found at the input path, if
it can be opened, and `output_openable` tells whether the output path can be opened. -/
def ExternalSorter.construct (available_memory : Nat) (input_file : Option (List Byte))
    (output_openable : Bool) : Except exception_t ExternalSorter := do
  let available_memory_ := RoundSize (CalcUsefulMemorySize available_memory)
  let input_file_stream_ ← OpenInputBinaryFileStream input_file
  let output_file_stream_ ← OpenOutputBinaryFileStream output_openable
  if available_memory_ < kMinAvailableMemory then
    throw exception_t.notEnoughMemory
  else
    pure { available_memory_ := available_memory_, input_file_stream_ := input_file_stream_,
           output_file_stream_ := output_file_stream_, intermediate_directory := fun _ => none,
           intermediate_files_count_ := 0 }

/-- The call `std::stable_sort(first, last)` on numbers. -/
def stable_sort (numbers : List number_t) : List number_t :=
  numbers.insertionSort (fun a b => a ≤ b)

/-- The function `WriteIntermediateFile`: creates `chunk_<id>` holding the first `size` bytes of
the buffer. -/
def WriteIntermediateFile (directory : Nat → Option (List Byte)) (id : Nat) (buffer : List Byte)
    (size : Nat) : Nat → Option (List Byte) :=
  fun k => if k = id then some (buffer.take size) else directory k

/-- The task of the chunking loop: sorts the first `bytes_read / sizeof(NumberType)` numbers of
the buffer in place and writes the first `bytes_read` bytes of the buffer to the run file named
by `intermediate_files_count_++`, an increment of a 32-bit counter, which wraps to 0 after
`2^32 - 1`. The result is the sorter and the buffer that goes back to the queue. -/
def ExternalSorter.sortChunkTask (self : ExternalSorter) (buffer : List Byte) (bytes_read : Nat) :
    ExternalSorter × List Byte :=
  let count := bytes_read / sizeofNumberType
  let sorted := stable_sort ((toNumbers buffer).take count)
  let buffer := toBytes sorted ++ buffer.drop (count * sizeofNumberType)
  ({ self with
      intermediate_directory :=
        WriteIntermediateFile self.intermediate_directory self.intermediate_files_count_ buffer
          bytes_read,
      intermediate_files_count_ := (self.intermediate_files_count_ + 1) % uint32Range },
   buffer)

/-- The `while (true)` loop of `createSortedChunksImplMultiThreaded`, bounded by `fuel` rounds;
`chunks_queue` is the queue of free chunk buffers. -/
def ExternalSorter.createSortedChunksLoop : Nat → Nat → ExternalSorter → List (List Byte) →
    Except exception_t ExternalSorter
  | 0, _, _, _ => throw exception_t.outOfFuel
  | fuel + 1, chunk_numbers_count, self, chunks_queue =>
    match chunks_queue with
    | [] =>
      -- pop failed: yield, checkException, continue; no task is left to push a buffer
      throw exception_t.outOfFuel
    | buffer :: chunks_queue =>
      match ReadFileStream self.input_file_stream_ buffer
          (chunk_numbers_count * sizeofNumberType) with
      | (stream, buffer, result) =>
        if result.ok_ = false then
          throw exception_t.failedToRead
        else if result.bytes_count_ = 0 then
          pure { self with input_file_stream_ := stream }
        else
          let done := ExternalSorter.sortChunkTask { self with input_file_stream_ := stream }
            buffer result.bytes_count_
          ExternalSorter.createSortedChunksLoop fuel chunk_numbers_count done.1
            (chunks_queue ++ [done.2])

/-- The record count `chunk_numbers_count` of one chunk buffer in
`createSortedChunksImplMultiThreaded`, for `chunks_count` buffers with `chunks_count > 0`. -/
def chunk_numbers_count (available_memory_ chunks_count : Nat) : Nat :=
  (available_memory_ / sizeofNumberType) / chunks_count

/-- The function `createSortedChunksImplMultiThreaded`; `hardware_concurrency` is the value of
`std::thread::hardware_concurrency()`. Each round of the loop reads at least one byte or leaves
the loop, so one round more than the bytes of the input is enough. -/
def ExternalSorter.createSortedChunksImplMultiThreaded (self : ExternalSorter)
    (hardware_concurrency : Nat) : Except exception_t ExternalSorter :=
  let chunks_count := hardware_concurrency
  if chunks_count = 0 then
    throw exception_t.divisionByZero
  else
    let chunk_numbers_count := chunk_numbers_count self.available_memory_ chunks_count
    let chunks_queue := List.replicate chunks_count (makeNumbersArray chunk_numbers_count)
    ExternalSorter.createSortedChunksLoop (self.input_file_stream_.rest.length + 1)
      chunk_numbers_count self chunks_queue

/-- Class for keeping information about an intermediate chunk. -/
structure MergeData where
  file_buffer_index_ : Nat
  value_ : number_t
  deriving DecidableEq

/-- Greater functor. -/
def MergeDataComparator (lv rv : MergeData) : Bool :=
  decide (lv.value_ > rv.value_)

/-- The call `top()` of `std::priority_queue<MergeData, std::vector<MergeData>,
MergeDataComparator>`, the queue kept as the list of its entries: an entry that the comparator
puts before no other one, that is an entry of least value. -/
def priority_queue_top : List MergeData → Option MergeData
  | [] => none
  | entry :: entries =>
    match priority_queue_top entries with
    | none => some entry
    | some other => if MergeDataComparator entry other then some other else some entry

/-- The call `pop()` of the priority queue: removes the entry `top()` returns. -/
def priority_queue_pop (entries : List MergeData) : List MergeData :=
  match priority_queue_top entries with
  | none => entries
  | some entry => entries.erase entry

/-- The call `push(entry)` of the priority queue. -/
def priority_queue_push (entries : List MergeData) (entry : MergeData) : List MergeData :=
  entry :: entries

/-- The struct `MergeBuffer`. -/
structure MergeBuffer where
  is_ready_to_fill_ : Bool
  buffer_ : List number_t
  deriving DecidableEq

/-- The local variables of `mergeSortedChunksImpl` together with the output stream. -/
structure MergeState where
  files_buffers : List BinaryFileBuffer
  merge_queue : List MergeData
  merge_buffer_0 : MergeBuffer
  merge_buffer_1 : MergeBuffer
  current_merge_buffer_index : Nat
  output_file_stream_ : ofstream
  deriving DecidableEq

/-- The per-run read budget `file_buffer_memory_size` of `mergeSortedChunksImpl`. -/
def file_buffer_memory_size (available_memory_ files_count : Nat) : Nat :=
  RoundSize (CalcFilesBuffersMemorySize available_memory_ / files_count)

/-- The size `merge_buffer_size_in_bytes` of one writeback buffer in `mergeSortedChunksImpl`. -/
def merge_buffer_size_in_bytes (available_memory_ files_count : Nat) : Nat :=
  RoundSize (sizeSub available_memory_ (file_buffer_memory_size available_memory_ files_count) / 2)

/-- The capacity `merge_numbers_count` of one writeback buffer in `mergeSortedChunksImpl`. -/
def merge_numbers_count (available_memory_ files_count : Nat) : Nat :=
  merge_buffer_size_in_bytes available_memory_ files_count / sizeofNumberType

/-- Creates buffers for intermediate files: the readers of `chunk_<i>`, ..., for `count` files
from id `i` on. -/
def CreateIntermediateFilesBuffers (directory : Nat → Option (List Byte))
    (file_buffer_memory_size : Nat) : Nat → Nat → Except exception_t (List BinaryFileBuffer)
  | 0, _ => pure []
  | count + 1, i => do
    let file_buffer ← BinaryFileBuffer.construct (directory i) file_buffer_memory_size
    let others ← CreateIntermediateFilesBuffers directory file_buffer_memory_size count (i + 1)
    pure (file_buffer :: others)

/-- The end of one round of the initialisation loop: `if (!files_buffers[i].get(number))
continue; merge_queue.push(MergeData{i, number})`, for the result of the call of `get`. -/
def pushDelivered (merge_queue : List MergeData) (i : Nat) (delivered : Option number_t) :
    List MergeData :=
  match delivered with
  | none => merge_queue
  | some number => priority_queue_push merge_queue ⟨i, number⟩

/-- The loop "initialization of all buffers and merge queue" of `mergeSortedChunksImpl`, over
the readers from index `i` on; the result is the readers after their first `get` and the queue. -/
def initMergeQueue : List BinaryFileBuffer → Nat → List MergeData →
    Except exception_t (List BinaryFileBuffer × List MergeData)
  | [], _, merge_queue => pure ([], merge_queue)
  | file_buffer :: others, i, merge_queue => do
    file_buffer.waitForReady
    let step ← file_buffer.get
    let later ← initMergeQueue others (i + 1) (pushDelivered merge_queue i step.2)
    pure (step.1 :: later.1, later.2)

/-- The writeback task `swapMergeBufferAndCreateTask` adds to the pool: it writes
`size_in_bytes` bytes of the array of `merge_buffer_1` to the output and sets the flag of
`merge_buffer_1`. -/
def writebackTask (state : MergeState) (size_in_bytes : Nat) : MergeState :=
  { state with
    output_file_stream_ := WriteFile state.output_file_stream_
      (toBytes state.merge_buffer_1.buffer_) size_in_bytes,
    merge_buffer_1 := { state.merge_buffer_1 with is_ready_to_fill_ := true } }

/-- The lambda `swapMergeBufferAndCreateTask`. The flag of `merge_buffer_1` is clear exactly
while the task added by the call before is queued or running, so
`waitForTask(merge_buffer_1.is_ready_to_fill_)` returns when that task has run; then the two
arrays are swapped, the flag is cleared and the task that writes the full array is added to the
pool, where it stays queued. -/
def swapMergeBufferAndCreateTask (state : MergeState) (merge_buffer_size_in_bytes : Nat) :
    MergeState :=
  -- thread_pool_->waitForTask(merge_buffer_1.is_ready_to_fill_)
  let state :=
    if state.merge_buffer_1.is_ready_to_fill_ then state
    else writebackTask state merge_buffer_size_in_bytes
  let merge_buffer_0 : MergeBuffer := { state.merge_buffer_0 with
    buffer_ := state.merge_buffer_1.buffer_ }
  -- merge_buffer_1.is_ready_to_fill_ = false; thread_pool_->add(...)
  let merge_buffer_1 : MergeBuffer := ⟨false, state.merge_buffer_0.buffer_⟩
  { state with merge_buffer_0 := merge_buffer_0, merge_buffer_1 := merge_buffer_1,
               current_merge_buffer_index := 0 }

/-- The two statements that store a number in the current writeback buffer, in both loops:
`if (current_merge_buffer_index == merge_numbers_count) swapMergeBufferAndCreateTask(...)` and
`merge_buffer_0.buffer_[current_merge_buffer_index++] = number`. A store past the array is
`outOfBounds`. -/
def storeNumber (merge_numbers_count merge_buffer_size_in_bytes : Nat) (state : MergeState)
    (number : number_t) : Except exception_t MergeState :=
  let state :=
    if state.current_merge_buffer_index = merge_numbers_count then
      swapMergeBufferAndCreateTask state merge_buffer_size_in_bytes
    else state
  if state.current_merge_buffer_index < state.merge_buffer_0.buffer_.length then
    pure { state with
      merge_buffer_0 := { state.merge_buffer_0 with
        buffer_ := state.merge_buffer_0.buffer_.set state.current_merge_buffer_index number },
      current_merge_buffer_index := state.current_merge_buffer_index + 1 }
  else
    throw exception_t.outOfBounds

/-- The inner loop of the merge, "copies a number from the file buffer as long as it is the
minimum", bounded by `fuel` rounds. -/
def mergeInnerLoop (merge_numbers_count merge_buffer_size_in_bytes : Nat) (min_data : MergeData)
    (top_value : number_t) : Nat → MergeState → Except exception_t MergeState
  | 0, _ => throw exception_t.outOfFuel
  | fuel + 1, state =>
    match state.files_buffers[min_data.file_buffer_index_]? with
    | none => throw exception_t.outOfBounds
    | some file_buffer => do
      let step ← file_buffer.get
      let state := { state with
        files_buffers := state.files_buffers.set min_data.file_buffer_index_ step.1 }
      match step.2 with
      | none => pure state
      | some number =>
        if number ≤ top_value then do
          let state ← storeNumber merge_numbers_count merge_buffer_size_in_bytes state number
          mergeInnerLoop merge_numbers_count merge_buffer_size_in_bytes min_data top_value fuel
            state
        else
          pure { state with
            merge_queue := priority_queue_push state.merge_queue
              ⟨min_data.file_buffer_index_, number⟩ }

/-- The expression `merge_queue.empty() ? std::numeric_limits<NumberType>::max() :
merge_queue.top().value_`. -/
def topValue (merge_queue : List MergeData) : number_t :=
  match priority_queue_top merge_queue with
  | none => numberMax
  | some top => top.value_

/-- One round of the outer loop of the merge, for `min_data = merge_queue.top()`: `pop()`, the
store of `min_data.value_`, `top_value`, and the inner loop, which gets `inner_fuel` rounds. In
the source the test `current_merge_buffer_index == merge_numbers_count` stands before `top()` and
`pop()`, which do not touch the buffers. -/
def mergeOuterRound (merge_numbers_count merge_buffer_size_in_bytes inner_fuel : Nat)
    (state : MergeState) (min_data : MergeData) : Except exception_t MergeState := do
  let merge_queue := priority_queue_pop state.merge_queue
  let state ← storeNumber merge_numbers_count merge_buffer_size_in_bytes
    { state with merge_queue := merge_queue } min_data.value_
  mergeInnerLoop merge_numbers_count merge_buffer_size_in_bytes min_data (topValue merge_queue)
    inner_fuel state

/-- The outer loop `while (!merge_queue.empty())` of the merge, bounded by `fuel` rounds. -/
def mergeOuterLoop (merge_numbers_count merge_buffer_size_in_bytes inner_fuel : Nat) :
    Nat → MergeState → Except exception_t MergeState
  | 0, _ => throw exception_t.outOfFuel
  | fuel + 1, state =>
    match priority_queue_top state.merge_queue with
    | none => pure state
    | some min_data => do
      let state ← mergeOuterRound merge_numbers_count merge_buffer_size_in_bytes inner_fuel state
        min_data
      mergeOuterLoop merge_numbers_count merge_buffer_size_in_bytes inner_fuel fuel state

/-- The bytes of `count` run files together, from `chunk_<i>` on. -/
def runFilesBytes (directory : Nat → Option (List Byte)) : Nat → Nat → Nat
  | 0, _ => 0
  | count + 1, i => ((directory i).getD []).length + runFilesBytes directory count (i + 1)

/-- The time at which the writeback task that is still queued when the outer loop of the merge
ends is run by the pool. Nothing after the loop waits for it: it can have run before the tail
flush starts, or run between the tail flush and the return of `mergeSortedChunksImpl`, or be
still in the queue when the function returns; it then reads `merge_buffer_1`, a local of the
function that has returned, and what it writes later is not part of the result. Each write is
taken whole: a tail flush that lands inside the write of the task, which two writers on one
stream allow, is not among the three. -/
inductive LastTask where
  | beforeTailFlush
  | afterTailFlush
  | afterReturn
  deriving DecidableEq

/-- The tail flush: `if (current_merge_buffer_index != 0) WriteFile(...)` on a stream. -/
def tailWrite (stream : ofstream) (state : MergeState) : ofstream :=
  if state.current_merge_buffer_index ≠ 0 then
    WriteFile stream (toBytes state.merge_buffer_0.buffer_)
      (state.current_merge_buffer_index * sizeofNumberType)
  else stream

/-- The end of `mergeSortedChunksImpl` after the outer loop, from the state the loop leaves: the
tail flush, which the orchestrator writes itself, and the writeback task that may still be queued
(the flag of `merge_buffer_1` is clear), run when the schedule says. The result is the output
stream when the function returns. -/
def tailFlush (state : MergeState) (merge_buffer_size_in_bytes : Nat) (schedule : LastTask) :
    ofstream :=
  match schedule with
  | .beforeTailFlush =>
    if state.merge_buffer_1.is_ready_to_fill_ then tailWrite state.output_file_stream_ state
    else tailWrite (writebackTask state merge_buffer_size_in_bytes).output_file_stream_ state
  | .afterTailFlush =>
    if state.merge_buffer_1.is_ready_to_fill_ then tailWrite state.output_file_stream_ state
    else WriteFile (tailWrite state.output_file_stream_ state)
      (toBytes state.merge_buffer_1.buffer_) merge_buffer_size_in_bytes
  | .afterReturn => tailWrite state.output_file_stream_ state

/-- The function `mergeSortedChunksImpl`. Every round of either loop takes a record out of a run
file, so one round more than the bytes of the run files is enough for both. -/
def ExternalSorter.mergeSortedChunksImpl (self : ExternalSorter) (schedule : LastTask) :
    Except exception_t ExternalSorter := do
  let files_count := self.intermediate_files_count_
  if files_count = 0 then
    pure self
  else
    let file_buffer_memory_size := file_buffer_memory_size self.available_memory_ files_count
    let files_buffers ← CreateIntermediateFilesBuffers self.intermediate_directory
      file_buffer_memory_size files_count 0
    let merge_buffer_size_in_bytes := merge_buffer_size_in_bytes self.available_memory_ files_count
    let merge_numbers_count := merge_numbers_count self.available_memory_ files_count
    let merge_buffer_0 : MergeBuffer := ⟨true, List.replicate merge_numbers_count 0⟩
    let merge_buffer_1 : MergeBuffer := ⟨true, List.replicate merge_numbers_count 0⟩
    let initial ← initMergeQueue files_buffers 0 []
    if initial.2 = [] then
      pure self
    else
      let fuel := runFilesBytes self.intermediate_directory files_count 0 + 1
      let state ← mergeOuterLoop merge_numbers_count merge_buffer_size_in_bytes fuel fuel
        { files_buffers := initial.1, merge_queue := initial.2, merge_buffer_0 := merge_buffer_0,
          merge_buffer_1 := merge_buffer_1, current_merge_buffer_index := 0,
          output_file_stream_ := self.output_file_stream_ }
      -- the tail flush; checkException has nothing to rethrow
      pure { self with
        output_file_stream_ := tailFlush state merge_buffer_size_in_bytes schedule }

/-- The function `sort`; `createIntermediateDirectory` succeeds on the modelled file system. -/
def ExternalSorter.sort (self : ExternalSorter) (hardware_concurrency : Nat)
    (schedule : LastTask) : Except exception_t ExternalSorter := do
  let self ← self.createSortedChunksImplMultiThreaded hardware_concurrency
  self.mergeSortedChunksImpl schedule

/-- The program of `main.cpp` and of the tests: constructs a sorter over an input file and an
openable output directory, sorts, and gives the content of the output stream when `sort`
returns. -/
def sortFile (available_memory hardware_concurrency : Nat) (input : List Byte)
    (schedule : LastTask) : Except exception_t (List Byte) := do
  let sorter ← ExternalSorter.construct available_memory (some input) true
  let sorter ← sorter.sort hardware_concurrency schedule
  pure sorter.output_file_stream_.content

/-! ## Abstraction functions and invariants used by the proofs -/

/-- The whole numbers a stream can still deliver: those of its unread bytes while it is good, none
once a read has hit the end of the file. -/
def ifstream.numbers (stream : ifstream) : List number_t :=
  if stream.state = goodbit then toNumbers stream.rest else []

/-- The numbers a reader with room for at least one number has still to deliver: the unread part
of `buffer_0`, the numbers loaded into `buffer_1`, and the numbers left in the stream. A reader
whose buffers hold no number delivers nothing. -/
def BinaryFileBuffer.pending (self : BinaryFileBuffer) : List number_t :=
  if self.numbers_count_ = 0 then []
  else
    ((toNumbers self.buffer_0.buffer_).take self.buffer_0.numbers_read_).drop self.current_index_
      ++ (toNumbers self.buffer_1.buffer_).take self.buffer_1.numbers_read_
      ++ self.stream_.numbers

/-- The invariant of a reader between two calls of `get`. -/
structure BinaryFileBuffer.Valid (reader : BinaryFileBuffer) : Prop where
  size_eq : reader.buffer_size_ = reader.numbers_count_ * sizeofNumberType
  state : reader.stream_.state = goodbit ∨ reader.stream_.state = failbit_or_eofbit
  ready : reader.buffer_1.is_ready_ = true
  index_le : reader.current_index_ ≤ reader.buffer_0.numbers_read_
  read_0_le : reader.buffer_0.numbers_read_ ≤ reader.numbers_count_
  read_1_le : reader.buffer_1.numbers_read_ ≤ reader.numbers_count_
  cap_0 : reader.buffer_0.buffer_.length = reader.numbers_count_ * sizeofNumberType
  cap_1 : reader.buffer_1.buffer_.length = reader.numbers_count_ * sizeofNumberType
  short_0 : reader.buffer_0.numbers_read_ < reader.numbers_count_ → reader.buffer_1.numbers_read_ = 0
  short_1 : reader.buffer_1.numbers_read_ < reader.numbers_count_ → reader.stream_.state ≠ goodbit

/-- The numbers of the batch handed to a writeback task that is still queued: the array of
`merge_buffer_1` while its flag is clear. -/
def MergeState.queued (state : MergeState) : List number_t :=
  if state.merge_buffer_1.is_ready_to_fill_ then [] else state.merge_buffer_1.buffer_

/-- The numbers the merge has put out so far: those of the bytes written to the output, then the
batch of the queued writeback task, then the filled part of the current writeback buffer. -/
def MergeState.emitted (state : MergeState) : List number_t :=
  toNumbers state.output_file_stream_.content ++ state.queued ++
    state.merge_buffer_0.buffer_.take state.current_merge_buffer_index

/-- The numbers a list of readers has still to deliver, reader after reader. -/
def pendingAll : List BinaryFileBuffer → List number_t
  | [] => []
  | reader :: readers => reader.pending ++ pendingAll readers

/-- The values of the entries of the merge queue. -/
def queueValues (merge_queue : List MergeData) : List number_t :=
  merge_queue.map (fun entry => entry.value_)

/-- All the numbers a state of the merge holds: put out, in the queue, or pending in a reader. -/
def MergeState.content (state : MergeState) : List number_t :=
  state.emitted ++ (queueValues state.merge_queue ++ pendingAll state.files_buffers)

/-- The shape invariant of the merge: valid readers, two writeback buffers of
`merge_numbers_count` numbers, a cursor inside the first, and an output of whole records. -/
structure MergeState.Valid (merge_numbers_count merge_buffer_size_in_bytes : Nat)
    (state : MergeState) : Prop where
  readers : ∀ (j : Nat) (reader : BinaryFileBuffer),
    state.files_buffers[j]? = some reader → reader.Valid
  length_0 : state.merge_buffer_0.buffer_.length = merge_numbers_count
  length_1 : state.merge_buffer_1.buffer_.length = merge_numbers_count
  index_le : state.current_merge_buffer_index ≤ merge_numbers_count
  count_pos : 0 < merge_numbers_count
  size_eq : merge_buffer_size_in_bytes = merge_numbers_count * sizeofNumberType
  aligned : sizeofNumberType ∣ state.output_file_stream_.content.length

/-- The order invariant of the merge. `hole` is the reader the inner loop is draining, which has
no entry in the queue meanwhile; it is `none` at the head of the outer loop. -/
structure MergeState.Ordered (state : MergeState) (hole : Option Nat) : Prop where
  sorted : state.emitted.Sorted (fun a b => a ≤ b)
  out_le_queue : ∀ e ∈ state.emitted, ∀ entry ∈ state.merge_queue, e ≤ entry.value_
  out_le_hole : ∀ (j : Nat) (reader : BinaryFileBuffer), hole = some j → state.files_buffers[j]? = some reader →
    ∀ e ∈ state.emitted, ∀ x ∈ reader.pending, e ≤ x
  queue_le_run : ∀ entry ∈ state.merge_queue, ∃ reader,
    state.files_buffers[entry.file_buffer_index_]? = some reader ∧
      ∀ x ∈ reader.pending, entry.value_ ≤ x
  covered : ∀ (j : Nat) (reader : BinaryFileBuffer), hole ≠ some j → state.files_buffers[j]? = some reader →
    reader.pending ≠ [] → ∃ entry ∈ state.merge_queue, entry.file_buffer_index_ = j
  runs_sorted : ∀ (j : Nat) (reader : BinaryFileBuffer), state.files_buffers[j]? = some reader →
    reader.pending.Sorted (fun a b => a ≤ b)

/-- The whole numbers of a list of files, file after file. -/
def numbersOfFiles : List (List Byte) → List number_t
  | [] => []
  | file :: files => toNumbers file ++ numbersOfFiles files

/-- The bytes of a list of files together. -/
def filesBytes : List (List Byte) → Nat
  | [] => 0
  | file :: files => file.length + filesBytes files

/-- The run file the chunk task writes for the bytes of one read: the whole numbers sorted,
followed by the bytes of a trailing incomplete record as they were read. -/
def chunkFile (bytes : List Byte) : List Byte :=
  toBytes (stable_sort (toNumbers bytes)) ++ bytes.drop (bytes.length / sizeofNumberType * sizeofNumberType)

/-- The intermediate directory after the run files `files` were written one after the other, the
first one under the id `count` and each next one under the id the 32-bit counter holds after its
increment. -/
def writeRuns (directory : Nat → Option (List Byte)) :
    Nat → List (List Byte) → Nat → Option (List Byte)
  | _, [] => directory
  | count, file :: files =>
    writeRuns (fun id => if id = count then some file else directory id)
      ((count + 1) % uint32Range) files

/-- The useful budget the constructor stores in `available_memory_`. -/
def usefulMemory (available_memory : Nat) : Nat :=
  RoundSize (CalcUsefulMemorySize available_memory)

/-- The quotient of `size` by `chunk_bytes` rounded up. -/
def ceilDiv (size chunk_bytes : Nat) : Nat :=
  (size + chunk_bytes - 1) / chunk_bytes

/-- The record count `numbers_count_` of each buffer of a run reader, for `files_count` runs: the
constructor of `BinaryFileBuffer` applied to the per-run read budget. -/
def readerNumbersCount (available_memory_ files_count : Nat) : Nat :=
  RoundSize (file_buffer_memory_size available_memory_ files_count / kBuffersCount) /
    sizeofNumberType

/-- The program up to the end of the chunking phase: the constructor over an input file and an
openable output directory, then `createSortedChunksImplMultiThreaded`. -/
def chunkingPhase (available_memory hardware_concurrency : Nat) (input : List Byte) :
    Except exception_t ExternalSorter := do
  let sorter ← ExternalSorter.construct available_memory (some input) true
  sorter.createSortedChunksImplMultiThreaded hardware_concurrency

/-- The bytes of the chunk buffers `createSortedChunksImplMultiThreaded` allocates:
`chunks_count` arrays of `chunk_numbers_count` numbers. -/
def chunkBuffersBytes (available_memory_ chunks_count : Nat) : Nat :=
  chunks_count * (chunk_numbers_count available_memory_ chunks_count * sizeofNumberType)

/-- The bytes of the buffers `mergeSortedChunksImpl` allocates for `files_count` runs: the two
arrays of `numbers_count_` numbers of every reader and the two writeback arrays of
`merge_numbers_count` numbers. -/
def mergeBuffersBytes (available_memory_ files_count : Nat) : Nat :=
  files_count *
      (kBuffersCount * (readerNumbersCount available_memory_ files_count * sizeofNumberType)) +
    2 * (merge_numbers_count available_memory_ files_count * sizeofNumberType)

/-- A consumer of a run file: the constructor of the reader, `waitForReady`, then `count` calls
of `get`; the result lists what the calls returned. -/
def readRun (file : List Byte) (buffer_size count : Nat) :
    Except exception_t (List (Option number_t)) := do
  let reader ← BinaryFileBuffer.construct (some file) buffer_size
  reader.waitForReady
  reader.getMany count

/-! ## Paths (`external_sorter.cpp`) -/

/-- The constant `kOutputFileName`. -/
def kOutputFileName : List Char := "output".toList

/-- The constant `kIntermediateDirectoryName`. -/
def kIntermediateDirectoryName : List Char := "intermediate".toList

/-- The constant `kIntermediateFileName`. -/
def kIntermediateFileName : List Char := "chunk_".toList

/-- The operator `/=` of `std::filesystem::path` on a POSIX target, a path kept as its characters:
an absolute right operand replaces the path; otherwise a separator is added when the path has a
filename, that is when it is not empty and does not end in a separator, and the right operand is
appended. -/
def path_append (path name : List Char) : List Char :=
  if name.head? = some '/' then name
  else if path ≠ [] ∧ path.getLast? ≠ some '/' then path ++ '/' :: name
  else path ++ name

/-- The function `CreateOutputFilePath`: `std::string::append` of the file name to the string of
the output directory. The constructor stores the result in `output_file_path_` and opens the
output stream on it. -/
def CreateOutputFilePath (output_directory_path : List Char) : List Char :=
  output_directory_path ++ kOutputFileName

/-- The function `CreateIntermediateDirectoryPath`: the operator `/=` of the directory name. -/
def CreateIntermediateDirectoryPath (output_directory_path : List Char) : List Char :=
  path_append output_directory_path kIntermediateDirectoryName

/-- The function `CreateIntermediateFilePath`: the operator `/=` of the file name, then `+=` of
`std::to_string(id)`. -/
def CreateIntermediateFilePath (intermediate_path : List Char) (id : Nat) : List Char :=
  path_append intermediate_path kIntermediateFileName ++ (Nat.repr id).toList

/-! ## The thread pool, task by task (`thread_pool.cpp`) -/

/-- Thread pool task type (`thread_pool.h`): a task is kept as the way its call ends, a return or
the exception it throws. -/
abbrev task_t := Except exception_t Unit

/-- The type `std::exception_ptr`; `none` is the null pointer. -/
abbrev exception_ptr := Option exception_t

/-- The class `ThreadPool`, for workers that run their tasks one at a time. -/
structure ThreadPool where
  active_tasks_ : Nat
  exception_flag_ : Bool
  exception_ptr_ : exception_ptr
  tasks_ : List task_t

/-- The pool the constructor of `ThreadPool` leaves: no task, no exception. -/
def ThreadPool.construct : ThreadPool :=
  { active_tasks_ := 0, exception_flag_ := false, exception_ptr_ := none, tasks_ := [] }

/-- The function `ThreadPool::add`. -/
def ThreadPool.add (self : ThreadPool) (task : task_t) : ThreadPool :=
  { self with tasks_ := self.tasks_ ++ [task] }

/-- The end of the `try` block of the worker loop: the call `task()` and the handler
`catch (...)`, which stores the exception when the flag is not set yet. -/
def ThreadPool.runTask (self : ThreadPool) (task : task_t) : ThreadPool :=
  match task with
  | .ok _ => self
  | .error exception =>
    if !self.exception_flag_ then
      { self with exception_ptr_ := some exception, exception_flag_ := true }
    else self

/-- One round of the worker loop in the constructor of `ThreadPool`: the worker takes the task at
the front of the queue, counts it as active while it runs, and catches what it throws. With an
empty queue the worker waits and the pool stays as it is. -/
def ThreadPool.workerRound (self : ThreadPool) : ThreadPool :=
  match self.tasks_ with
  | [] => self
  | task :: tasks_ =>
    let self := { self with tasks_ := tasks_, active_tasks_ := self.active_tasks_ + 1 }
    let self := self.runTask task
    { self with active_tasks_ := self.active_tasks_ - 1 }

/-- The workers running tasks one at a time, for `rounds` rounds of the worker loop. -/
def ThreadPool.workerRounds : Nat → ThreadPool → ThreadPool
  | 0, self => self
  | rounds + 1, self => ThreadPool.workerRounds rounds self.workerRound

/-- The function `ThreadPool::checkException`: `std::rethrow_exception(exception_ptr_)` when the
flag is set. The result is the pool after the call and what the call raised, if anything. -/
def ThreadPool.checkException (self : ThreadPool) : ThreadPool × Except exception_ptr Unit :=
  if self.exception_flag_ then (self, throw self.exception_ptr_) else (self, pure ())

/-- The exception of the first task of a list that throws, the tasks taken in the order in which
they complete. -/
def firstFailure : List task_t → Option exception_t
  | [] => none
  | .ok _ :: tasks => firstFailure tasks
  | .error exception :: _ => some exception

/-! ## The chunk buffers -/

/-- The outer loop of the merge with its states recorded: the result lists, in order, the states
in which the condition `!merge_queue.empty()` is evaluated, the last one being the state in which
it is false. -/
def mergeOuterLoopHeads (merge_numbers_count merge_buffer_size_in_bytes inner_fuel : Nat) :
    Nat → MergeState → Except exception_t (List MergeState)
  | 0, _ => throw exception_t.outOfFuel
  | fuel + 1, state =>
    match priority_queue_top state.merge_queue with
    | none => pure [state]
    | some min_data => do
      let drained ← mergeOuterRound merge_numbers_count merge_buffer_size_in_bytes inner_fuel state
        min_data
      let later ← mergeOuterLoopHeads merge_numbers_count merge_buffer_size_in_bytes inner_fuel
        fuel drained
      pure (state :: later)

/-- The function `mergeSortedChunksImpl` up to the end of its outer loop, with the states of the
loop recorded as in `mergeOuterLoopHeads`; no state is recorded when the function returns before
the loop. -/
def ExternalSorter.mergeLoopHeads (self : ExternalSorter) :
    Except exception_t (List MergeState) := do
  let files_count := self.intermediate_files_count_
  if files_count = 0 then
    pure []
  else
    let file_buffer_memory_size := file_buffer_memory_size self.available_memory_ files_count
    let files_buffers ← CreateIntermediateFilesBuffers self.intermediate_directory
      file_buffer_memory_size files_count 0
    let merge_buffer_size_in_bytes := merge_buffer_size_in_bytes self.available_memory_ files_count
    let merge_numbers_count := merge_numbers_count self.available_memory_ files_count
    let merge_buffer_0 : MergeBuffer := ⟨true, List.replicate merge_numbers_count 0⟩
    let merge_buffer_1 : MergeBuffer := ⟨true, List.replicate merge_numbers_count 0⟩
    let initial ← initMergeQueue files_buffers 0 []
    if initial.2 = [] then
      pure []
    else
      let fuel := runFilesBytes self.intermediate_directory files_count 0 + 1
      mergeOuterLoopHeads merge_numbers_count merge_buffer_size_in_bytes fuel fuel
        { files_buffers := initial.1, merge_queue := initial.2, merge_buffer_0 := merge_buffer_0,
          merge_buffer_1 := merge_buffer_1, current_merge_buffer_index := 0,
          output_file_stream_ := self.output_file_stream_ }

/-! ## The account of the merge queue -/

/-- The numbers of a list of lists, list after list. -/
def concatAll : List (List number_t) → List number_t
  | [] => []
  | numbers :: others => numbers ++ concatAll others

/-- The entries of the merge queue that carry a record of run `i`. -/
def entriesOf (merge_queue : List MergeData) (i : Nat) : List MergeData :=
  merge_queue.filter (fun entry => decide (entry.file_buffer_index_ = i))

/-- The account of the merge queue kept by the proofs, for the run files `files`: `written` lists,
run by run, the records of the run that the merge has put out; every entry of the queue carries
the record that follows them in its run, no two entries belong to one run, and a run without an
entry has nothing between what was put out and what its reader has still to deliver. `hole` is
the run the inner loop is draining, which has no entry meanwhile. -/
structure MergeState.Heap (files : List (List Byte)) (written : List (List number_t))
    (state : MergeState) (hole : Option Nat) : Prop where
  written_length : written.length = files.length
  readers_length : state.files_buffers.length = files.length
  emitted_perm : state.emitted.Perm (concatAll written)
  nodup : (state.merge_queue.map (fun entry => entry.file_buffer_index_)).Nodup
  hole_free : ∀ j, hole = some j → ∀ entry ∈ state.merge_queue, entry.file_buffer_index_ ≠ j
  entry_next : ∀ entry ∈ state.merge_queue, ∃ reader file w,
    state.files_buffers[entry.file_buffer_index_]? = some reader ∧
      files[entry.file_buffer_index_]? = some file ∧
      written[entry.file_buffer_index_]? = some w ∧
      toNumbers file = w ++ entry.value_ :: reader.pending
  no_entry : ∀ (j : Nat) (reader : BinaryFileBuffer) (file : List Byte) (w : List number_t),
    state.files_buffers[j]? = some reader → files[j]? = some file → written[j]? = some w →
    (∀ entry ∈ state.merge_queue, entry.file_buffer_index_ ≠ j) →
    toNumbers file = w ++ reader.pending

/-! ## The writers of the output stream, step by step -/

/-- The steps of the merge phase that concern the writers of the output stream, for a pool whose
tasks run at their own pace. -/
inductive WriteStep where
  /-- The orchestrator runs `swapMergeBufferAndCreateTask`: `waitForTask` has seen
  `merge_buffer_1.is_ready_to_fill_` set, the flag is cleared and the writeback task is added. -/
  | swap
  /-- A worker takes a writeback task from the queue and calls its `WriteFile`. -/
  | taskStart
  /-- The `WriteFile` of a writeback task returns and the task sets
  `merge_buffer_1.is_ready_to_fill_`. -/
  | taskEnd
  /-- The orchestrator has left the outer loop and calls the `WriteFile` of the tail flush. -/
  | tailWrite
  deriving DecidableEq

/-- The writers of the output stream at some point of the merge phase: the flag of
`merge_buffer_1`, the writeback tasks waiting in the queue of the pool, the writeback tasks a
worker is running, and whether the orchestrator has started the tail flush. -/
structure WriteState where
  is_ready_to_fill_ : Bool
  tasks_ : Nat
  active_tasks_ : Nat
  tail_started : Bool
  deriving DecidableEq

/-- The writers when the outer loop is entered: `is_ready_to_fill_ = true`, no task. -/
def WriteState.initial : WriteState :=
  { is_ready_to_fill_ := true, tasks_ := 0, active_tasks_ := 0, tail_started := false }

/-- One step; `none` when the step cannot be taken in this state. The swap waits for the flag
(`thread_pool_->waitForTask(merge_buffer_1.is_ready_to_fill_)`); the tail flush waits for
nothing. -/
def WriteState.step (state : WriteState) : WriteStep → Option WriteState
  | .swap =>
    if state.tail_started = false ∧ state.is_ready_to_fill_ = true then
      some { state with is_ready_to_fill_ := false, tasks_ := state.tasks_ + 1 }
    else none
  | .taskStart =>
    if 0 < state.tasks_ then
      some { state with tasks_ := state.tasks_ - 1, active_tasks_ := state.active_tasks_ + 1 }
    else none
  | .taskEnd =>
    if 0 < state.active_tasks_ then
      some { state with active_tasks_ := state.active_tasks_ - 1, is_ready_to_fill_ := true }
    else none
  | .tailWrite =>
    if state.tail_started = false then some { state with tail_started := true } else none

/-- A sequence of steps from a state. -/
def WriteState.run : List WriteStep → WriteState → Option WriteState
  | [], state => some state
  | next :: steps, state =>
    match state.step next with
    | none => none
    | some state => WriteState.run steps state

/-- Whether the step starts a write to the output stream while a writeback task added earlier
is still waiting or running; a task that starts is itself one of the waiting ones. -/
def WriteState.earlierTaskPending (state : WriteState) : WriteStep → Bool
  | .taskStart => decide (1 < state.tasks_ + state.active_tasks_)
  | .tailWrite => decide (0 < state.tasks_ + state.active_tasks_)
  | _ => false

/-! # Lemmas -/

theorem toNumbers_numberBytes_append (n : number_t) (rest : List Byte) :
    toNumbers (numberBytes n ++ rest) = n :: toNumbers rest := by
  have h := n.isLt
  have e : numberOfBytes (Fin.ofNat n.val) (Fin.ofNat (n.val / 256)) (Fin.ofNat (n.val / 65536))
      (Fin.ofNat (n.val / 16777216)) = n := by
    apply Fin.ext
    simp only [numberOfBytes, Fin.ofNat, Fin.val_mk]
    omega
  show toNumbers (_ :: _ :: _ :: _ :: rest) = _
  rw [toNumbers, e]

theorem toNumbers_toBytes_append (ns : List number_t) (rest : List Byte) :
    toNumbers (toBytes ns ++ rest) = ns ++ toNumbers rest := by
  induction ns with
  | nil => simp [toBytes]
  | cons n ns ih =>
    simp only [toBytes, List.append_assoc, List.cons_append]
    rw [toNumbers_numberBytes_append, ih]

theorem toNumbers_short (bs : List Byte) (h : bs.length < 4) : toNumbers bs = [] := by
  match bs, h with
  | [], _ => rfl
  | [_], _ => rfl
  | [_, _], _ => rfl
  | [_, _, _], _ => rfl
  | _ :: _ :: _ :: _ :: _, h => simp at h; omega

theorem toNumbers_toBytes (ns : List number_t) : toNumbers (toBytes ns) = ns := by
  have := toNumbers_toBytes_append ns []
  simpa [toNumbers] using this

theorem numberBytes_numberOfBytes (b0 b1 b2 b3 : Byte) :
    numberBytes (numberOfBytes b0 b1 b2 b3) = [b0, b1, b2, b3] := by
  have h0 := b0.isLt
  have h1 := b1.isLt
  have h2 := b2.isLt
  have h3 := b3.isLt
  simp only [numberBytes, numberOfBytes, Fin.ofNat, Fin.val_mk, List.cons.injEq, and_true]
  refine ⟨?_, ?_, ?_, ?_⟩ <;> apply Fin.ext <;> simp only [Fin.val_mk] <;> omega

theorem length_toBytes (ns : List number_t) : (toBytes ns).length = 4 * ns.length := by
  induction ns with
  | nil => rfl
  | cons n ns ih => simp [toBytes, numberBytes, ih]; omega

theorem length_toNumbers (bs : List Byte) : (toNumbers bs).length = bs.length / 4 := by
  induction bs using toNumbers.induct with
  | case1 b0 b1 b2 b3 rest ih =>
    simp only [toNumbers, List.length_cons, ih]; omega
  | case2 bs h =>
    have : bs.length < 4 := by
      match bs, h with
      | [], _ => simp
      | [_], _ => simp
      | [_, _], _ => simp
      | [_, _, _], _ => simp
      | b0 :: b1 :: b2 :: b3 :: r, h => exact absurd rfl (h b0 b1 b2 b3 r)
    rw [toNumbers_short bs this]; simp; omega

/-- Every byte list is the bytes of its whole numbers followed by fewer than four bytes. -/
theorem toBytes_toNumbers_append_drop (bs : List Byte) :
    toBytes (toNumbers bs) ++ bs.drop (bs.length / 4 * 4) = bs := by
  induction bs using toNumbers.induct with
  | case1 b0 b1 b2 b3 rest ih =>
    have e : (b0 :: b1 :: b2 :: b3 :: rest).length / 4 * 4 = rest.length / 4 * 4 + 4 := by
      simp only [List.length_cons]; omega
    simp only [toNumbers, toBytes, numberBytes_numberOfBytes, e, List.cons_append, List.nil_append,
      List.drop_succ_cons]
    rw [ih]
  | case2 bs h =>
    have : bs.length < 4 := by
      match bs, h with
      | [], _ => simp
      | [_], _ => simp
      | [_, _], _ => simp
      | [_, _, _], _ => simp
      | b0 :: b1 :: b2 :: b3 :: r, h => exact absurd rfl (h b0 b1 b2 b3 r)
    rw [toNumbers_short bs this]
    have : bs.length / 4 * 4 = 0 := by omega
    simp [toBytes, this]

theorem toNumbers_append_of_dvd (xs ys : List Byte) (h : 4 ∣ xs.length) :
    toNumbers (xs ++ ys) = toNumbers xs ++ toNumbers ys := by
  have e := toBytes_toNumbers_append_drop xs
  have hl : xs.length / 4 * 4 = xs.length := Nat.div_mul_cancel h
  rw [hl, List.drop_length, List.append_nil] at e
  conv_lhs => rw [← e]
  rw [toNumbers_toBytes_append]

theorem take_toNumbers_append (xs ys : List Byte) :
    (toNumbers (xs ++ ys)).take (xs.length / 4) = toNumbers xs := by
  have e := toBytes_toNumbers_append_drop xs
  have hl := length_toNumbers xs
  have e2 : toNumbers (xs ++ ys) =
      toNumbers xs ++ toNumbers (xs.drop (xs.length / 4 * 4) ++ ys) := by
    conv_lhs => rw [← e, List.append_assoc, toNumbers_toBytes_append]
  rw [e2, ← hl, List.take_left]

theorem toNumbers_append_short (xs ys : List Byte) (h : ys.length < 4) (hx : 4 ∣ xs.length) :
    toNumbers (xs ++ ys) = toNumbers xs := by
  rw [toNumbers_append_of_dvd xs ys hx, toNumbers_short ys h, List.append_nil]

theorem toNumbers_take (bs : List Byte) (k : Nat) :
    toNumbers (bs.take (k * 4)) = (toNumbers bs).take k := by
  induction k generalizing bs with
  | zero => simp [toNumbers]
  | succ k ih =>
    match bs with
    | b0 :: b1 :: b2 :: b3 :: rest =>
      have : (k + 1) * 4 = k * 4 + 1 + 1 + 1 + 1 := by omega
      simp only [this, List.take_succ_cons, toNumbers, ih]
    | [] => simp [toNumbers]
    | [_] => simp [toNumbers, toNumbers_short]
    | [_, _] => simp [toNumbers, toNumbers_short]
    | [_, _, _] => simp [toNumbers, toNumbers_short]

theorem toNumbers_drop (bs : List Byte) (k : Nat) :
    toNumbers (bs.drop (k * 4)) = (toNumbers bs).drop k := by
  induction k generalizing bs with
  | zero => simp
  | succ k ih =>
    match bs with
    | b0 :: b1 :: b2 :: b3 :: rest =>
      have : (k + 1) * 4 = k * 4 + 1 + 1 + 1 + 1 := by omega
      simp only [this, List.drop_succ_cons, toNumbers, ih]
    | [] => simp [toNumbers]
    | [_] => rw [toNumbers_short _ (by simp; omega), toNumbers_short _ (by simp)]; simp
    | [_, _] => rw [toNumbers_short _ (by simp; omega), toNumbers_short _ (by simp)]; simp
    | [_, _, _] => rw [toNumbers_short _ (by simp; omega), toNumbers_short _ (by simp)]; simp

theorem ReadFileStream_full (stream : ifstream) (buffer : List Byte) (n : Nat)
    (hs : stream.state = goodbit) (hn : n ≤ stream.rest.length) :
    ReadFileStream stream buffer n =
      (⟨stream.rest.drop n, goodbit, n⟩, stream.rest.take n ++ buffer.drop n, ⟨true, n⟩) := by
  have hl : (stream.rest.take n).length = n := by simp [List.length_take]; omega
  simp [ReadFileStream, FileReadResult.ofState, ifstream.read, hs, hl, goodbit]

theorem ReadFileStream_short (stream : ifstream) (buffer : List Byte) (n : Nat)
    (hs : stream.state = goodbit) (hn : stream.rest.length < n) :
    ReadFileStream stream buffer n =
      (⟨[], failbit_or_eofbit, stream.rest.length⟩,
        stream.rest ++ buffer.drop stream.rest.length, ⟨true, stream.rest.length⟩) := by
  have hl : (stream.rest.take n).length = stream.rest.length := by
    simp [List.length_take]; omega
  have ht : stream.rest.take n = stream.rest := List.take_of_length_le (by omega)
  have hd : stream.rest.drop n = [] := List.drop_of_length_le (by omega)
  simp [ReadFileStream, FileReadResult.ofState, ifstream.read, hs, hl, ht, hd, goodbit,
    failbit_or_eofbit, hn]

theorem ReadFileStream_at_end (stream : ifstream) (buffer : List Byte) (n : Nat)
    (hs : stream.state = failbit_or_eofbit) :
    ReadFileStream stream buffer n =
      (⟨stream.rest, failbit_or_eofbit, 0⟩, buffer, ⟨true, 0⟩) := by
  simp [ReadFileStream, FileReadResult.ofState, ifstream.read, hs, goodbit, failbit_or_eofbit]

theorem loadBuffer_full (stream : ifstream) (buffer : buffer_internal) (n : Nat)
    (hs : stream.state = goodbit) (hn : n ≤ stream.rest.length) :
    BinaryFileBuffer.loadBuffer stream buffer n =
      .ok (⟨stream.rest.drop n, goodbit, n⟩,
        ⟨true, n / sizeofNumberType, stream.rest.take n ++ buffer.buffer_.drop n⟩) := by
  simp only [BinaryFileBuffer.loadBuffer, ReadFileStream_full stream _ _ hs hn]
  rfl

theorem loadBuffer_short (stream : ifstream) (buffer : buffer_internal) (n : Nat)
    (hs : stream.state = goodbit) (hn : stream.rest.length < n) :
    BinaryFileBuffer.loadBuffer stream buffer n =
      .ok (⟨[], failbit_or_eofbit, stream.rest.length⟩,
        ⟨true, stream.rest.length / sizeofNumberType,
          stream.rest ++ buffer.buffer_.drop stream.rest.length⟩) := by
  simp only [BinaryFileBuffer.loadBuffer, ReadFileStream_short stream _ _ hs hn]
  rfl

theorem loadBuffer_at_end (stream : ifstream) (buffer : buffer_internal) (n : Nat)
    (hs : stream.state = failbit_or_eofbit) :
    BinaryFileBuffer.loadBuffer stream buffer n =
      .ok (⟨stream.rest, failbit_or_eofbit, 0⟩, ⟨true, 0, buffer.buffer_⟩) := by
  simp only [BinaryFileBuffer.loadBuffer, ReadFileStream_at_end stream _ _ hs]
  rfl

/-- What a load does to a stream that is good or at the end of its file, for a buffer of `k`
numbers: the load succeeds, and the numbers the stream could deliver are now the numbers read
into the buffer followed by those the stream can still deliver. -/
theorem loadBuffer_spec (stream : ifstream) (buffer : buffer_internal) (k : Nat)
    (hs : stream.state = goodbit ∨ stream.state = failbit_or_eofbit)
    (hcap : buffer.buffer_.length = k * sizeofNumberType) :
    ∃ stream' buffer', BinaryFileBuffer.loadBuffer stream buffer (k * sizeofNumberType)
        = .ok (stream', buffer') ∧
      (stream'.state = goodbit ∨ stream'.state = failbit_or_eofbit) ∧
      buffer'.is_ready_ = true ∧
      buffer'.buffer_.length = k * sizeofNumberType ∧
      buffer'.numbers_read_ ≤ k ∧
      (buffer'.numbers_read_ < k → stream'.state ≠ goodbit) ∧
      stream.numbers = (toNumbers buffer'.buffer_).take buffer'.numbers_read_ ++ stream'.numbers := by
  rcases hs with hs | hs
  · by_cases hn : k * sizeofNumberType ≤ stream.rest.length
    · refine ⟨_, _, loadBuffer_full stream buffer _ hs hn, Or.inl rfl, rfl, ?_, ?_, ?_, ?_⟩
      · simp only [sizeofNumberType] at *
        simp [List.length_take, hcap]; omega
      · simp [sizeofNumberType]
      · simp [sizeofNumberType]
      · simp only [sizeofNumberType] at *
        have hl : (stream.rest.take (k * 4)).length = k * 4 := by simp [List.length_take]; omega
        have h1 : (toNumbers (List.take (k * 4) stream.rest ++ List.drop (k * 4) buffer.buffer_)).take
            (k * 4 / 4) = toNumbers (stream.rest.take (k * 4)) := by
          have := take_toNumbers_append (stream.rest.take (k * 4)) (List.drop (k * 4) buffer.buffer_)
          rwa [hl] at this
        simp only [ifstream.numbers, hs, if_true, h1]
        rw [← toNumbers_append_of_dvd _ _ (by rw [hl]; exact Dvd.intro_left k rfl),
          List.take_append_drop]
    · have hn : stream.rest.length < k * sizeofNumberType := by omega
      refine ⟨_, _, loadBuffer_short stream buffer _ hs hn, Or.inr rfl, rfl, ?_, ?_, ?_, ?_⟩
      · simp only [sizeofNumberType] at *
        simp [hcap]; omega
      · simp only [sizeofNumberType] at *
        omega
      · intro _; simp [failbit_or_eofbit, goodbit]
      · simp only [ifstream.numbers, hs, if_true, sizeofNumberType]
        rw [take_toNumbers_append]
        simp [failbit_or_eofbit, goodbit]
  · refine ⟨_, _, loadBuffer_at_end stream buffer _ hs, Or.inr rfl, rfl, hcap, ?_, ?_, ?_⟩
    · simp
    · intro _; simp [failbit_or_eofbit, goodbit]
    · simp [ifstream.numbers, hs, failbit_or_eofbit, goodbit]

theorem numberAt_eq (buffer : List Byte) (i : Nat) (h : i < (toNumbers buffer).length) :
    numberAt buffer i = .ok ((toNumbers buffer)[i]) := by
  simp [numberAt, List.getElem?_eq_getElem h]
  rfl

/-- The call of `get` that does not swap: either a number is left in `buffer_0`, or `buffer_0`
was loaded empty. -/
theorem getFuel_base (self : BinaryFileBuffer) (hv : self.Valid)
    (h : self.current_index_ < self.buffer_0.numbers_read_ ∨ self.buffer_0.numbers_read_ = 0)
    :
    ∃ self' r, (∀ fuel, BinaryFileBuffer.getFuel (fuel + 1) self = .ok (self', r)) ∧ self'.Valid ∧
      self'.numbers_count_ = self.numbers_count_ ∧
      (∀ x, r = some x → self.pending = x :: self'.pending) ∧
      (r = none → self.pending = [] ∧ self'.pending = []) := by
  have hlen : (toNumbers self.buffer_0.buffer_).length = self.numbers_count_ := by
    rw [length_toNumbers, hv.cap_0]; simp [sizeofNumberType]
  rcases h with h | h
  · have hi : self.current_index_ < (toNumbers self.buffer_0.buffer_).length := by
      have := hv.read_0_le; omega
    refine ⟨{ self with current_index_ := self.current_index_ + 1 },
      some ((toNumbers self.buffer_0.buffer_)[self.current_index_]), ?_, ?_, rfl, ?_, ?_⟩
    · intro fuel
      simp only [BinaryFileBuffer.getFuel, h, if_true, numberAt_eq _ _ hi]
      rfl
    · exact ⟨hv.size_eq, hv.state, hv.ready, h, hv.read_0_le, hv.read_1_le, hv.cap_0, hv.cap_1,
        hv.short_0, hv.short_1⟩
    · intro x hx
      have hk : self.numbers_count_ ≠ 0 := by have := hv.read_0_le; omega
      have hx : (toNumbers self.buffer_0.buffer_)[self.current_index_] = x := by
        simpa using hx
      simp only [BinaryFileBuffer.pending, hk, if_false]
      have hi2 : self.current_index_ <
          ((toNumbers self.buffer_0.buffer_).take self.buffer_0.numbers_read_).length := by
        simp [List.length_take]; omega
      rw [List.drop_eq_getElem_cons hi2]
      simp [hx]
    · intro hr; cases hr
  · have hidx : self.current_index_ = 0 := by have := hv.index_le; omega
    refine ⟨self, none, ?_, hv, rfl, ?_, ?_⟩
    · intro fuel
      simp [BinaryFileBuffer.getFuel, h]
      rfl
    · intro x hx; cases hx
    · intro _
      have : self.pending = [] := by
        by_cases hk : self.numbers_count_ = 0
        · simp [BinaryFileBuffer.pending, hk]
        · have h1 := hv.short_0 (by omega)
          have h2 := hv.short_1 (by omega)
          simp [BinaryFileBuffer.pending, hk, h, h1, ifstream.numbers, h2]
      exact ⟨this, this⟩

/-- The contract of `get` on a valid reader: the call returns, leaves the reader valid, and
either delivers the first pending number or finds nothing pending. Two levels of recursion are
enough whatever bound is given beyond that. -/
theorem get_spec (self : BinaryFileBuffer) (hv : self.Valid) :
    ∃ self' r, (∀ fuel, BinaryFileBuffer.getFuel (fuel + 2) self = .ok (self', r)) ∧
      self.get = .ok (self', r) ∧ self'.Valid ∧
      self'.numbers_count_ = self.numbers_count_ ∧
      (∀ x, r = some x → self.pending = x :: self'.pending) ∧
      (r = none → self.pending = [] ∧ self'.pending = []) := by
  by_cases h : self.current_index_ < self.buffer_0.numbers_read_ ∨ self.buffer_0.numbers_read_ = 0
  · obtain ⟨self', r, h1, h2, h3, h4, h5⟩ := getFuel_base self hv h
    exact ⟨self', r, fun fuel => h1 (fuel + 1), h1 1, h2, h3, h4, h5⟩
  · have h1 : ¬ self.current_index_ < self.buffer_0.numbers_read_ := fun c => h (Or.inl c)
    have h2 : self.buffer_0.numbers_read_ > 0 := by
      have : self.buffer_0.numbers_read_ ≠ 0 := fun c => h (Or.inr c)
      omega
    obtain ⟨stream', buffer', hl, hs', hr', hc', hle', hsh', hnum⟩ :=
      loadBuffer_spec self.stream_
        ⟨false, 0, self.buffer_0.buffer_⟩ self.numbers_count_ hv.state hv.cap_0
    have hv' : BinaryFileBuffer.Valid (⟨self.buffer_size_, self.numbers_count_, 0, stream',
        ⟨self.buffer_1.is_ready_, self.buffer_1.numbers_read_, self.buffer_1.buffer_⟩, buffer'⟩ :
        BinaryFileBuffer) :=
      ⟨hv.size_eq, hs', hr', Nat.zero_le _, hv.read_1_le, hle', hv.cap_1, hc',
        fun hlt => by
          have hng := hv.short_1 hlt
          have hst : self.stream_.state = failbit_or_eofbit := by
            rcases hv.state with c | c
            · exact absurd c hng
            · exact c
          have e := loadBuffer_at_end self.stream_ ⟨false, 0, self.buffer_0.buffer_⟩
            (self.numbers_count_ * sizeofNumberType) hst
          rw [e] at hl
          injection hl with hl
          injection hl with _ hb
          show buffer'.numbers_read_ = 0
          rw [← hb],
        hsh'⟩
    have hidx : self.current_index_ = self.buffer_0.numbers_read_ := by
      have := hv.index_le; omega
    have hk : self.numbers_count_ ≠ 0 := by have := hv.read_0_le; omega
    have hp : self.pending = BinaryFileBuffer.pending (⟨self.buffer_size_, self.numbers_count_, 0, stream',
        ⟨self.buffer_1.is_ready_, self.buffer_1.numbers_read_, self.buffer_1.buffer_⟩, buffer'⟩ :
        BinaryFileBuffer) := by
      simp only [BinaryFileBuffer.pending, hk, if_false, hidx, hnum, List.drop_zero]
      have : ((toNumbers self.buffer_0.buffer_).take self.buffer_0.numbers_read_).drop
          self.buffer_0.numbers_read_ = [] := by
        apply List.drop_of_length_le
        simp [List.length_take]
      rw [this]
      simp
    obtain ⟨self', r, g1, g2, g3, g4, g5⟩ := getFuel_base _ hv'
      (by show 0 < self.buffer_1.numbers_read_ ∨ self.buffer_1.numbers_read_ = 0; omega)
    have hstep : ∀ fuel, BinaryFileBuffer.getFuel (fuel + 2) self = .ok (self', r) := by
      intro fuel
      rw [← g1 fuel]
      conv_lhs => rw [BinaryFileBuffer.getFuel]
      simp only [h1, if_false, h2, if_true, BinaryFileBuffer.waitForBuffer, hv.ready]
      rw [← hv.size_eq] at hl
      simp only [hl]
      rfl
    refine ⟨self', r, hstep, hstep 0, g2, g3, ?_, ?_⟩
    · intro x hx
      rw [hp]; exact g4 x hx
    · intro hr
      rw [hp]; exact g5 hr

theorem RoundSize_eq_mul (size : Nat) :
    RoundSize size = (RoundSize size / sizeofNumberType) * sizeofNumberType := by
  simp only [RoundSize, sizeofNumberType]
  omega

/-- The reader made by the constructor over a file is valid, and what it has to deliver is the
whole numbers of the file, or nothing when its buffers have room for no number. -/
theorem construct_spec (file : List Byte) (buffer_size : Nat) :
    ∃ reader, BinaryFileBuffer.construct (some file) buffer_size = .ok reader ∧ reader.Valid ∧
      reader.buffer_0.is_ready_ = true ∧
      reader.numbers_count_ = RoundSize (buffer_size / kBuffersCount) / sizeofNumberType ∧
      reader.pending = if reader.numbers_count_ = 0 then [] else toNumbers file := by
  have hsz := RoundSize_eq_mul (buffer_size / kBuffersCount)
  generalize hk : RoundSize (buffer_size / kBuffersCount) / sizeofNumberType = k at hsz
  obtain ⟨s0, b0, hl0, hs0, hr0, hc0, hle0, hsh0, hnum0⟩ :=
    loadBuffer_spec ⟨file, goodbit, 0⟩ ⟨false, 0, makeNumbersArray k⟩ k (Or.inl rfl)
      (by simp [makeNumbersArray])
  obtain ⟨s1, b1, hl1, hs1, hr1, hc1, hle1, hsh1, hnum1⟩ :=
    loadBuffer_spec s0 ⟨false, 0, makeNumbersArray k⟩ k hs0 (by simp [makeNumbersArray])
  refine ⟨⟨k * sizeofNumberType, k, 0, s1, b0, b1⟩, ?_, ?_, hr0, rfl, ?_⟩
  · simp only [BinaryFileBuffer.construct, OpenInputBinaryFileStream, hk, hsz]
    simp only [bind, Except.bind, pure, Except.pure]
    have hkk : k * sizeofNumberType / sizeofNumberType = k := by simp [sizeofNumberType]
    simp only [hkk, hl0, hl1]
  · refine ⟨rfl, hs1, hr1, Nat.zero_le _, hle0, hle1, hc0, hc1, ?_, hsh1⟩
    intro hlt
    have hng := hsh0 hlt
    have hst : s0.state = failbit_or_eofbit := by
      rcases hs0 with c | c
      · exact absurd c hng
      · exact c
    have e := loadBuffer_at_end s0 ⟨false, 0, makeNumbersArray k⟩ (k * sizeofNumberType) hst
    rw [e] at hl1
    injection hl1 with hl1
    injection hl1 with _ hb
    show b1.numbers_read_ = 0
    rw [← hb]
  · show BinaryFileBuffer.pending ⟨k * sizeofNumberType, k, 0, s1, b0, b1⟩ = if k = 0 then [] else _
    by_cases hk0 : k = 0
    · simp [BinaryFileBuffer.pending, hk0]
    · simp only [BinaryFileBuffer.pending, hk0, if_false, List.drop_zero]
      have : toNumbers file = (⟨file, goodbit, 0⟩ : ifstream).numbers := by
        simp [ifstream.numbers]
      rw [this, hnum0, hnum1, List.append_assoc]

/-- Successive calls of `get` on a valid reader deliver its pending numbers in order and then
return `false` for ever. -/
theorem getMany_spec (count : Nat) (self : BinaryFileBuffer) (hv : self.Valid) :
    BinaryFileBuffer.getMany count self =
      .ok ((self.pending.take count).map some ++
        List.replicate (count - self.pending.length) none) := by
  induction count generalizing self with
  | zero => simp [BinaryFileBuffer.getMany]; rfl
  | succ count ih =>
    obtain ⟨self', r, _, hg, hv', _, hsome, hnone⟩ := get_spec self hv
    simp only [BinaryFileBuffer.getMany, hg, bind, Except.bind, ih self' hv']
    cases r with
    | none =>
      obtain ⟨e1, e2⟩ := hnone rfl
      simp only [e1, e2, pure, Except.pure]
      simp [List.replicate_succ]
    | some x =>
      have e := hsome x rfl
      simp only [e, pure, Except.pure]
      simp

theorem priority_queue_top_eq_none (entries : List MergeData) :
    priority_queue_top entries = none ↔ entries = [] := by
  cases entries with
  | nil => simp [priority_queue_top]
  | cons entry entries =>
    simp only [priority_queue_top]
    cases priority_queue_top entries with
    | none => simp
    | some other => by_cases h : MergeDataComparator entry other = true <;> simp [h]

theorem priority_queue_top_mem (entries : List MergeData) (top : MergeData)
    (h : priority_queue_top entries = some top) : top ∈ entries := by
  induction entries generalizing top with
  | nil => simp [priority_queue_top] at h
  | cons entry entries ih =>
    simp only [priority_queue_top] at h
    cases hq : priority_queue_top entries with
    | none =>
      simp only [hq] at h
      injection h with h
      simp [h]
    | some other =>
      simp only [hq] at h
      by_cases hc : MergeDataComparator entry other = true
      · simp only [hc, if_true] at h
        injection h with h
        exact List.mem_cons_of_mem _ (h ▸ ih other hq)
      · simp only [hc] at h
        injection h with h
        simp [h]

/-- The entry `top()` returns has the least value of the queue. -/
theorem priority_queue_top_le (entries : List MergeData) (top : MergeData)
    (h : priority_queue_top entries = some top) : ∀ entry ∈ entries, top.value_ ≤ entry.value_ := by
  induction entries generalizing top with
  | nil => simp
  | cons first entries ih =>
    simp only [priority_queue_top] at h
    cases hq : priority_queue_top entries with
    | none =>
      simp only [hq] at h
      injection h with h
      have he : entries = [] := (priority_queue_top_eq_none entries).1 hq
      subst he
      intro entry hm
      simp at hm
      rw [hm, h]
    | some other =>
      simp only [hq] at h
      by_cases hc : MergeDataComparator first other = true
      · simp only [hc, if_true] at h
        injection h with h
        subst h
        intro entry hm
        rcases List.mem_cons.1 hm with e | e
        · subst e
          simp only [MergeDataComparator, decide_eq_true_eq] at hc
          exact le_of_lt hc
        · exact ih other hq entry e
      · simp only [hc] at h
        injection h with h
        subst h
        intro entry hm
        rcases List.mem_cons.1 hm with e | e
        · subst e; exact le_refl _
        · simp only [MergeDataComparator, decide_eq_true_eq, not_lt] at hc
          exact le_trans hc (ih other hq entry e)

theorem priority_queue_pop_perm (entries : List MergeData) (top : MergeData)
    (h : priority_queue_top entries = some top) :
    entries.Perm (top :: priority_queue_pop entries) := by
  simp only [priority_queue_pop, h]
  exact List.perm_cons_erase (priority_queue_top_mem entries top h)

theorem priority_queue_pop_subset (entries : List MergeData) (entry : MergeData)
    (h : entry ∈ priority_queue_pop entries) : entry ∈ entries := by
  simp only [priority_queue_pop] at h
  cases hq : priority_queue_top entries with
  | none => simpa [hq] using h
  | some top =>
    simp only [hq] at h
    exact List.mem_of_mem_erase h

theorem take_set_succ (buffer : List number_t) (j : Nat) (v : number_t) (h : j < buffer.length) :
    (buffer.set j v).take (j + 1) = buffer.take j ++ [v] := by
  induction buffer generalizing j with
  | nil => simp at h
  | cons b buffer ih =>
    cases j with
    | zero => simp
    | succ j =>
      simp only [List.set_cons_succ, List.take_succ_cons, List.cons_append, List.cons.injEq, true_and]
      exact ih j (by simpa using h)

/-- The swap of a full writeback buffer: the writeback task of the batch before has run when
the wait returns, the full array becomes the batch of the new task, and what the merge has put
out is the same. -/
theorem swapMergeBufferAndCreateTask_spec (count size : Nat) (state : MergeState)
    (hv : state.Valid count size) (hfull : state.current_merge_buffer_index = count) :
    (swapMergeBufferAndCreateTask state size).Valid count size ∧
    (swapMergeBufferAndCreateTask state size).emitted = state.emitted ∧
    (swapMergeBufferAndCreateTask state size).current_merge_buffer_index = 0 ∧
    (swapMergeBufferAndCreateTask state size).merge_buffer_1.is_ready_to_fill_ = false ∧
    (swapMergeBufferAndCreateTask state size).files_buffers = state.files_buffers ∧
    (swapMergeBufferAndCreateTask state size).merge_queue = state.merge_queue := by
  have hal := hv.aligned
  have h0 : state.merge_buffer_0.buffer_.take count = state.merge_buffer_0.buffer_ :=
    List.take_of_length_le (by rw [hv.length_0])
  have ht : (toBytes state.merge_buffer_1.buffer_).take size =
      toBytes state.merge_buffer_1.buffer_ := by
    apply List.take_of_length_le
    rw [length_toBytes, hv.length_1, hv.size_eq]
    simp [sizeofNumberType]; omega
  cases hflag : state.merge_buffer_1.is_ready_to_fill_ with
  | true =>
    refine ⟨⟨fun j r h => hv.readers j r
      (by simpa [swapMergeBufferAndCreateTask, hflag] using h), ?_, ?_, Nat.zero_le _,
      hv.count_pos, hv.size_eq, ?_⟩, ?_, ?_, ?_, ?_, ?_⟩
    · simp [swapMergeBufferAndCreateTask, hflag, hv.length_1]
    · simp [swapMergeBufferAndCreateTask, hflag, hv.length_0]
    · simpa [swapMergeBufferAndCreateTask, hflag] using hal
    · simp [swapMergeBufferAndCreateTask, hflag, MergeState.emitted, MergeState.queued, hfull, h0]
    · simp [swapMergeBufferAndCreateTask, hflag]
    · simp [swapMergeBufferAndCreateTask, hflag]
    · simp [swapMergeBufferAndCreateTask, hflag]
    · simp [swapMergeBufferAndCreateTask, hflag]
  | false =>
    refine ⟨⟨fun j r h => hv.readers j r
      (by simpa [swapMergeBufferAndCreateTask, hflag, writebackTask] using h), ?_, ?_,
      Nat.zero_le _, hv.count_pos, hv.size_eq, ?_⟩, ?_, ?_, ?_, ?_, ?_⟩
    · simp [swapMergeBufferAndCreateTask, hflag, writebackTask, hv.length_1]
    · simp [swapMergeBufferAndCreateTask, hflag, writebackTask, hv.length_0]
    · simp only [swapMergeBufferAndCreateTask, hflag, writebackTask, WriteFile, ht,
        Bool.false_eq_true, if_false, List.length_append, length_toBytes, sizeofNumberType] at hal ⊢
      omega
    · simp only [sizeofNumberType] at hal
      simp only [swapMergeBufferAndCreateTask, hflag, writebackTask, WriteFile, ht,
        MergeState.emitted, MergeState.queued, Bool.false_eq_true, if_false, hfull, h0,
        List.take_zero, List.append_nil]
      rw [toNumbers_append_of_dvd _ _ hal, toNumbers_toBytes]
    · simp [swapMergeBufferAndCreateTask, hflag, writebackTask]
    · simp [swapMergeBufferAndCreateTask, hflag, writebackTask]
    · simp [swapMergeBufferAndCreateTask, hflag, writebackTask]
    · simp [swapMergeBufferAndCreateTask, hflag, writebackTask]

/-- A store below the end of the current writeback buffer. -/
theorem store_spec (count size : Nat) (state : MergeState) (number : number_t)
    (hv : state.Valid count size) (hlt : state.current_merge_buffer_index < count) :
    ({ state with
        merge_buffer_0 := { state.merge_buffer_0 with
          buffer_ := state.merge_buffer_0.buffer_.set state.current_merge_buffer_index number },
        current_merge_buffer_index := state.current_merge_buffer_index + 1 } :
          MergeState).Valid count size ∧
    ({ state with
        merge_buffer_0 := { state.merge_buffer_0 with
          buffer_ := state.merge_buffer_0.buffer_.set state.current_merge_buffer_index number },
        current_merge_buffer_index := state.current_merge_buffer_index + 1 } :
          MergeState).emitted = state.emitted ++ [number] := by
  have hlt0 : state.current_merge_buffer_index < state.merge_buffer_0.buffer_.length := by
    rw [hv.length_0]; exact hlt
  refine ⟨⟨hv.readers, ?_, hv.length_1, ?_, hv.count_pos, hv.size_eq, hv.aligned⟩, ?_⟩
  · simp [hv.length_0]
  · show state.current_merge_buffer_index + 1 ≤ count
    omega
  · simp only [MergeState.emitted, MergeState.queued]
    rw [take_set_succ _ _ _ hlt0]
    simp only [List.append_assoc]

/-- What `storeNumber` does: the swap when the current writeback buffer is full, then the store,
which is inside the array. -/
theorem storeNumber_eq (count size : Nat) (state : MergeState) (number : number_t)
    (hv : state.Valid count size) :
    storeNumber count size state number =
      .ok (if state.current_merge_buffer_index = count then
        { swapMergeBufferAndCreateTask state size with
          merge_buffer_0 := { (swapMergeBufferAndCreateTask state size).merge_buffer_0 with
            buffer_ := (swapMergeBufferAndCreateTask state size).merge_buffer_0.buffer_.set 0
              number },
          current_merge_buffer_index := 1 }
      else
        { state with
          merge_buffer_0 := { state.merge_buffer_0 with
            buffer_ := state.merge_buffer_0.buffer_.set state.current_merge_buffer_index number },
          current_merge_buffer_index := state.current_merge_buffer_index + 1 }) := by
  by_cases hfull : state.current_merge_buffer_index = count
  · obtain ⟨hsv, _, hidx, _⟩ := swapMergeBufferAndCreateTask_spec count size state hv hfull
    have hpos := hv.count_pos
    have hl := hsv.length_0
    simp only [storeNumber, hfull, if_true, hidx, hl, hpos, pure, Except.pure]
  · have hlt : state.current_merge_buffer_index < state.merge_buffer_0.buffer_.length := by
      have := hv.index_le
      rw [hv.length_0]; omega
    simp only [storeNumber, hfull, if_false, hlt, if_true, pure, Except.pure]

/-- Storing a number appends it to what the merge has put out and keeps the shape invariant; the
readers and the queue are untouched, and the store stays inside the buffer. -/
theorem storeNumber_spec (count size : Nat) (state : MergeState) (number : number_t)
    (hv : state.Valid count size) :
    ∃ state', storeNumber count size state number = .ok state' ∧ state'.Valid count size ∧
      state'.emitted = state.emitted ++ [number] ∧
      state'.files_buffers = state.files_buffers ∧
      state'.merge_queue = state.merge_queue := by
  refine ⟨_, storeNumber_eq count size state number hv, ?_⟩
  by_cases hfull : state.current_merge_buffer_index = count
  · obtain ⟨hsv, hem, hidx, _, hfb, hmq⟩ :=
      swapMergeBufferAndCreateTask_spec count size state hv hfull
    have hst := store_spec count size (swapMergeBufferAndCreateTask state size) number hsv
      (by rw [hidx]; exact hv.count_pos)
    rw [hidx, hem] at hst
    rw [if_pos hfull]
    exact ⟨hst.1, hst.2, hfb, hmq⟩
  · have hlt : state.current_merge_buffer_index < count := by
      have := hv.index_le
      omega
    have hst := store_spec count size state number hv hlt
    rw [if_neg hfull]
    exact ⟨hst.1, hst.2, rfl, rfl⟩

theorem getElem?_set_cases (readers : List BinaryFileBuffer) (i j : Nat)
    (reader' found : BinaryFileBuffer) (h : (readers.set i reader')[j]? = some found) :
    (j = i ∧ found = reader') ∨ (j ≠ i ∧ readers[j]? = some found) := by
  by_cases hij : i = j
  · subst hij
    left
    rw [List.getElem?_set_self'] at h
    cases hr : readers[i]? with
    | none => simp [hr] at h
    | some r => simp [hr] at h; exact ⟨rfl, h.symm⟩
  · right
    rw [List.getElem?_set_ne hij] at h
    exact ⟨fun c => hij c.symm, h⟩

theorem getElem?_set_self (readers : List BinaryFileBuffer) (i : Nat)
    (reader reader' : BinaryFileBuffer) (h : readers[i]? = some reader) :
    (readers.set i reader')[i]? = some reader' := by
  rw [List.getElem?_set_self', h]; rfl

theorem pendingAll_set_perm (readers : List BinaryFileBuffer) (i : Nat)
    (reader reader' : BinaryFileBuffer) (x : number_t) (h : readers[i]? = some reader)
    (hp : reader.pending = x :: reader'.pending) :
    (pendingAll readers).Perm (x :: pendingAll (readers.set i reader')) := by
  induction readers generalizing i with
  | nil => simp at h
  | cons first readers ih =>
    cases i with
    | zero =>
      simp only [List.getElem?_cons_zero, Option.some.injEq] at h
      subst h
      simp only [List.set_cons_zero, pendingAll, hp, List.cons_append]
      exact List.Perm.refl _
    | succ i =>
      simp only [List.getElem?_cons_succ] at h
      simp only [List.set_cons_succ, pendingAll]
      have := ih i h
      exact (List.Perm.append_left first.pending this).trans List.perm_middle

theorem pendingAll_set_eq (readers : List BinaryFileBuffer) (i : Nat)
    (reader reader' : BinaryFileBuffer) (h : readers[i]? = some reader)
    (hp : reader'.pending = reader.pending) :
    pendingAll (readers.set i reader') = pendingAll readers := by
  induction readers generalizing i with
  | nil => simp at h
  | cons first readers ih =>
    cases i with
    | zero =>
      simp only [List.getElem?_cons_zero, Option.some.injEq] at h
      subst h
      simp only [List.set_cons_zero, pendingAll, hp]
    | succ i =>
      simp only [List.getElem?_cons_succ] at h
      simp only [List.set_cons_succ, pendingAll, ih i h]

theorem mergeInnerLoop_none (count size : Nat) (min_data : MergeData) (top_value : number_t)
    (fuel : Nat) (state : MergeState) (reader reader' : BinaryFileBuffer)
    (hl : state.files_buffers[min_data.file_buffer_index_]? = some reader)
    (hg : reader.get = .ok (reader', none)) :
    mergeInnerLoop count size min_data top_value (fuel + 1) state =
      .ok { state with
        files_buffers := state.files_buffers.set min_data.file_buffer_index_ reader' } := by
  rw [mergeInnerLoop]
  simp only [hl, hg, bind, Except.bind, pure, Except.pure]

theorem mergeInnerLoop_store (count size : Nat) (min_data : MergeData) (top_value : number_t)
    (fuel : Nat) (state state' : MergeState) (reader reader' : BinaryFileBuffer) (number : number_t)
    (hl : state.files_buffers[min_data.file_buffer_index_]? = some reader)
    (hg : reader.get = .ok (reader', some number)) (hle : number ≤ top_value)
    (hs : storeNumber count size { state with
        files_buffers := state.files_buffers.set min_data.file_buffer_index_ reader' } number
      = .ok state') :
    mergeInnerLoop count size min_data top_value (fuel + 1) state =
      mergeInnerLoop count size min_data top_value fuel state' := by
  rw [mergeInnerLoop]
  simp only [hl, hg, bind, Except.bind, pure, Except.pure, hle, if_true, hs]

theorem mergeInnerLoop_push (count size : Nat) (min_data : MergeData) (top_value : number_t)
    (fuel : Nat) (state : MergeState) (reader reader' : BinaryFileBuffer) (number : number_t)
    (hl : state.files_buffers[min_data.file_buffer_index_]? = some reader)
    (hg : reader.get = .ok (reader', some number)) (hle : ¬ number ≤ top_value) :
    mergeInnerLoop count size min_data top_value (fuel + 1) state =
      .ok { state with
        files_buffers := state.files_buffers.set min_data.file_buffer_index_ reader',
        merge_queue := priority_queue_push state.merge_queue
          ⟨min_data.file_buffer_index_, number⟩ } := by
  rw [mergeInnerLoop]
  simp only [hl, hg, bind, Except.bind, pure, Except.pure, hle, if_false]

theorem sorted_append_singleton (l : List number_t) (x : number_t)
    (hs : l.Sorted (fun a b => a ≤ b)) (hx : ∀ e ∈ l, e ≤ x) :
    (l ++ [x]).Sorted (fun a b => a ≤ b) := by
  unfold List.Sorted at *
  rw [List.pairwise_append]
  refine ⟨hs, List.pairwise_singleton _ _, ?_⟩
  intro a ha b hb
  simp at hb
  rw [hb]; exact hx a ha

/-- The inner loop of the merge, started on a state in which the run being drained has no entry
in the queue: it returns within the fuel, re-establishes the order invariant of the outer loop,
and neither loses nor invents a number. -/
theorem mergeInnerLoop_spec (count size : Nat) (min_data : MergeData) (top_value : number_t)
    (fuel : Nat) : ∀ (state : MergeState), state.Valid count size →
    state.Ordered (some min_data.file_buffer_index_) →
    (∃ reader, state.files_buffers[min_data.file_buffer_index_]? = some reader ∧
      reader.pending.length < fuel) →
    (∀ entry ∈ state.merge_queue, top_value ≤ entry.value_) →
    ∃ state', mergeInnerLoop count size min_data top_value fuel state = .ok state' ∧
      state'.Valid count size ∧ state'.Ordered none ∧ state'.content.Perm state.content ∧
      state.emitted.length ≤ state'.emitted.length ∧
      (pendingAll state'.files_buffers).length ≤ (pendingAll state.files_buffers).length := by
  induction fuel with
  | zero =>
    intro state _ _ h _
    obtain ⟨_, _, h⟩ := h
    exact absurd h (Nat.not_lt_zero _)
  | succ fuel ih =>
    intro state hv ho hidx htop
    obtain ⟨reader, hl, hfuel⟩ := hidx
    obtain ⟨reader', r, _, hg, hrv, _, hsome, hnone⟩ := get_spec reader (hv.readers _ _ hl)
    -- the readers after the call of `get`
    have hreaders : ∀ (j : Nat) (found : BinaryFileBuffer),
        (state.files_buffers.set min_data.file_buffer_index_ reader')[j]? = some found →
        found.Valid := by
      intro j found hf
      rcases getElem?_set_cases _ _ _ _ _ hf with ⟨_, e⟩ | ⟨_, e⟩
      · rw [e]; exact hrv
      · exact hv.readers j found e
    have hsub : ∀ x ∈ reader'.pending, x ∈ reader.pending := by
      intro x hx
      cases r with
      | none => rw [(hnone rfl).2] at hx; cases hx
      | some n => rw [hsome n rfl]; exact List.mem_cons_of_mem _ hx
    have hrsorted := ho.runs_sorted _ _ hl
    have hsorted' : reader'.pending.Sorted (fun a b => a ≤ b) := by
      cases r with
      | none => rw [(hnone rfl).2]; exact List.sorted_nil
      | some n => rw [hsome n rfl] at hrsorted; exact hrsorted.of_cons
    have hqueue : ∀ entry ∈ state.merge_queue, ∃ found,
        (state.files_buffers.set min_data.file_buffer_index_ reader')[entry.file_buffer_index_]?
          = some found ∧ ∀ x ∈ found.pending, entry.value_ ≤ x := by
      intro entry he
      obtain ⟨found, hf, hle⟩ := ho.queue_le_run entry he
      by_cases hi : entry.file_buffer_index_ = min_data.file_buffer_index_
      · rw [hi] at hf ⊢
        rw [hl] at hf
        injection hf with hf
        subst hf
        exact ⟨reader', getElem?_set_self _ _ _ _ hl, fun x hx => hle x (hsub x hx)⟩
      · refine ⟨found, ?_, hle⟩
        rw [List.getElem?_set_ne (fun c => hi c.symm)]
        exact hf
    have hruns : ∀ (j : Nat) (found : BinaryFileBuffer),
        (state.files_buffers.set min_data.file_buffer_index_ reader')[j]? = some found →
        found.pending.Sorted (fun a b => a ≤ b) := by
      intro j found hf
      rcases getElem?_set_cases _ _ _ _ _ hf with ⟨_, e⟩ | ⟨_, e⟩
      · rw [e]; exact hsorted'
      · exact ho.runs_sorted j found e
    cases r with
    | none =>
      obtain ⟨e1, e2⟩ := hnone rfl
      refine ⟨_, mergeInnerLoop_none count size min_data top_value fuel state reader reader' hl hg,
        ⟨hreaders, hv.length_0, hv.length_1, hv.index_le, hv.count_pos, hv.size_eq,
          hv.aligned⟩,
        ⟨ho.sorted, ho.out_le_queue, ?_, hqueue, ?_, hruns⟩, ?_, le_refl _, ?_⟩
      · intro j found hj; cases hj
      · intro j found _ hf hne
        rcases getElem?_set_cases _ _ _ _ _ hf with ⟨_, e⟩ | ⟨hji, e⟩
        · rw [e, e2] at hne; exact absurd rfl hne
        · exact ho.covered j found (fun c => hji (Option.some.inj c).symm) e hne
      · have e := pendingAll_set_eq state.files_buffers _ reader reader' hl (by rw [e1, e2])
        simp only [MergeState.content, MergeState.emitted, e]
        exact List.Perm.refl _
      · rw [pendingAll_set_eq state.files_buffers _ reader reader' hl (by rw [e1, e2])]
    | some number =>
      have hp := hsome number rfl
      have hperm := pendingAll_set_perm state.files_buffers _ reader reader' number hl hp
      have hout : ∀ e ∈ state.emitted, e ≤ number := fun e he =>
        ho.out_le_hole _ reader rfl hl e he number (by rw [hp]; exact List.mem_cons_self _ _)
      have hnle : ∀ x ∈ reader'.pending, number ≤ x := by
        rw [hp] at hrsorted
        exact fun x hx => List.rel_of_sorted_cons hrsorted x hx
      by_cases hle : number ≤ top_value
      · obtain ⟨state', hs, hv', hem, hfb, hmq⟩ := storeNumber_spec count size
          { state with
            files_buffers := state.files_buffers.set min_data.file_buffer_index_ reader' }
          number
          ⟨hreaders, hv.length_0, hv.length_1, hv.index_le, hv.count_pos, hv.size_eq,
            hv.aligned⟩
        have hem' : state'.emitted = state.emitted ++ [number] := hem
        have hfb' : state'.files_buffers =
            state.files_buffers.set min_data.file_buffer_index_ reader' := hfb
        have hmq' : state'.merge_queue = state.merge_queue := hmq
        have ho' : state'.Ordered (some min_data.file_buffer_index_) := by
          refine ⟨?_, ?_, ?_, ?_, ?_, ?_⟩
          · rw [hem']; exact sorted_append_singleton _ _ ho.sorted hout
          · intro e he entry hentry
            rw [hem'] at he
            rw [hmq'] at hentry
            rcases List.mem_append.1 he with h1 | h1
            · exact ho.out_le_queue e h1 entry hentry
            · simp at h1; rw [h1]; exact le_trans hle (htop entry hentry)
          · intro j found hj hf e he x hx
            injection hj with hj
            subst hj
            rw [hfb', getElem?_set_self _ _ _ _ hl] at hf
            injection hf with hf
            subst hf
            rw [hem'] at he
            rcases List.mem_append.1 he with h1 | h1
            · exact ho.out_le_hole _ reader rfl hl e h1 x (hsub x hx)
            · simp at h1; rw [h1]; exact hnle x hx
          · intro entry hentry
            rw [hmq'] at hentry
            rw [hfb']
            exact hqueue entry hentry
          · intro j found hj hf hne
            rw [hfb'] at hf
            rw [hmq']
            rcases getElem?_set_cases _ _ _ _ _ hf with ⟨e1, _⟩ | ⟨_, e⟩
            · exact absurd (congrArg some e1.symm) hj
            · exact ho.covered j found hj e hne
          · intro j found hf
            rw [hfb'] at hf
            exact hruns j found hf
        have hidx' : ∃ found, state'.files_buffers[min_data.file_buffer_index_]? = some found ∧
            found.pending.length < fuel := by
          refine ⟨reader', ?_, ?_⟩
          · rw [hfb']; exact getElem?_set_self _ _ _ _ hl
          · rw [hp] at hfuel; simp at hfuel; omega
        obtain ⟨final, hrun, hfv, hfo, hfperm, hflen, hfpend⟩ := ih state' hv' ho' hidx'
          (by rw [hmq']; exact htop)
        refine ⟨final, ?_, hfv, hfo, ?_, ?_, ?_⟩
        · rw [mergeInnerLoop_store count size min_data top_value fuel state state' reader reader'
            number hl hg hle hs]
          exact hrun
        · refine hfperm.trans ?_
          simp only [MergeState.content, hem', hfb', hmq', List.append_assoc]
          refine List.Perm.append_left _ ?_
          simp only [List.singleton_append]
          refine List.Perm.trans ?_ (List.Perm.append_left _ hperm.symm)
          exact List.perm_middle.symm
        · rw [hem'] at hflen; simp at hflen; omega
        · rw [hfb'] at hfpend
          have := hperm.length_eq
          simp at this
          omega
      · refine ⟨_, mergeInnerLoop_push count size min_data top_value fuel state reader reader'
          number hl hg hle,
          ⟨hreaders, hv.length_0, hv.length_1, hv.index_le, hv.count_pos, hv.size_eq,
            hv.aligned⟩, ⟨ho.sorted, ?_, ?_, ?_, ?_, hruns⟩, ?_, le_refl _, ?_⟩
        · intro e he entry hentry
          rcases List.mem_cons.1 hentry with h1 | h1
          · rw [h1]; exact hout e he
          · exact ho.out_le_queue e he entry h1
        · intro j found hj; cases hj
        · intro entry hentry
          rcases List.mem_cons.1 hentry with h1 | h1
          · rw [h1]
            exact ⟨reader', getElem?_set_self _ _ _ _ hl, hnle⟩
          · exact hqueue entry h1
        · intro j found _ hf hne
          rcases getElem?_set_cases _ _ _ _ _ hf with ⟨e1, _⟩ | ⟨hji, e⟩
          · exact ⟨_, List.mem_cons_self _ _, e1.symm⟩
          · obtain ⟨entry, h1, h2⟩ :=
              ho.covered j found (fun c => hji (Option.some.inj c).symm) e hne
            exact ⟨entry, List.mem_cons_of_mem _ h1, h2⟩
        · simp only [MergeState.content, MergeState.emitted, priority_queue_push, queueValues,
            List.map_cons, List.cons_append]
          refine List.Perm.append_left _ ?_
          refine List.Perm.trans ?_ (List.Perm.append_left _ hperm.symm)
          exact List.perm_middle.symm
        · have := hperm.length_eq
          simp at this
          show (pendingAll (state.files_buffers.set min_data.file_buffer_index_ reader')).length ≤ _
          omega

theorem pending_length_le (readers : List BinaryFileBuffer) (i : Nat) (reader : BinaryFileBuffer)
    (h : readers[i]? = some reader) : reader.pending.length ≤ (pendingAll readers).length := by
  induction readers generalizing i with
  | nil => simp at h
  | cons first readers ih =>
    cases i with
    | zero =>
      simp only [List.getElem?_cons_zero, Option.some.injEq] at h
      subst h
      simp [pendingAll]
    | succ i =>
      simp only [List.getElem?_cons_succ] at h
      have := ih i h
      simp only [pendingAll, List.length_append]
      omega

theorem mergeOuterLoop_done (count size inner_fuel fuel : Nat) (state : MergeState)
    (h : priority_queue_top state.merge_queue = none) :
    mergeOuterLoop count size inner_fuel (fuel + 1) state = .ok state := by
  rw [mergeOuterLoop]
  simp only [h]
  rfl

theorem mergeOuterLoop_step (count size inner_fuel fuel : Nat) (state drained : MergeState)
    (min_data : MergeData)
    (h : priority_queue_top state.merge_queue = some min_data)
    (hr : mergeOuterRound count size inner_fuel state min_data = .ok drained) :
    mergeOuterLoop count size inner_fuel (fuel + 1) state =
      mergeOuterLoop count size inner_fuel fuel drained := by
  rw [mergeOuterLoop]
  simp only [h, bind, Except.bind, hr]

/-- One round of the outer loop on a state that satisfies both invariants: it returns, keeps
both invariants, puts out at least one number, and neither loses nor invents a number. -/
theorem mergeOuterRound_spec (count size inner_fuel : Nat) (state : MergeState)
    (min_data : MergeData) (hv : state.Valid count size) (ho : state.Ordered none)
    (htop : priority_queue_top state.merge_queue = some min_data)
    (hinner : (pendingAll state.files_buffers).length < inner_fuel) :
    ∃ drained, mergeOuterRound count size inner_fuel state min_data = .ok drained ∧
      drained.Valid count size ∧ drained.Ordered none ∧ drained.content.Perm state.content ∧
      state.emitted.length < drained.emitted.length ∧
      (pendingAll drained.files_buffers).length ≤ (pendingAll state.files_buffers).length := by
  have hmem := priority_queue_top_mem _ _ htop
  have hmin := priority_queue_top_le _ _ htop
  have hperm := priority_queue_pop_perm _ _ htop
  obtain ⟨stored, hs, hsv, hem, hfb, hmq⟩ := storeNumber_spec count size
    { state with merge_queue := priority_queue_pop state.merge_queue } min_data.value_
    ⟨hv.readers, hv.length_0, hv.length_1, hv.index_le, hv.count_pos, hv.size_eq,
      hv.aligned⟩
  have hem' : stored.emitted = state.emitted ++ [min_data.value_] := hem
  have hfb' : stored.files_buffers = state.files_buffers := hfb
  have hmq' : stored.merge_queue = priority_queue_pop state.merge_queue := hmq
  obtain ⟨reader, hl, hrun⟩ := ho.queue_le_run min_data hmem
  have hout : ∀ e ∈ state.emitted, e ≤ min_data.value_ := fun e he =>
    ho.out_le_queue e he min_data hmem
  have hso : stored.Ordered (some min_data.file_buffer_index_) := by
    refine ⟨?_, ?_, ?_, ?_, ?_, ?_⟩
    · rw [hem']; exact sorted_append_singleton _ _ ho.sorted hout
    · intro e he entry hentry
      rw [hem'] at he
      rw [hmq'] at hentry
      have hentry' := priority_queue_pop_subset _ _ hentry
      rcases List.mem_append.1 he with h1 | h1
      · exact ho.out_le_queue e h1 entry hentry'
      · simp at h1; rw [h1]; exact hmin entry hentry'
    · intro j found hj hf e he x hx
      injection hj with hj
      subst hj
      rw [hfb', hl] at hf
      injection hf with hf
      subst hf
      rw [hem'] at he
      rcases List.mem_append.1 he with h1 | h1
      · exact le_trans (hout e h1) (hrun x hx)
      · simp at h1; rw [h1]; exact hrun x hx
    · intro entry hentry
      rw [hmq'] at hentry
      rw [hfb']
      exact ho.queue_le_run entry (priority_queue_pop_subset _ _ hentry)
    · intro j found hj hf hne
      rw [hfb'] at hf
      obtain ⟨entry, h1, h2⟩ := ho.covered j found (fun c => by cases c) hf hne
      rw [hmq']
      refine ⟨entry, ?_, h2⟩
      rcases List.mem_cons.1 (hperm.subset h1) with h3 | h3
      · exact absurd (by rw [← h2, h3]) hj
      · exact h3
    · intro j found hf
      rw [hfb'] at hf
      exact ho.runs_sorted j found hf
  have hidx : ∃ found, stored.files_buffers[min_data.file_buffer_index_]? = some found ∧
      found.pending.length < inner_fuel := by
    refine ⟨reader, by rw [hfb']; exact hl, ?_⟩
    have := pending_length_le _ _ _ hl
    omega
  have htop_le : ∀ entry ∈ stored.merge_queue,
      topValue (priority_queue_pop state.merge_queue) ≤ entry.value_ := by
    intro entry hentry
    rw [hmq'] at hentry
    cases hq : priority_queue_top (priority_queue_pop state.merge_queue) with
    | none =>
      rw [(priority_queue_top_eq_none _).1 hq] at hentry
      cases hentry
    | some top =>
      simp only [topValue, hq]
      exact priority_queue_top_le _ _ hq entry hentry
  obtain ⟨drained, hi, hdv, hdo, hdperm, hdlen, hdpend⟩ :=
    mergeInnerLoop_spec count size min_data _ inner_fuel stored hsv hso hidx htop_le
  refine ⟨drained, ?_, hdv, hdo, ?_, ?_, ?_⟩
  · simp only [mergeOuterRound, bind, Except.bind, hs, hi]
  · refine hdperm.trans ?_
    simp only [MergeState.content, hem', hfb', hmq', List.append_assoc, queueValues]
    refine List.Perm.append_left _ ?_
    simp only [List.singleton_append]
    have := (hperm.map (fun entry => entry.value_)).symm
    simp only [List.map_cons] at this
    exact List.Perm.append_right _ this
  · rw [hem'] at hdlen
    simp only [List.length_append, List.length_cons, List.length_nil] at hdlen
    omega
  · rw [hfb'] at hdpend
    exact hdpend

/-- The outer loop of the merge, started on a state that satisfies both invariants: it returns
within the fuel with an empty queue, keeps both invariants, and neither loses nor invents a
number. -/
theorem mergeOuterLoop_spec (count size inner_fuel fuel : Nat) : ∀ (state : MergeState),
    state.Valid count size → state.Ordered none →
    (pendingAll state.files_buffers).length < inner_fuel →
    state.merge_queue.length + (pendingAll state.files_buffers).length < fuel →
    ∃ state', mergeOuterLoop count size inner_fuel fuel state = .ok state' ∧
      state'.Valid count size ∧ state'.Ordered none ∧ state'.merge_queue = [] ∧
      state'.content.Perm state.content := by
  induction fuel with
  | zero => intro state _ _ _ h; exact absurd h (Nat.not_lt_zero _)
  | succ fuel ih =>
    intro state hv ho hinner hfuel
    cases htop : priority_queue_top state.merge_queue with
    | none =>
      exact ⟨state, mergeOuterLoop_done count size inner_fuel fuel state htop, hv, ho,
        (priority_queue_top_eq_none _).1 htop, List.Perm.refl _⟩
    | some min_data =>
      obtain ⟨drained, hr, hdv, hdo, hdperm, hdlen, hdpend⟩ :=
        mergeOuterRound_spec count size inner_fuel state min_data hv ho htop hinner
      have hlen := hdperm.length_eq
      simp only [MergeState.content, List.length_append, queueValues, List.length_map] at hlen
      obtain ⟨final, hrunf, hfv, hfo, hfq, hfperm⟩ := ih drained hdv hdo (by omega) (by omega)
      refine ⟨final, ?_, hfv, hfo, hfq, hfperm.trans hdperm⟩
      rw [mergeOuterLoop_step count size inner_fuel fuel state drained min_data htop hr]
      exact hrunf

theorem initMergeQueue_cons (reader reader' : BinaryFileBuffer) (others : List BinaryFileBuffer)
    (i : Nat) (merge_queue : List MergeData) (r : Option number_t)
    (hready : reader.buffer_0.is_ready_ = true) (hg : reader.get = .ok (reader', r)) :
    initMergeQueue (reader :: others) i merge_queue =
      (initMergeQueue others (i + 1) (pushDelivered merge_queue i r)).map
        (fun later => (reader' :: later.1, later.2)) := by
  rw [initMergeQueue]
  simp only [BinaryFileBuffer.waitForReady, BinaryFileBuffer.waitForBuffer, hready, if_true, bind,
    Except.bind, pure, Except.pure, hg, Except.map]

/-- The initialisation loop of the merge over valid readers of sorted runs: every reader makes
its first delivery into the queue, under its own index, unless it has nothing to deliver. -/
theorem initMergeQueue_spec (readers : List BinaryFileBuffer) : ∀ (i : Nat)
    (merge_queue : List MergeData),
    (∀ reader ∈ readers, reader.Valid ∧ reader.buffer_0.is_ready_ = true ∧
      reader.pending.Sorted (fun a b => a ≤ b)) →
    ∃ readers' added, initMergeQueue readers i merge_queue = .ok (readers', added ++ merge_queue) ∧
      (∀ (k : Nat) (reader' : BinaryFileBuffer), readers'[k]? = some reader' →
        reader'.Valid ∧ reader'.pending.Sorted (fun a b => a ≤ b) ∧
          (reader'.pending ≠ [] → ∃ entry ∈ added, entry.file_buffer_index_ = i + k)) ∧
      (∀ entry ∈ added, ∃ (k : Nat) (reader' : BinaryFileBuffer),
        entry.file_buffer_index_ = i + k ∧ readers'[k]? = some reader' ∧
          ∀ x ∈ reader'.pending, entry.value_ ≤ x) ∧
      (queueValues added ++ pendingAll readers').Perm (pendingAll readers) := by
  induction readers with
  | nil =>
    intro i merge_queue _
    refine ⟨[], [], rfl, ?_, ?_, List.Perm.refl _⟩
    · intro k reader' h; simp at h
    · intro entry h; cases h
  | cons reader others ih =>
    intro i merge_queue hall
    obtain ⟨hv, hready, hsorted⟩ := hall reader (List.mem_cons_self _ _)
    obtain ⟨reader', r, _, hg, hv', _, hsome, hnone⟩ := get_spec reader hv
    obtain ⟨later, added, hrun, hk, hentries, hperm⟩ := ih (i + 1)
      (pushDelivered merge_queue i r) (fun q hq => hall q (List.mem_cons_of_mem _ hq))
    have hstep := initMergeQueue_cons reader reader' others i merge_queue r hready hg
    rw [hrun] at hstep
    have hlater : ∀ (k : Nat) (found : BinaryFileBuffer) (extra : List MergeData),
        later[k]? = some found →
        found.Valid ∧ found.pending.Sorted (fun a b => a ≤ b) ∧
          (found.pending ≠ [] → ∃ entry ∈ added ++ extra,
            entry.file_buffer_index_ = i + (k + 1)) := by
      intro k found extra hf
      obtain ⟨h1, h2, h3⟩ := hk k found hf
      refine ⟨h1, h2, fun hne => ?_⟩
      obtain ⟨entry, he1, he2⟩ := h3 hne
      exact ⟨entry, List.mem_append_left _ he1, by rw [he2]; omega⟩
    have hadded : ∀ entry ∈ added, ∃ (k : Nat) (found : BinaryFileBuffer),
        entry.file_buffer_index_ = i + k ∧ (reader' :: later)[k]? = some found ∧
          ∀ x ∈ found.pending, entry.value_ ≤ x := by
      intro entry he
      obtain ⟨k, found, h1, h2, h3⟩ := hentries entry he
      exact ⟨k + 1, found, by rw [h1]; omega, by simpa using h2, h3⟩
    cases r with
    | none =>
      obtain ⟨e1, e2⟩ := hnone rfl
      refine ⟨reader' :: later, added, hstep, ?_, hadded, ?_⟩
      · intro k found hf
        cases k with
        | zero =>
          simp only [List.getElem?_cons_zero, Option.some.injEq] at hf
          subst hf
          refine ⟨hv', by rw [e2]; exact List.sorted_nil, fun hne => absurd e2 hne⟩
        | succ k =>
          simp only [List.getElem?_cons_succ] at hf
          have := hlater k found [] hf
          simpa using this
      · simp only [pendingAll, e1, e2, List.nil_append]
        exact hperm
    | some number =>
      have hp := hsome number rfl
      have hnle : ∀ x ∈ reader'.pending, number ≤ x := by
        rw [hp] at hsorted
        exact fun x hx => List.rel_of_sorted_cons hsorted x hx
      refine ⟨reader' :: later, added ++ [⟨i, number⟩], ?_, ?_, ?_, ?_⟩
      · rw [hstep]
        simp [Except.map, priority_queue_push, pushDelivered]
      · intro k found hf
        cases k with
        | zero =>
          simp only [List.getElem?_cons_zero, Option.some.injEq] at hf
          subst hf
          refine ⟨hv', ?_, fun _ => ⟨⟨i, number⟩, by simp, rfl⟩⟩
          rw [hp] at hsorted
          exact hsorted.of_cons
        | succ k =>
          simp only [List.getElem?_cons_succ] at hf
          exact hlater k found _ hf
      · intro entry he
        rcases List.mem_append.1 he with h1 | h1
        · exact hadded entry h1
        · simp at h1
          subst h1
          exact ⟨0, reader', rfl, by simp, hnle⟩
      · simp only [pendingAll, hp, queueValues, List.map_append, List.map_cons, List.map_nil,
          List.append_assoc, List.singleton_append, List.cons_append]
        have h1 : (List.map (fun entry => entry.value_) added ++
            number :: (reader'.pending ++ pendingAll later)).Perm
            (number :: (reader'.pending ++
              (List.map (fun entry => entry.value_) added ++ pendingAll later))) := by
          refine List.perm_middle.trans (List.Perm.cons _ ?_)
          rw [← List.append_assoc, ← List.append_assoc]
          exact List.Perm.append_right _ List.perm_append_comm
        refine h1.trans (List.Perm.cons _ (List.Perm.append_left _ ?_))
        exact hperm

theorem merge_buffer_size_eq (available_memory files_count : Nat) :
    merge_buffer_size_in_bytes available_memory files_count =
      merge_numbers_count available_memory files_count * sizeofNumberType := by
  simp only [merge_numbers_count, merge_buffer_size_in_bytes]
  exact RoundSize_eq_mul _

theorem file_buffer_memory_size_le (available_memory files_count : Nat) :
    file_buffer_memory_size available_memory files_count ≤
      CalcFilesBuffersMemorySize available_memory := by
  simp only [file_buffer_memory_size, RoundSize, sizeofNumberType]
  have := Nat.div_le_self (CalcFilesBuffersMemorySize available_memory) files_count
  omega

theorem sizeSub_eq (a b : Nat) (ha : a < sizeRange) (hb : b ≤ a) : sizeSub a b = a - b := by
  simp only [sizeSub, sizeRange] at *
  omega

/-- The budget of the readers leaves at least a quarter of an accepted budget, wrapped product
or not. -/
theorem CalcFilesBuffersMemorySize_le (available_memory : Nat)
    (hmin : kMinAvailableMemory ≤ available_memory) :
    CalcFilesBuffersMemorySize available_memory + 32 ≤ available_memory := by
  simp only [CalcFilesBuffersMemorySize, sizeRange, kMinAvailableMemory] at *
  by_cases h : available_memory * 3 < 18446744073709551616
  · rw [Nat.mod_eq_of_lt h]; omega
  · have := Nat.mod_lt (available_memory * 3) (show 18446744073709551616 > 0 by decide)
    omega

/-- For an accepted budget the per-run read budget leaves room for the writeback buffers: the
subtraction does not wrap and each writeback buffer holds at least one number. -/
theorem merge_numbers_count_pos (available_memory files_count : Nat)
    (hmin : kMinAvailableMemory ≤ available_memory) (hrange : available_memory < sizeRange) :
    0 < merge_numbers_count available_memory files_count := by
  have h1 := file_buffer_memory_size_le available_memory files_count
  have h2 := sizeSub_eq available_memory _ hrange
    (le_trans h1 (Nat.le_of_lt (Nat.lt_of_lt_of_le (Nat.lt_add_of_pos_right (by decide))
      (CalcFilesBuffersMemorySize_le available_memory hmin))))
  have h3 := CalcFilesBuffersMemorySize_le available_memory hmin
  simp only [merge_numbers_count, merge_buffer_size_in_bytes, h2]
  generalize file_buffer_memory_size available_memory files_count = per_run at h1 ⊢
  generalize CalcFilesBuffersMemorySize available_memory = total at h1 h3
  simp only [RoundSize, sizeofNumberType, kMinAvailableMemory] at *
  omega

theorem runFilesBytes_ge (directory : Nat → Option (List Byte)) (files : List (List Byte)) :
    ∀ (i : Nat), (∀ (k : Nat) (file : List Byte), files[k]? = some file →
      directory (i + k) = some file) →
    (numbersOfFiles files).length ≤ runFilesBytes directory files.length i := by
  induction files with
  | nil => intro i _; simp [numbersOfFiles]
  | cons file files ih =>
    intro i hdir
    have h0 := hdir 0 file (by simp)
    simp only [Nat.add_zero] at h0
    have := ih (i + 1) (fun k f hf => by
      have := hdir (k + 1) f (by simpa using hf)
      rw [← this]; congr 1; omega)
    simp only [numbersOfFiles, List.length_append, List.length_cons, runFilesBytes, h0,
      Option.getD_some, length_toNumbers]
    omega

/-- The readers made over the run files are valid and ready, and together they have the whole
numbers of the files to deliver, or nothing when their buffers have room for no number. -/
theorem CreateIntermediateFilesBuffers_spec (directory : Nat → Option (List Byte)) (size : Nat)
    (files : List (List Byte)) : ∀ (i : Nat),
    (∀ (k : Nat) (file : List Byte), files[k]? = some file → directory (i + k) = some file) →
    ∃ readers, CreateIntermediateFilesBuffers directory size files.length i = .ok readers ∧
      (∀ reader ∈ readers, reader.Valid ∧ reader.buffer_0.is_ready_ = true ∧
        ∃ file ∈ files, reader.pending =
          if RoundSize (size / kBuffersCount) / sizeofNumberType = 0 then []
          else toNumbers file) ∧
      pendingAll readers =
        if RoundSize (size / kBuffersCount) / sizeofNumberType = 0 then []
        else numbersOfFiles files := by
  induction files with
  | nil =>
    intro i _
    refine ⟨[], rfl, ?_, ?_⟩
    · intro reader h; cases h
    · simp [pendingAll, numbersOfFiles]
  | cons file files ih =>
    intro i hdir
    have h0 := hdir 0 file (by simp)
    simp only [Nat.add_zero] at h0
    obtain ⟨others, hrun, hall, hpending⟩ := ih (i + 1) (fun k f hf => by
      have := hdir (k + 1) f (by simpa using hf)
      rw [← this]; congr 1; omega)
    obtain ⟨reader, hc, hv, hready, hcount, hp⟩ := construct_spec file size
    rw [hcount] at hp
    refine ⟨reader :: others, ?_, ?_, ?_⟩
    · simp only [List.length_cons, CreateIntermediateFilesBuffers, h0, hc, hrun, bind, Except.bind,
        pure, Except.pure]
    · intro q hq
      rcases List.mem_cons.1 hq with e | e
      · subst e
        exact ⟨hv, hready, file, List.mem_cons_self _ _, hp⟩
      · obtain ⟨a, b, f, hf, c⟩ := hall q e
        exact ⟨a, b, f, List.mem_cons_of_mem _ hf, c⟩
    · simp only [pendingAll, hp, hpending, numbersOfFiles]
      split <;> simp

theorem toBytes_append (a b : List number_t) : toBytes (a ++ b) = toBytes a ++ toBytes b := by
  induction a with
  | nil => rfl
  | cons x a ih => simp [toBytes, ih]

theorem take_toBytes (numbers : List number_t) (j : Nat) :
    (toBytes numbers).take (j * sizeofNumberType) = toBytes (numbers.take j) := by
  induction j generalizing numbers with
  | zero => simp [toBytes]
  | succ j ih =>
    cases numbers with
    | nil => simp [toBytes]
    | cons x numbers =>
      have : (j + 1) * sizeofNumberType = j * sizeofNumberType + 1 + 1 + 1 + 1 := by
        simp [sizeofNumberType]; omega
      simp only [toBytes, numberBytes, List.cons_append, List.nil_append, this,
        List.take_succ_cons, ih]

theorem toBytes_toNumbers_of_dvd (bytes : List Byte) (h : sizeofNumberType ∣ bytes.length) :
    toBytes (toNumbers bytes) = bytes := by
  have e := toBytes_toNumbers_append_drop bytes
  simp only [sizeofNumberType] at h
  rw [Nat.div_mul_cancel h, List.drop_length, List.append_nil] at e
  exact e

theorem pendingAll_eq_nil (readers : List BinaryFileBuffer)
    (h : ∀ (k : Nat) (reader : BinaryFileBuffer), readers[k]? = some reader →
      reader.pending = []) : pendingAll readers = [] := by
  induction readers with
  | nil => rfl
  | cons reader readers ih =>
    simp only [pendingAll, h 0 reader (by simp), List.nil_append]
    exact ih (fun k r hr => h (k + 1) r (by simpa using hr))

/-- The tail flush appends the filled part of the current writeback buffer to the stream. -/
theorem tailWrite_content (stream : ofstream) (state : MergeState) :
    (tailWrite stream state).content =
      stream.content ++
        toBytes (state.merge_buffer_0.buffer_.take state.current_merge_buffer_index) := by
  by_cases h : state.current_merge_buffer_index = 0
  · simp [tailWrite, h, toBytes]
  · simp only [tailWrite, ne_eq, h, not_false_eq_true, if_true, WriteFile, take_toBytes]

/-- The output when `mergeSortedChunksImpl` returns, from the state the outer loop leaves. When
the writeback task of the last batch has run before the tail flush the output holds exactly the
numbers the merge has put out, in that order; when it runs after the tail flush the batch stands
behind the tail; when it has not run yet the batch is missing. -/
theorem tailFlush_spec (count size : Nat) (state : MergeState) (hv : state.Valid count size) :
    (tailFlush state size LastTask.beforeTailFlush).content = toBytes state.emitted ∧
    (tailFlush state size LastTask.afterTailFlush).content =
      toBytes (toNumbers state.output_file_stream_.content ++
        state.merge_buffer_0.buffer_.take state.current_merge_buffer_index ++ state.queued) ∧
    (tailFlush state size LastTask.afterReturn).content =
      toBytes (toNumbers state.output_file_stream_.content ++
        state.merge_buffer_0.buffer_.take state.current_merge_buffer_index) := by
  have hal := toBytes_toNumbers_of_dvd _ hv.aligned
  have ht : (toBytes state.merge_buffer_1.buffer_).take size =
      toBytes state.merge_buffer_1.buffer_ := by
    apply List.take_of_length_le
    rw [length_toBytes, hv.length_1, hv.size_eq]
    simp [sizeofNumberType]; omega
  cases hflag : state.merge_buffer_1.is_ready_to_fill_ with
  | true =>
    simp only [tailFlush, hflag, if_true, tailWrite_content, MergeState.emitted,
      MergeState.queued, toBytes_append, hal, List.append_nil, toBytes, and_self]
  | false =>
    simp only [tailFlush, hflag, Bool.false_eq_true, if_false, tailWrite_content,
      MergeState.emitted, MergeState.queued, toBytes_append, hal, writebackTask, WriteFile, ht,
      List.append_assoc, and_self]

/-- With no writeback task queued the output is the same whenever the last task runs. -/
theorem tailFlush_ready (state : MergeState) (size : Nat) (schedule : LastTask)
    (h : state.merge_buffer_1.is_ready_to_fill_ = true) :
    tailFlush state size schedule = tailFlush state size LastTask.beforeTailFlush := by
  cases schedule <;> simp [tailFlush, h]

theorem stable_sort_sorted (numbers : List number_t) :
    (stable_sort numbers).Sorted (fun a b => a ≤ b) :=
  List.sorted_insertionSort _ numbers

theorem stable_sort_perm (numbers : List number_t) : (stable_sort numbers).Perm numbers :=
  List.perm_insertionSort _ numbers

theorem toNumbers_chunkFile (bytes : List Byte) :
    toNumbers (chunkFile bytes) = stable_sort (toNumbers bytes) := by
  unfold chunkFile
  rw [toNumbers_toBytes_append,
    toNumbers_short (bytes.drop (bytes.length / sizeofNumberType * sizeofNumberType)),
    List.append_nil]
  simp only [List.length_drop, sizeofNumberType]
  omega

theorem length_chunkFile (bytes : List Byte) : (chunkFile bytes).length = bytes.length := by
  simp only [chunkFile, List.length_append, length_toBytes, List.length_drop, sizeofNumberType,
    (stable_sort_perm _).length_eq, length_toNumbers]
  omega

/-- The bytes the chunk task writes: for a buffer whose front holds the bytes of the read, the
first `bytes_read` bytes after the in-place sort are the run file of those bytes. -/
theorem sortChunkTask_file (got stale : List Byte) :
    (toBytes (stable_sort ((toNumbers (got ++ stale)).take (got.length / sizeofNumberType))) ++
      (got ++ stale).drop (got.length / sizeofNumberType * sizeofNumberType)).take got.length =
    chunkFile got := by
  simp only [sizeofNumberType]
  rw [take_toNumbers_append]
  have hm : got.length / 4 * 4 ≤ got.length := Nat.div_mul_le_self _ _
  rw [List.drop_append_of_le_length hm, ← List.append_assoc]
  have hl : (toBytes (stable_sort (toNumbers got)) ++ got.drop (got.length / 4 * 4)).length =
      got.length := by
    have := length_chunkFile got
    simpa [chunkFile, sizeofNumberType] using this
  rw [List.take_append_of_le_length (by rw [hl]), List.take_of_length_le (by rw [hl])]
  rfl

theorem WriteIntermediateFile_eq (directory : Nat → Option (List Byte)) (id : Nat)
    (buffer : List Byte) (size : Nat) :
    WriteIntermediateFile directory id buffer size =
      fun k => if k = id then some (buffer.take size) else directory k := rfl

theorem createSortedChunksLoop_end (fuel k : Nat) (self : ExternalSorter) (buffer : List Byte)
    (queue : List (List Byte)) (stream : ifstream) (bytes : List Byte)
    (h : ReadFileStream self.input_file_stream_ buffer (k * sizeofNumberType) =
      (stream, bytes, ⟨true, 0⟩)) :
    ExternalSorter.createSortedChunksLoop (fuel + 1) k self (buffer :: queue) =
      .ok { self with input_file_stream_ := stream } := by
  rw [ExternalSorter.createSortedChunksLoop]
  simp only [h]
  rfl

theorem createSortedChunksLoop_step (fuel k : Nat) (self : ExternalSorter) (buffer : List Byte)
    (queue : List (List Byte)) (stream : ifstream) (bytes : List Byte) (count : Nat)
    (h : ReadFileStream self.input_file_stream_ buffer (k * sizeofNumberType) =
      (stream, bytes, ⟨true, count⟩)) (hc : count ≠ 0) :
    ExternalSorter.createSortedChunksLoop (fuel + 1) k self (buffer :: queue) =
      ExternalSorter.createSortedChunksLoop fuel k
        (ExternalSorter.sortChunkTask { self with input_file_stream_ := stream } bytes count).1
        (queue ++ [(ExternalSorter.sortChunkTask { self with input_file_stream_ := stream } bytes
          count).2]) := by
  rw [ExternalSorter.createSortedChunksLoop]
  simp only [h, hc, if_false]
  rfl

/-- The chunking loop on a good input stream with a free buffer in the queue: it returns within
the fuel, writes the run files `files` one after the other under the ids the 32-bit counter
takes, every run file holds sorted numbers, and for a chunk of at least one record the run files
hold the whole numbers of the input between them; their count is the size of the input over the
size of a chunk, rounded up. -/
theorem createSortedChunksLoop_spec (k : Nat) (fuel : Nat) : ∀ (self : ExternalSorter)
    (queue : List (List Byte)), self.input_file_stream_.state = goodbit → queue ≠ [] →
    self.input_file_stream_.rest.length < fuel →
    self.intermediate_files_count_ < uint32Range →
    ∃ self' files, ExternalSorter.createSortedChunksLoop fuel k self queue = .ok self' ∧
      self'.available_memory_ = self.available_memory_ ∧
      self'.output_file_stream_ = self.output_file_stream_ ∧
      self'.intermediate_files_count_ =
        (self.intermediate_files_count_ + files.length) % uint32Range ∧
      self'.intermediate_directory =
        writeRuns self.intermediate_directory self.intermediate_files_count_ files ∧
      (∀ file ∈ files, (toNumbers file).Sorted (fun a b => a ≤ b)) ∧
      (k = 0 → files = []) ∧
      (0 < k →
        (numbersOfFiles files).Perm (toNumbers self.input_file_stream_.rest) ∧
        files.length = (self.input_file_stream_.rest.length + k * sizeofNumberType - 1) /
          (k * sizeofNumberType) ∧
        filesBytes files = self.input_file_stream_.rest.length ∧
        (0 < self.input_file_stream_.rest.length →
          self.input_file_stream_.rest.length ≤ k * sizeofNumberType →
          files = [chunkFile self.input_file_stream_.rest])) := by
  induction fuel with
  | zero => intro self queue _ _ h _; exact absurd h (Nat.not_lt_zero _)
  | succ fuel ih =>
    intro self queue hgood hqueue hfuel hbound
    have hmod : self.intermediate_files_count_ =
        (self.intermediate_files_count_ + 0) % uint32Range := by
      rw [Nat.add_zero, Nat.mod_eq_of_lt hbound]
    obtain ⟨buffer, queue, rfl⟩ : ∃ b q, queue = b :: q := by
      cases queue with
      | nil => exact absurd rfl hqueue
      | cons b q => exact ⟨b, q, rfl⟩
    by_cases hfull : k * sizeofNumberType ≤ self.input_file_stream_.rest.length
    · have hread := ReadFileStream_full self.input_file_stream_ buffer _ hgood hfull
      by_cases hk : k = 0
      · -- a chunk of no record: the read of zero bytes ends the loop
        subst hk
        simp only [Nat.zero_mul] at hread
        have hrun := createSortedChunksLoop_end fuel 0 self buffer queue _ _
          (by rw [Nat.zero_mul]; exact hread)
        refine ⟨_, [], hrun, rfl, rfl, hmod, rfl, ?_, fun _ => rfl, ?_⟩
        · intro file h; cases h
        · intro h; exact absurd h (Nat.lt_irrefl 0)
      · have hkpos : 0 < k := Nat.pos_of_ne_zero hk
        have hc : k * sizeofNumberType ≠ 0 := by simp [sizeofNumberType]; omega
        have hstep := createSortedChunksLoop_step fuel k self buffer queue _ _ _ hread hc
        have hgot : (self.input_file_stream_.rest.take (k * sizeofNumberType)).length =
            k * sizeofNumberType := by simp [List.length_take]; omega
        have hfile := sortChunkTask_file (self.input_file_stream_.rest.take (k * sizeofNumberType))
          (buffer.drop (k * sizeofNumberType))
        rw [hgot] at hfile
        obtain ⟨self', files, hrun, hmem, hout, hcount, hdir, hsorted, _, hpos⟩ :=
          ih (ExternalSorter.sortChunkTask
              { self with input_file_stream_ :=
                  ⟨self.input_file_stream_.rest.drop (k * sizeofNumberType), goodbit,
                    k * sizeofNumberType⟩ }
              (self.input_file_stream_.rest.take (k * sizeofNumberType) ++
                buffer.drop (k * sizeofNumberType)) (k * sizeofNumberType)).1
            (queue ++ [_]) rfl (by simp)
            (by
              show (self.input_file_stream_.rest.drop (k * sizeofNumberType)).length < fuel
              simp only [List.length_drop]; omega)
            (Nat.mod_lt _ (by decide))
        obtain ⟨hperm, hlen, hbytes, _⟩ := hpos hkpos
        have hcount' : self'.intermediate_files_count_ =
          ((self.intermediate_files_count_ + 1) % uint32Range + files.length) % uint32Range :=
          hcount
        have hdir' : self'.intermediate_directory =
            writeRuns
              (WriteIntermediateFile self.intermediate_directory self.intermediate_files_count_
                (toBytes (stable_sort ((toNumbers
                  (self.input_file_stream_.rest.take (k * sizeofNumberType) ++
                    buffer.drop (k * sizeofNumberType))).take
                    (k * sizeofNumberType / sizeofNumberType))) ++
                  (self.input_file_stream_.rest.take (k * sizeofNumberType) ++
                    buffer.drop (k * sizeofNumberType)).drop
                    (k * sizeofNumberType / sizeofNumberType * sizeofNumberType))
                (k * sizeofNumberType))
              ((self.intermediate_files_count_ + 1) % uint32Range) files := hdir
        have hperm' : (numbersOfFiles files).Perm
            (toNumbers (self.input_file_stream_.rest.drop (k * sizeofNumberType))) := hperm
        have hlen' : files.length =
            ((self.input_file_stream_.rest.drop (k * sizeofNumberType)).length +
              k * sizeofNumberType - 1) / (k * sizeofNumberType) := hlen
        refine ⟨self', chunkFile (self.input_file_stream_.rest.take (k * sizeofNumberType)) :: files,
          ?_, hmem, hout, ?_, ?_, ?_, fun h => absurd h hk, fun _ => ⟨?_, ?_, ?_, ?_⟩⟩
        · rw [hstep]; exact hrun
        · rw [hcount']; simp only [List.length_cons, uint32Range]; omega
        · rw [hdir']
          simp only [WriteIntermediateFile_eq, hfile, writeRuns]
        · intro file hf
          rcases List.mem_cons.1 hf with e | e
          · rw [e, toNumbers_chunkFile]; exact stable_sort_sorted _
          · exact hsorted file e
        · simp only [numbersOfFiles, toNumbers_chunkFile]
          have hsplit : toNumbers self.input_file_stream_.rest =
              toNumbers (self.input_file_stream_.rest.take (k * sizeofNumberType)) ++
                toNumbers (self.input_file_stream_.rest.drop (k * sizeofNumberType)) := by
            rw [← toNumbers_append_of_dvd _ _ (by rw [hgot]; exact ⟨k, by simp [sizeofNumberType]; omega⟩),
              List.take_append_drop]
          rw [hsplit]
          exact List.Perm.append (stable_sort_perm _) hperm'
        · simp only [List.length_cons, hlen', List.length_drop]
          have hcpos : 0 < k * sizeofNumberType := by omega
          generalize k * sizeofNumberType = c at hfull hcpos
          have : self.input_file_stream_.rest.length + c - 1 =
              (self.input_file_stream_.rest.length - c + c - 1) + c := by omega
          rw [this, Nat.add_div_right _ hcpos]
        · have hbytes' : filesBytes files =
              (self.input_file_stream_.rest.drop (k * sizeofNumberType)).length := hbytes
          simp only [filesBytes, length_chunkFile, hgot, hbytes', List.length_drop]
          omega
        · intro _ hle
          have heq : self.input_file_stream_.rest.length = k * sizeofNumberType := by omega
          have h0 : files = [] := by
            apply List.length_eq_zero.1
            rw [hlen', List.length_drop, heq]
            have hcpos : 0 < k * sizeofNumberType := by omega
            generalize k * sizeofNumberType = c at hcpos
            rw [Nat.sub_self, Nat.zero_add]
            exact Nat.div_eq_of_lt (by omega)
          rw [h0, List.take_of_length_le (by omega)]
    · have hshort : self.input_file_stream_.rest.length < k * sizeofNumberType := by omega
      have hkpos : 0 < k := by
        rcases Nat.eq_zero_or_pos k with h | h
        · subst h; simp at hshort
        · exact h
      have hread := ReadFileStream_short self.input_file_stream_ buffer _ hgood hshort
      by_cases hempty : self.input_file_stream_.rest.length = 0
      · -- the end of the file: the read of no byte ends the loop
        rw [hempty] at hread
        have hnil : self.input_file_stream_.rest = [] := List.length_eq_zero.1 hempty
        have hrun := createSortedChunksLoop_end fuel k self buffer queue _ _ hread
        refine ⟨_, [], hrun, rfl, rfl, hmod, rfl, ?_, fun _ => rfl,
          fun _ => ⟨?_, ?_, ?_, ?_⟩⟩
        · intro file h; cases h
        · simp [numbersOfFiles, hnil, toNumbers]
        · rw [hempty]
          simp only [List.length_nil, Nat.zero_add]
          exact (Nat.div_eq_of_lt (by omega)).symm
        · rw [hempty]; rfl
        · intro h; omega
      · -- the last, short chunk; the next read finds the stream at the end of the file
        have hstep := createSortedChunksLoop_step fuel k self buffer queue _ _ _ hread hempty
        have hfile := sortChunkTask_file self.input_file_stream_.rest
          (buffer.drop self.input_file_stream_.rest.length)
        obtain ⟨fuel', rfl⟩ : ∃ f, fuel = f + 1 := ⟨fuel - 1, by omega⟩
        obtain ⟨done, hdone⟩ : ∃ done, done = ExternalSorter.sortChunkTask
            { self with input_file_stream_ :=
                ⟨[], failbit_or_eofbit, self.input_file_stream_.rest.length⟩ }
            (self.input_file_stream_.rest ++ buffer.drop self.input_file_stream_.rest.length)
            self.input_file_stream_.rest.length := ⟨_, rfl⟩
        rw [← hdone] at hstep
        have hstream : done.1.input_file_stream_ =
            ⟨[], failbit_or_eofbit, self.input_file_stream_.rest.length⟩ := by rw [hdone]; rfl
        have hend : ReadFileStream done.1.input_file_stream_ (queue ++ [done.2]).head!
            (k * sizeofNumberType) =
            (⟨[], failbit_or_eofbit, 0⟩, (queue ++ [done.2]).head!, ⟨true, 0⟩) := by
          rw [ReadFileStream_at_end _ _ _ (by rw [hstream]), hstream]
        have hq : queue ++ [done.2] = (queue ++ [done.2]).head! :: (queue ++ [done.2]).tail := by
          cases queue <;> rfl
        rw [hq] at hstep
        have hrun := createSortedChunksLoop_end fuel' k done.1 _ (queue ++ [done.2]).tail _ _ hend
        rw [← hstep] at hrun
        refine ⟨_, [chunkFile self.input_file_stream_.rest], hrun, ?_, ?_, ?_, ?_, ?_,
          fun h => by omega, fun _ => ⟨?_, ?_, ?_, fun _ _ => rfl⟩⟩
        · rw [hdone]; rfl
        · rw [hdone]; rfl
        · rw [hdone]; rfl
        · rw [hdone]
          simp only [ExternalSorter.sortChunkTask, WriteIntermediateFile_eq, hfile, writeRuns]
        · intro file hf
          simp at hf
          rw [hf, toNumbers_chunkFile]; exact stable_sort_sorted _
        · simp only [numbersOfFiles, toNumbers_chunkFile, List.append_nil]
          exact stable_sort_perm _
        · simp only [List.length_cons, List.length_nil, Nat.zero_add]
          have hcpos : 0 < k * sizeofNumberType := by omega
          generalize k * sizeofNumberType = c at hshort hcpos
          have : self.input_file_stream_.rest.length + c - 1 =
              (self.input_file_stream_.rest.length - 1) + c := by omega
          rw [this, Nat.add_div_right _ hcpos, Nat.div_eq_of_lt (by omega)]
        · simp only [filesBytes, length_chunkFile, Nat.add_zero]

/-- A run file written under an id none of the later files takes is still there. -/
theorem writeRuns_frame (files : List (List Byte)) : ∀ (directory : Nat → Option (List Byte))
    (count id : Nat), count < uint32Range →
    (∀ j, j < files.length → (count + j) % uint32Range ≠ id) →
    writeRuns directory count files id = directory id := by
  induction files with
  | nil => intro directory count id _ _; rfl
  | cons file files ih =>
    intro directory count id hcount hne
    rw [writeRuns, ih _ _ id (Nat.mod_lt _ (by decide))]
    · have h0 := hne 0 (by simp)
      rw [Nat.add_zero, Nat.mod_eq_of_lt hcount] at h0
      simp only [if_neg (Ne.symm h0)]
    · intro j hj
      have := hne (j + 1) (by simpa using hj)
      simp only [uint32Range] at this ⊢
      omega

/-- While the counter does not wrap, the run file number `j` is under the id `count + j`. -/
theorem writeRuns_index (files : List (List Byte)) : ∀ (directory : Nat → Option (List Byte))
    (count j : Nat) (file : List Byte), count + files.length ≤ uint32Range →
    files[j]? = some file → writeRuns directory count files (count + j) = some file := by
  induction files with
  | nil => intro directory count j file _ h; simp at h
  | cons first files ih =>
    intro directory count j file hle hf
    simp only [List.length_cons] at hle
    cases j with
    | zero =>
      simp only [List.getElem?_cons_zero, Option.some.injEq] at hf
      rw [writeRuns, Nat.add_zero, writeRuns_frame _ _ _ _ (Nat.mod_lt _ (by decide))]
      · simp [hf]
      · intro j hj
        simp only [uint32Range] at hle ⊢
        omega
    | succ j =>
      simp only [List.getElem?_cons_succ] at hf
      have hj : j < files.length := by
        rcases Nat.lt_or_ge j files.length with h | h
        · exact h
        · rw [List.getElem?_eq_none h] at hf; cases hf
      have hmod : (count + 1) % uint32Range = count + 1 :=
        Nat.mod_eq_of_lt (by omega)
      rw [writeRuns, hmod]
      have := ih (fun id => if id = count then some first else directory id) (count + 1) j file
        (by omega) hf
      rw [← this]
      congr 1
      omega

/-- After `n` run files and then `files`, every id the counter has taken holds a run file with
the property all written files have. -/
theorem writeRuns_present (P : List Byte → Prop) (files : List (List Byte)) :
    ∀ (directory : Nat → Option (List Byte)) (n : Nat), (∀ file ∈ files, P file) →
    (∀ id, id < n → id < uint32Range → ∃ file, directory id = some file ∧ P file) →
    ∀ id, id < n + files.length → id < uint32Range →
      ∃ file, writeRuns directory (n % uint32Range) files id = some file ∧ P file := by
  induction files with
  | nil =>
    intro directory n _ hdir id hid hr
    exact hdir id (by simpa using hid) hr
  | cons first files ih =>
    intro directory n hall hdir id hid hr
    have hstep : (n % uint32Range + 1) % uint32Range = (n + 1) % uint32Range := by
      simp only [uint32Range]; omega
    rw [writeRuns, hstep]
    refine ih _ (n + 1) (fun file hf => hall file (List.mem_cons_of_mem _ hf)) ?_ id
      (by simp only [List.length_cons] at hid; omega) hr
    intro id' hid' hr'
    by_cases he : id' = n % uint32Range
    · exact ⟨first, by simp [he], hall first (List.mem_cons_self _ _)⟩
    · obtain ⟨file, hfile, hp⟩ := hdir id' (by
        rcases Nat.lt_or_ge id' n with h | h
        · exact h
        · exfalso
          have : id' = n := by omega
          rw [this, Nat.mod_eq_of_lt (by rw [← this]; exact hr')] at he
          exact he rfl) hr'
      exact ⟨file, by simp [he, hfile], hp⟩

/-- The run files under the ids below `count`, as a list. -/
theorem exists_runs (P : List Byte → Prop) (directory : Nat → Option (List Byte)) :
    ∀ (count : Nat), (∀ id, id < count → ∃ file, directory id = some file ∧ P file) →
    ∃ runs : List (List Byte), runs.length = count ∧
      (∀ (j : Nat) (file : List Byte), runs[j]? = some file → directory j = some file) ∧
      ∀ file ∈ runs, P file := by
  intro count
  induction count with
  | zero =>
    intro _
    exact ⟨[], rfl, fun j file h => by simp at h, fun file h => (nomatch h)⟩
  | succ count ih =>
    intro hall
    obtain ⟨runs, hlen, hdir, hp⟩ := ih (fun id hid => hall id (Nat.lt_succ_of_lt hid))
    obtain ⟨last, hlast, hpl⟩ := hall count (Nat.lt_succ_self _)
    refine ⟨runs ++ [last], by simp [hlen], ?_, ?_⟩
    · intro j file hj
      rcases Nat.lt_or_ge j runs.length with h | h
      · rw [List.getElem?_append_left h] at hj
        exact hdir j file hj
      · rw [List.getElem?_append_right h] at hj
        have hz : j - runs.length = 0 := by
          rcases Nat.eq_zero_or_pos (j - runs.length) with hz | hz
          · exact hz
          · rw [List.getElem?_eq_none (by simp only [List.length_singleton]; omega)] at hj
            cases hj
        rw [hz] at hj
        simp only [List.getElem?_cons_zero, Option.some.injEq] at hj
        have : j = count := by omega
        rw [this, ← hj]
        exact hlast
    · intro file hf
      rcases List.mem_append.1 hf with h | h
      · exact hp file h
      · simp only [List.mem_singleton] at h
        rw [h]; exact hpl

/-- The chunking phase of a sorter with a good input stream and no run yet, for a hardware
concurrency of at least one: it returns and leaves as many sorted run files as the counter says,
under the ids below it. For a chunk of at least one record the counter is the size of the input
over the size of a chunk, rounded up, modulo `2^32`; when that quotient is below `2^32` the run
files are the chunks of the input, in the order of the input. -/
theorem createSortedChunksImplMultiThreaded_spec (self : ExternalSorter) (h : Nat) (hh : 0 < h)
    (hgood : self.input_file_stream_.state = goodbit)
    (hzero : self.intermediate_files_count_ = 0) :
    ∃ self' files, self.createSortedChunksImplMultiThreaded h = .ok self' ∧
      self'.available_memory_ = self.available_memory_ ∧
      self'.output_file_stream_ = self.output_file_stream_ ∧
      self'.intermediate_files_count_ = files.length ∧
      (∀ (j : Nat) (file : List Byte), files[j]? = some file →
        self'.intermediate_directory j = some file) ∧
      (∀ file ∈ files, (toNumbers file).Sorted (fun a b => a ≤ b)) ∧
      (chunk_numbers_count self.available_memory_ h = 0 → files = []) ∧
      (0 < chunk_numbers_count self.available_memory_ h →
        files.length = ceilDiv self.input_file_stream_.rest.length
          (chunk_numbers_count self.available_memory_ h * sizeofNumberType) % uint32Range) ∧
      (0 < chunk_numbers_count self.available_memory_ h →
        ceilDiv self.input_file_stream_.rest.length
          (chunk_numbers_count self.available_memory_ h * sizeofNumberType) < uint32Range →
        (numbersOfFiles files).Perm (toNumbers self.input_file_stream_.rest) ∧
        files.length = ceilDiv self.input_file_stream_.rest.length
          (chunk_numbers_count self.available_memory_ h * sizeofNumberType) ∧
        filesBytes files = self.input_file_stream_.rest.length ∧
        (0 < self.input_file_stream_.rest.length →
          self.input_file_stream_.rest.length ≤
            chunk_numbers_count self.available_memory_ h * sizeofNumberType →
          files = [chunkFile self.input_file_stream_.rest])) := by
  obtain ⟨self', written, hrun, h1, h2, h3, h4, h6, h7, h8⟩ :=
    createSortedChunksLoop_spec (chunk_numbers_count self.available_memory_ h)
      (self.input_file_stream_.rest.length + 1) self
      (List.replicate h (makeNumbersArray (chunk_numbers_count self.available_memory_ h)))
      hgood (by
        intro c
        have := congrArg List.length c
        simp at this
        omega) (Nat.lt_succ_self _) (by rw [hzero]; decide)
  rw [hzero, Nat.zero_add] at h3
  rw [hzero] at h4
  have hrun' : self.createSortedChunksImplMultiThreaded h = .ok self' := by
    simp only [ExternalSorter.createSortedChunksImplMultiThreaded, Nat.pos_iff_ne_zero.1 hh,
      if_false]
    exact hrun
  by_cases hlt : written.length < uint32Range
  · rw [Nat.mod_eq_of_lt hlt] at h3
    refine ⟨self', written, hrun', h1, h2, h3, ?_, h6, h7, ?_, fun hk _ => h8 hk⟩
    · intro j file hf
      have := writeRuns_index written self.intermediate_directory 0 j file (by omega) hf
      rw [Nat.zero_add] at this
      rw [h4, this]
    · intro hk
      have hl : written.length = ceilDiv self.input_file_stream_.rest.length
          (chunk_numbers_count self.available_memory_ h * sizeofNumberType) := (h8 hk).2.1
      rw [← hl, Nat.mod_eq_of_lt hlt]
  · have hpres := writeRuns_present (fun file => (toNumbers file).Sorted (fun a b => a ≤ b))
      written self.intermediate_directory 0 h6 (fun id hid => absurd hid (Nat.not_lt_zero _))
    rw [Nat.zero_add] at hpres
    have hmod : written.length % uint32Range < uint32Range := Nat.mod_lt _ (by decide)
    have hle : written.length % uint32Range ≤ written.length := Nat.mod_le _ _
    obtain ⟨runs, hlen, hdir, hsorted⟩ := exists_runs
      (fun file => (toNumbers file).Sorted (fun a b => a ≤ b)) self'.intermediate_directory
      self'.intermediate_files_count_ (fun id hid => by
        rw [h4]
        exact hpres id (by omega) (by omega))
    refine ⟨self', runs, hrun', h1, h2, hlen.symm, hdir, hsorted, ?_, ?_, ?_⟩
    · intro hk
      rw [h7 hk] at hlt
      exact absurd (by decide) hlt
    · intro hk
      have hl : written.length = ceilDiv self.input_file_stream_.rest.length
          (chunk_numbers_count self.available_memory_ h * sizeofNumberType) := (h8 hk).2.1
      rw [hlen, h3, hl]
    · intro hk hb
      exfalso
      apply hlt
      have hl : written.length = ceilDiv self.input_file_stream_.rest.length
          (chunk_numbers_count self.available_memory_ h * sizeofNumberType) := (h8 hk).2.1
      rw [hl]
      exact hb

theorem construct_ok (available_memory : Nat) (input : List Byte)
    (hacc : kMinAvailableMemory ≤ usefulMemory available_memory) :
    ExternalSorter.construct available_memory (some input) true =
      .ok ⟨usefulMemory available_memory, ⟨input, goodbit, 0⟩, ⟨[]⟩, fun _ => none, 0⟩ := by
  simp only [usefulMemory] at hacc
  simp only [ExternalSorter.construct, OpenInputBinaryFileStream, OpenOutputBinaryFileStream,
    if_true, bind, Except.bind, pure, Except.pure, Nat.not_lt.2 hacc, if_false, usefulMemory]

theorem usefulMemory_lt (available_memory : Nat) (h : available_memory < sizeRange) :
    usefulMemory available_memory < sizeRange := by
  simp only [usefulMemory, RoundSize, CalcUsefulMemorySize, sizeofNumberType, sizeRange] at *
  omega

/-- The chunking phase on an accepted budget and a hardware concurrency of at least one. -/
theorem chunkingPhase_spec (available_memory h : Nat) (input : List Byte)
    (hacc : kMinAvailableMemory ≤ usefulMemory available_memory) (hh : 1 ≤ h) :
    ∃ chunked files, chunkingPhase available_memory h input = .ok chunked ∧
      chunked.available_memory_ = usefulMemory available_memory ∧
      chunked.intermediate_files_count_ = files.length ∧
      (∀ (j : Nat) (file : List Byte), files[j]? = some file →
        chunked.intermediate_directory j = some file) ∧
      (chunk_numbers_count (usefulMemory available_memory) h = 0 → files = []) ∧
      (0 < chunk_numbers_count (usefulMemory available_memory) h →
        ceilDiv input.length
          (chunk_numbers_count (usefulMemory available_memory) h * sizeofNumberType) <
            uint32Range →
        files.length = ceilDiv input.length
          (chunk_numbers_count (usefulMemory available_memory) h * sizeofNumberType) ∧
        filesBytes files = input.length ∧
        (0 < input.length →
          input.length ≤ chunk_numbers_count (usefulMemory available_memory) h * sizeofNumberType →
          files = [chunkFile input])) := by
  have hc := construct_ok available_memory input hacc
  obtain ⟨chunked, files, hchunk, h1, _, h3, h4, _, h6, _, h7⟩ :=
    createSortedChunksImplMultiThreaded_spec
      ⟨usefulMemory available_memory, ⟨input, goodbit, 0⟩, ⟨[]⟩, fun _ => none, 0⟩ h hh rfl rfl
  refine ⟨chunked, files, ?_, h1, h3, h4, h6, fun hk hb => (h7 hk hb).2⟩
  simp only [chunkingPhase, hc, hchunk, bind, Except.bind]

theorem chunk_bytes_le (h : Nat) :
    chunk_numbers_count (usefulMemory 10485760) h * sizeofNumberType ≤ 5898240 := by
  have e : usefulMemory 10485760 = 5898240 := by decide
  simp only [chunk_numbers_count, e, sizeofNumberType]
  have := Nat.div_le_self (5898240 / 4) h
  omega

/-- With a single run the buffers of the merge phase stay within an accepted budget. -/
theorem mergeBuffersBytes_one_le (available_memory_ : Nat)
    (hmin : kMinAvailableMemory ≤ available_memory_) (hrange : available_memory_ < sizeRange) :
    mergeBuffersBytes available_memory_ 1 ≤ available_memory_ := by
  have h1 := file_buffer_memory_size_le available_memory_ 1
  have h3 := CalcFilesBuffersMemorySize_le available_memory_ hmin
  have h2 := sizeSub_eq available_memory_ (file_buffer_memory_size available_memory_ 1) hrange
    (by omega)
  simp only [mergeBuffersBytes, readerNumbersCount, merge_numbers_count,
    merge_buffer_size_in_bytes, h2]
  generalize file_buffer_memory_size available_memory_ 1 = per_run at h1 ⊢
  simp only [RoundSize, sizeofNumberType, kBuffersCount]
  omega

theorem foldl_runTask_of_flag (tasks : List task_t) : ∀ (pool : ThreadPool),
    pool.exception_flag_ = true → tasks.foldl ThreadPool.runTask pool = pool := by
  induction tasks with
  | nil => intro pool _; rfl
  | cons task tasks ih =>
    intro pool hflag
    have hstep : pool.runTask task = pool := by
      cases task with
      | ok _ => rfl
      | error exception => simp [ThreadPool.runTask, hflag]
    rw [List.foldl_cons, hstep]
    exact ih pool hflag

theorem foldl_runTask_spec (tasks : List task_t) : ∀ (pool : ThreadPool),
    pool.exception_flag_ = false →
    (firstFailure tasks = none → tasks.foldl ThreadPool.runTask pool = pool) ∧
    (∀ exception, firstFailure tasks = some exception →
      tasks.foldl ThreadPool.runTask pool =
        { pool with exception_ptr_ := some exception, exception_flag_ := true }) := by
  induction tasks with
  | nil =>
    intro pool _
    exact ⟨fun _ => rfl, fun exception h => (nomatch h)⟩
  | cons task tasks ih =>
    intro pool hflag
    cases task with
    | ok value =>
      have hstep : pool.runTask (.ok value) = pool := rfl
      rw [List.foldl_cons, hstep]
      exact ih pool hflag
    | error thrown =>
      have hstep : pool.runTask (.error thrown) =
          { pool with exception_ptr_ := some thrown, exception_flag_ := true } := by
        simp [ThreadPool.runTask, hflag]
      rw [List.foldl_cons, hstep]
      refine ⟨fun h => (nomatch h), fun exception h => ?_⟩
      simp only [firstFailure, Option.some.injEq] at h
      subst h
      exact foldl_runTask_of_flag tasks _ rfl

theorem firstFailure_eq_none (tasks : List task_t) :
    firstFailure tasks = none ↔ ∀ task ∈ tasks, task = .ok () := by
  induction tasks with
  | nil => simp [firstFailure]
  | cons task tasks ih =>
    cases task with
    | ok value => simp [firstFailure, ih]
    | error thrown => simp [firstFailure]

theorem workerRound_cons (active : Nat) (flag : Bool) (ptr : exception_ptr) (task : task_t)
    (tasks : List task_t) :
    ThreadPool.workerRound ⟨active, flag, ptr, task :: tasks⟩ =
      { ThreadPool.runTask ⟨active, flag, ptr, []⟩ task with tasks_ := tasks } := by
  cases task with
  | ok value => simp [ThreadPool.workerRound, ThreadPool.runTask]
  | error thrown =>
    cases flag <;> simp [ThreadPool.workerRound, ThreadPool.runTask]

theorem runTask_tasks (pool : ThreadPool) (task : task_t) :
    (pool.runTask task).tasks_ = pool.tasks_ := by
  cases task with
  | ok value => rfl
  | error thrown =>
    simp only [ThreadPool.runTask]
    split <;> rfl

theorem workerRounds_spec (tasks : List task_t) : ∀ (pool : ThreadPool),
    pool.tasks_ = tasks →
    ThreadPool.workerRounds tasks.length pool =
      tasks.foldl ThreadPool.runTask { pool with tasks_ := [] } := by
  induction tasks with
  | nil =>
    intro pool h
    cases pool
    simp only at h
    subst h
    rfl
  | cons task tasks ih =>
    intro pool h
    obtain ⟨active, flag, ptr, queue⟩ := pool
    simp only at h
    subst h
    rw [List.length_cons, ThreadPool.workerRounds, workerRound_cons, ih _ rfl, List.foldl_cons]
    congr 1
    have ht := runTask_tasks ⟨active, flag, ptr, []⟩ task
    generalize ThreadPool.runTask ⟨active, flag, ptr, []⟩ task = after at ht
    cases after
    simp only at ht
    subst ht
    rfl

theorem foldl_add_tasks (tasks : List task_t) : ∀ (pool : ThreadPool),
    (tasks.foldl ThreadPool.add pool) = { pool with tasks_ := pool.tasks_ ++ tasks } := by
  induction tasks with
  | nil => intro pool; simp
  | cons task tasks ih =>
    intro pool
    rw [List.foldl_cons, ih]
    simp [ThreadPool.add]

theorem readerNumbersCount_anti (available_memory_ few many : Nat) (hfew : 0 < few)
    (hle : few ≤ many) :
    readerNumbersCount available_memory_ many ≤ readerNumbersCount available_memory_ few := by
  have h := Nat.div_le_div_left (a := CalcFilesBuffersMemorySize available_memory_) hle hfew
  simp only [readerNumbersCount, file_buffer_memory_size, RoundSize, sizeofNumberType,
    kBuffersCount]
  generalize CalcFilesBuffersMemorySize available_memory_ / many = a at h
  generalize CalcFilesBuffersMemorySize available_memory_ / few = b at h
  omega

theorem ceilDiv_mono (small large chunk_bytes : Nat) (h : small ≤ large) :
    ceilDiv small chunk_bytes ≤ ceilDiv large chunk_bytes := by
  simp only [ceilDiv]
  exact Nat.div_le_div_right (by omega)

theorem ceilDiv_pos (size chunk_bytes : Nat) (hs : 0 < size) (hc : 0 < chunk_bytes) :
    0 < ceilDiv size chunk_bytes := by
  simp only [ceilDiv]
  exact Nat.div_pos (by omega) hc

theorem ceilDiv_le (size chunk_bytes : Nat) (hc : 0 < chunk_bytes) :
    ceilDiv size chunk_bytes ≤ size := by
  simp only [ceilDiv]
  rcases Nat.eq_zero_or_pos size with hs | hs
  · subst hs
    rw [Nat.zero_add, Nat.div_eq_of_lt (by omega)]
  · apply Nat.div_le_of_le_mul
    obtain ⟨d, rfl⟩ : ∃ d, chunk_bytes = d + 1 := ⟨chunk_bytes - 1, by omega⟩
    obtain ⟨t, rfl⟩ : ∃ t, size = t + 1 := ⟨size - 1, by omega⟩
    have : (d + 1) * (t + 1) = d * t + d + t + 1 := by ring
    rw [this]
    omega

theorem stable_sort_of_sorted (numbers : List number_t)
    (h : numbers.Sorted (fun a b => a ≤ b)) : stable_sort numbers = numbers :=
  List.Sorted.insertionSort_eq h

theorem sortFile_zero_concurrency (available_memory : Nat) (input : List Byte)
    (hacc : kMinAvailableMemory ≤ usefulMemory available_memory) (schedule : LastTask) :
    sortFile available_memory 0 input schedule = .error exception_t.divisionByZero := by
  simp only [sortFile, construct_ok available_memory input hacc, ExternalSorter.sort,
    ExternalSorter.createSortedChunksImplMultiThreaded, if_true, bind, Except.bind]

theorem storeNumber_index (count size : Nat) (state : MergeState) (number : number_t)
    (hv : state.Valid count size) :
    ∃ state' j, storeNumber count size state number = .ok state' ∧ j < count ∧
      j = (if state.current_merge_buffer_index = count then 0
        else state.current_merge_buffer_index) ∧
      state'.merge_buffer_0.buffer_.length = count ∧
      state'.merge_buffer_0.buffer_[j]? = some number ∧
      state'.current_merge_buffer_index = j + 1 := by
  have hrun := storeNumber_eq count size state number hv
  by_cases hfull : state.current_merge_buffer_index = count
  · have hpos := hv.count_pos
    obtain ⟨hsv, _, _, _⟩ := swapMergeBufferAndCreateTask_spec count size state hv hfull
    have hl := hsv.length_0
    rw [if_pos hfull] at hrun
    refine ⟨_, 0, hrun, hpos, by simp [hfull], ?_, ?_, rfl⟩
    · simp [hl]
    · simp [List.getElem?_set_self', hl, hpos]
  · have hlt : state.current_merge_buffer_index < state.merge_buffer_0.buffer_.length := by
      have := hv.index_le
      rw [hv.length_0]; omega
    rw [if_neg hfull] at hrun
    refine ⟨_, state.current_merge_buffer_index, hrun, by rw [← hv.length_0]; exact hlt,
      by simp [hfull], ?_, ?_, rfl⟩
    · simp [hv.length_0]
    · simp [List.getElem?_set_self', hlt]

theorem storeNumber_ok_index (count size : Nat) (state state' : MergeState) (number : number_t)
    (h : storeNumber count size state number = .ok state') :
    0 < state'.current_merge_buffer_index ∧
      state'.current_merge_buffer_index ≤ state'.merge_buffer_0.buffer_.length ∧
      state'.merge_buffer_0.buffer_[state'.current_merge_buffer_index - 1]? = some number := by
  have key : ∀ v : MergeState,
      (if v.current_merge_buffer_index < v.merge_buffer_0.buffer_.length then
        (pure { v with
          merge_buffer_0 := { v.merge_buffer_0 with
            buffer_ := v.merge_buffer_0.buffer_.set v.current_merge_buffer_index number },
          current_merge_buffer_index := v.current_merge_buffer_index + 1 } :
            Except exception_t MergeState)
      else throw exception_t.outOfBounds) = .ok state' →
      0 < state'.current_merge_buffer_index ∧
      state'.current_merge_buffer_index ≤ state'.merge_buffer_0.buffer_.length ∧
      state'.merge_buffer_0.buffer_[state'.current_merge_buffer_index - 1]? = some number := by
    intro v hv
    by_cases hlt : v.current_merge_buffer_index < v.merge_buffer_0.buffer_.length
    · rw [if_pos hlt] at hv
      injection hv with hv
      subst hv
      simp only [Nat.add_sub_cancel, List.length_set]
      refine ⟨Nat.succ_pos _, hlt, ?_⟩
      simp [List.getElem?_set_self', hlt]
    · rw [if_neg hlt] at hv
      cases hv
  exact key (if state.current_merge_buffer_index = count then
    swapMergeBufferAndCreateTask state size else state) h

/-- A store leaves the flag of `merge_buffer_1` set only when it was set before and no swap took
place, and the output is then untouched: while no writeback task was added, nothing is written. -/
theorem storeNumber_flag (count size : Nat) (state state' : MergeState) (number : number_t)
    (h : storeNumber count size state number = .ok state')
    (hflag : state'.merge_buffer_1.is_ready_to_fill_ = true) :
    state.merge_buffer_1.is_ready_to_fill_ = true ∧
      state'.output_file_stream_ = state.output_file_stream_ := by
  have key : ∀ v : MergeState,
      (if v.current_merge_buffer_index < v.merge_buffer_0.buffer_.length then
        (pure { v with
          merge_buffer_0 := { v.merge_buffer_0 with
            buffer_ := v.merge_buffer_0.buffer_.set v.current_merge_buffer_index number },
          current_merge_buffer_index := v.current_merge_buffer_index + 1 } :
            Except exception_t MergeState)
      else throw exception_t.outOfBounds) = .ok state' →
      state'.merge_buffer_1 = v.merge_buffer_1 ∧
      state'.output_file_stream_ = v.output_file_stream_ := by
    intro v hv
    by_cases hlt : v.current_merge_buffer_index < v.merge_buffer_0.buffer_.length
    · rw [if_pos hlt] at hv
      injection hv with hv
      subst hv
      exact ⟨rfl, rfl⟩
    · rw [if_neg hlt] at hv
      cases hv
  obtain ⟨h1, h2⟩ := key (if state.current_merge_buffer_index = count then
    swapMergeBufferAndCreateTask state size else state) h
  by_cases hfull : state.current_merge_buffer_index = count
  · rw [if_pos hfull] at h1
    rw [h1] at hflag
    simp [swapMergeBufferAndCreateTask] at hflag
  · rw [if_neg hfull] at h1 h2
    rw [h1] at hflag
    exact ⟨hflag, h2⟩

theorem readRun_none (file : List Byte) (buffer_size count : Nat)
    (h : buffer_size < 2 * sizeofNumberType) :
    readRun file buffer_size count = .ok (List.replicate count none) := by
  obtain ⟨reader, hc, hv, hready, hcount, hp⟩ := construct_spec file buffer_size
  have hzero : RoundSize (buffer_size / kBuffersCount) / sizeofNumberType = 0 := by
    simp only [RoundSize, kBuffersCount, sizeofNumberType] at h ⊢
    omega
  rw [hcount, if_pos hzero] at hp
  have hg := getMany_spec count reader hv
  rw [hp] at hg
  simp only [readRun, hc, BinaryFileBuffer.waitForReady, BinaryFileBuffer.waitForBuffer, hready,
    if_true, bind, Except.bind, pure, Except.pure, hg]
  simp

theorem concatAll_set_perm (written : List (List number_t)) (i : Nat) (w : List number_t)
    (x : number_t) (h : written[i]? = some w) :
    (concatAll (written.set i (w ++ [x]))).Perm (concatAll written ++ [x]) := by
  induction written generalizing i with
  | nil => simp at h
  | cons first written ih =>
    cases i with
    | zero =>
      simp only [List.getElem?_cons_zero, Option.some.injEq] at h
      subst h
      simp only [List.set_cons_zero, concatAll, List.append_assoc]
      exact List.Perm.append_left _ List.perm_append_comm
    | succ i =>
      simp only [List.getElem?_cons_succ] at h
      simp only [List.set_cons_succ, concatAll, List.append_assoc]
      exact List.Perm.append_left _ (ih i h)

theorem entriesOf_eq_singleton (merge_queue : List MergeData) (entry : MergeData)
    (hn : (merge_queue.map (fun entry => entry.file_buffer_index_)).Nodup)
    (hm : entry ∈ merge_queue) :
    entriesOf merge_queue entry.file_buffer_index_ = [entry] := by
  induction merge_queue with
  | nil => cases hm
  | cons first rest ih =>
    simp only [List.map_cons, List.nodup_cons, List.mem_map, not_exists, not_and] at hn
    rcases List.mem_cons.1 hm with e | e
    · subst e
      have hrest : entriesOf rest entry.file_buffer_index_ = [] := by
        simp only [entriesOf, List.filter_eq_nil_iff, decide_eq_true_eq]
        intro other ho
        exact hn.1 other ho
      simp only [entriesOf, List.filter_cons, decide_True, if_true] at hrest ⊢
      rw [hrest]
    · have hne : first.file_buffer_index_ ≠ entry.file_buffer_index_ :=
        fun c => hn.1 entry e c.symm
      simp only [entriesOf, List.filter_cons, hne, decide_False, Bool.false_eq_true, if_false]
      exact ih hn.2 e

theorem entriesOf_eq_nil (merge_queue : List MergeData) (i : Nat)
    (h : ∀ entry ∈ merge_queue, entry.file_buffer_index_ ≠ i) : entriesOf merge_queue i = [] := by
  simp only [entriesOf, List.filter_eq_nil_iff, decide_eq_true_eq]
  exact h

theorem queue_length_le (merge_queue : List MergeData) (count : Nat)
    (hn : (merge_queue.map (fun entry => entry.file_buffer_index_)).Nodup)
    (hlt : ∀ entry ∈ merge_queue, entry.file_buffer_index_ < count) :
    merge_queue.length ≤ count := by
  have hsub : merge_queue.map (fun entry => entry.file_buffer_index_) ⊆ List.range count := by
    intro i hi
    obtain ⟨entry, he, rfl⟩ := List.mem_map.1 hi
    exact List.mem_range.2 (hlt entry he)
  have := (List.subperm_of_subset hn hsub).length_le
  simpa using this

theorem getElem?_of_length_eq {α β : Type} (xs : List α) (ys : List β) (i : Nat) (x : α)
    (hlen : ys.length = xs.length) (h : xs[i]? = some x) : ∃ y, ys[i]? = some y := by
  have hi : i < xs.length := by
    rcases Nat.lt_or_ge i xs.length with hlt | hge
    · exact hlt
    · rw [List.getElem?_eq_none hge] at h
      cases h
  exact ⟨ys[i], List.getElem?_eq_getElem (by omega)⟩

/-- The inner loop of the merge keeps the account of the queue: when it returns, every run with
something left has one entry again. -/
theorem mergeInnerLoop_heap (files : List (List Byte)) (count size : Nat) (min_data : MergeData)
    (top_value : number_t) (fuel : Nat) : ∀ (state : MergeState) (written : List (List number_t)),
    state.Valid count size → state.Heap files written (some min_data.file_buffer_index_) →
    ∀ final, mergeInnerLoop count size min_data top_value fuel state = .ok final →
    ∃ written', final.Heap files written' none := by
  induction fuel with
  | zero =>
    intro state written _ _ final h
    rw [mergeInnerLoop] at h
    cases h
  | succ fuel ih =>
    intro state written hv hh final hrun
    cases hl : state.files_buffers[min_data.file_buffer_index_]? with
    | none =>
      rw [mergeInnerLoop] at hrun
      simp only [hl] at hrun
      cases hrun
    | some reader =>
      obtain ⟨reader', r, _, hg, hrv, _, hsome, hnone⟩ := get_spec reader (hv.readers _ _ hl)
      obtain ⟨file, hfile⟩ := getElem?_of_length_eq state.files_buffers files _ reader
        hh.readers_length.symm hl
      obtain ⟨w, hw⟩ := getElem?_of_length_eq state.files_buffers written _ reader
        (by rw [hh.written_length, hh.readers_length]) hl
      have hfree : ∀ entry ∈ state.merge_queue,
          entry.file_buffer_index_ ≠ min_data.file_buffer_index_ := hh.hole_free _ rfl
      have hrun_i : toNumbers file = w ++ reader.pending := hh.no_entry _ reader file w hl hfile hw hfree
      have hlen' : (state.files_buffers.set min_data.file_buffer_index_ reader').length =
          files.length := by rw [List.length_set]; exact hh.readers_length
      have hreaders : ∀ (j : Nat) (found : BinaryFileBuffer),
          (state.files_buffers.set min_data.file_buffer_index_ reader')[j]? = some found →
          found.Valid := by
        intro j found hf
        rcases getElem?_set_cases _ _ _ _ _ hf with ⟨_, e⟩ | ⟨_, e⟩
        · rw [e]; exact hrv
        · exact hv.readers j found e
      -- entries of other runs see the same reader as before
      have hentries : ∀ entry ∈ state.merge_queue, ∃ found file' w',
          (state.files_buffers.set min_data.file_buffer_index_ reader')[entry.file_buffer_index_]?
            = some found ∧ files[entry.file_buffer_index_]? = some file' ∧
          written[entry.file_buffer_index_]? = some w' ∧
          toNumbers file' = w' ++ entry.value_ :: found.pending := by
        intro entry he
        obtain ⟨found, file', w', h1, h2, h3, h4⟩ := hh.entry_next entry he
        refine ⟨found, file', w', ?_, h2, h3, h4⟩
        rw [List.getElem?_set_ne (fun c => hfree entry he c.symm)]
        exact h1
      cases r with
      | none =>
        obtain ⟨e1, e2⟩ := hnone rfl
        rw [mergeInnerLoop_none count size min_data top_value fuel state reader reader' hl hg]
          at hrun
        injection hrun with hrun
        subst hrun
        refine ⟨written, hh.written_length, hlen', hh.emitted_perm, hh.nodup, ?_, hentries, ?_⟩
        · intro j hj; cases hj
        · intro j found file' w' hf hfile' hw' hno
          rcases getElem?_set_cases _ _ _ _ _ hf with ⟨e3, e4⟩ | ⟨_, e⟩
          · subst e3
            rw [hfile] at hfile'
            rw [hw] at hw'
            injection hfile' with hfile'
            injection hw' with hw'
            subst hfile' hw' e4
            rw [e2, ← e1]
            exact hrun_i
          · exact hh.no_entry j found file' w' e hfile' hw' hno
      | some number =>
        have hp := hsome number rfl
        by_cases hle : number ≤ top_value
        · obtain ⟨state', hs, hv', hem, hfb, hmq⟩ := storeNumber_spec count size
            { state with
              files_buffers := state.files_buffers.set min_data.file_buffer_index_ reader' }
            number
            ⟨hreaders, hv.length_0, hv.length_1, hv.index_le, hv.count_pos, hv.size_eq,
              hv.aligned⟩
          have hem' : state'.emitted = state.emitted ++ [number] := hem
          have hfb' : state'.files_buffers =
              state.files_buffers.set min_data.file_buffer_index_ reader' := hfb
          have hmq' : state'.merge_queue = state.merge_queue := hmq
          rw [mergeInnerLoop_store count size min_data top_value fuel state state' reader reader'
            number hl hg hle hs] at hrun
          refine ih state' (written.set min_data.file_buffer_index_ (w ++ [number])) hv' ?_ final
            hrun
          refine ⟨by rw [List.length_set]; exact hh.written_length, by rw [hfb']; exact hlen', ?_,
            by rw [hmq']; exact hh.nodup, ?_, ?_, ?_⟩
          · rw [hem']
            exact (List.Perm.append_right _ hh.emitted_perm).trans
              (concatAll_set_perm written _ w number hw).symm
          · intro j hj entry he
            injection hj with hj
            subst hj
            rw [hmq'] at he
            exact hfree entry he
          · intro entry he
            rw [hmq'] at he
            obtain ⟨found, file', w', h1, h2, h3, h4⟩ := hentries entry he
            refine ⟨found, file', w', by rw [hfb']; exact h1, h2, ?_, h4⟩
            rw [List.getElem?_set_ne (fun c => hfree entry he c.symm)]
            exact h3
          · intro j found file' w' hf hfile' hw' hno
            rw [hfb'] at hf
            rw [hmq'] at hno
            rcases getElem?_set_cases _ _ _ _ _ hf with ⟨e3, e4⟩ | ⟨hne, e⟩
            · subst e3
              rw [hfile] at hfile'
              injection hfile' with hfile'
              rw [List.getElem?_set_self', hw] at hw'
              simp only [Option.map_eq_map, Option.map_some', Function.const_apply,
                Option.some.injEq] at hw'
              subst hfile' hw' e4
              rw [hrun_i, hp, List.append_assoc]
              rfl
            · rw [List.getElem?_set_ne (fun c => hne c.symm)] at hw'
              exact hh.no_entry j found file' w' e hfile' hw' hno
        · rw [mergeInnerLoop_push count size min_data top_value fuel state reader reader' number
            hl hg hle] at hrun
          injection hrun with hrun
          subst hrun
          refine ⟨written, hh.written_length, hlen', hh.emitted_perm, ?_, ?_, ?_, ?_⟩
          · show ((priority_queue_push state.merge_queue
              ⟨min_data.file_buffer_index_, number⟩).map _).Nodup
            simp only [priority_queue_push, List.map_cons, List.nodup_cons, List.mem_map,
              not_exists, not_and]
            exact ⟨fun entry he => hfree entry he, hh.nodup⟩
          · intro j hj; cases hj
          · intro entry he
            rcases List.mem_cons.1 he with e | e
            · subst e
              refine ⟨reader', file, w, getElem?_set_self _ _ _ _ hl, hfile, hw, ?_⟩
              rw [hrun_i, hp]
            · exact hentries entry e
          · intro j found file' w' hf hfile' hw' hno
            rcases getElem?_set_cases _ _ _ _ _ hf with ⟨e3, _⟩ | ⟨_, e⟩
            · exact absurd e3.symm
                (hno ⟨min_data.file_buffer_index_, number⟩ (List.mem_cons_self _ _))
            · exact hh.no_entry j found file' w' e hfile' hw'
                (fun entry he => hno entry (List.mem_cons_of_mem _ he))

theorem priority_queue_pop_eq (entries : List MergeData) (top : MergeData)
    (h : priority_queue_top entries = some top) :
    priority_queue_pop entries = entries.erase top := by
  simp only [priority_queue_pop, h]

/-- One round of the outer loop keeps the account of the queue. -/
theorem mergeOuterRound_heap (files : List (List Byte)) (count size inner_fuel : Nat)
    (state : MergeState) (written : List (List number_t)) (min_data : MergeData)
    (hv : state.Valid count size) (hh : state.Heap files written none)
    (htop : priority_queue_top state.merge_queue = some min_data) :
    ∀ drained, mergeOuterRound count size inner_fuel state min_data = .ok drained →
    ∃ written', drained.Heap files written' none := by
  intro drained hrun
  have hmem := priority_queue_top_mem _ _ htop
  have hpop := priority_queue_pop_eq _ _ htop
  have hnd : state.merge_queue.Nodup := List.Nodup.of_map _ hh.nodup
  obtain ⟨stored, hs, hsv, hem, hfb, hmq⟩ := storeNumber_spec count size
    { state with merge_queue := priority_queue_pop state.merge_queue } min_data.value_
    ⟨hv.readers, hv.length_0, hv.length_1, hv.index_le, hv.count_pos, hv.size_eq,
      hv.aligned⟩
  have hem' : stored.emitted = state.emitted ++ [min_data.value_] := hem
  have hfb' : stored.files_buffers = state.files_buffers := hfb
  have hmq' : stored.merge_queue = state.merge_queue.erase min_data := by rw [← hpop]; exact hmq
  simp only [mergeOuterRound, bind, Except.bind, hs] at hrun
  obtain ⟨reader, file, w, hl, hfile, hw, hsplit⟩ := hh.entry_next min_data hmem
  have hother : ∀ entry ∈ state.merge_queue.erase min_data,
      entry ∈ state.merge_queue ∧ entry.file_buffer_index_ ≠ min_data.file_buffer_index_ := by
    intro entry he
    obtain ⟨hne, hin⟩ := (List.Nodup.mem_erase_iff hnd).1 he
    exact ⟨hin, fun c => hne (List.inj_on_of_nodup_map hh.nodup hin hmem c)⟩
  refine mergeInnerLoop_heap files count size min_data _ inner_fuel stored
    (written.set min_data.file_buffer_index_ (w ++ [min_data.value_])) hsv ?_ drained hrun
  refine ⟨by rw [List.length_set]; exact hh.written_length, by rw [hfb']; exact hh.readers_length,
    ?_, ?_, ?_, ?_, ?_⟩
  · rw [hem']
    exact (List.Perm.append_right _ hh.emitted_perm).trans
      (concatAll_set_perm written _ w _ hw).symm
  · rw [hmq']
    exact hh.nodup.sublist ((List.erase_sublist _ _).map _)
  · intro j hj entry he
    injection hj with hj
    subst hj
    rw [hmq'] at he
    exact (hother entry he).2
  · intro entry he
    rw [hmq'] at he
    obtain ⟨hin, hne⟩ := hother entry he
    obtain ⟨found, file', w', h1, h2, h3, h4⟩ := hh.entry_next entry hin
    refine ⟨found, file', w', by rw [hfb']; exact h1, h2, ?_, h4⟩
    rw [List.getElem?_set_ne (fun c => hne c.symm)]
    exact h3
  · intro j found file' w' hf hfile' hw' hno
    rw [hfb'] at hf
    rw [hmq'] at hno
    by_cases hj : j = min_data.file_buffer_index_
    · subst hj
      rw [hl] at hf
      rw [hfile] at hfile'
      rw [List.getElem?_set_self', hw] at hw'
      simp only [Option.map_eq_map, Option.map_some', Function.const_apply,
        Option.some.injEq] at hw'
      injection hf with hf
      injection hfile' with hfile'
      subst hf hfile' hw'
      rw [hsplit, List.append_assoc]
      rfl
    · rw [List.getElem?_set_ne (fun c => hj c.symm)] at hw'
      refine hh.no_entry j found file' w' hf hfile' hw' ?_
      intro entry he
      by_cases heq : entry = min_data
      · rw [heq]; exact fun c => hj c.symm
      · exact hno entry ((List.Nodup.mem_erase_iff hnd).2 ⟨heq, he⟩)

theorem mergeInnerLoop_index_pos (count size : Nat) (min_data : MergeData) (top_value : number_t)
    (fuel : Nat) : ∀ (state final : MergeState), 0 < state.current_merge_buffer_index →
    mergeInnerLoop count size min_data top_value fuel state = .ok final →
    0 < final.current_merge_buffer_index := by
  induction fuel with
  | zero =>
    intro state final _ h
    rw [mergeInnerLoop] at h
    cases h
  | succ fuel ih =>
    intro state final hpos h
    rw [mergeInnerLoop] at h
    cases hl : state.files_buffers[min_data.file_buffer_index_]? with
    | none => simp only [hl] at h; cases h
    | some reader =>
      simp only [hl] at h
      cases hg : reader.get with
      | error e => simp only [hg, bind, Except.bind] at h; cases h
      | ok step =>
        obtain ⟨reader', r⟩ := step
        cases r with
        | none =>
          simp only [hg, bind, Except.bind, pure, Except.pure] at h
          injection h with h
          subst h
          exact hpos
        | some number =>
          simp only [hg, bind, Except.bind, pure, Except.pure] at h
          by_cases hle : number ≤ top_value
          · simp only [hle, if_true] at h
            cases hs : storeNumber count size { state with
                files_buffers := state.files_buffers.set min_data.file_buffer_index_ reader' }
                number with
            | error e => simp only [hs] at h; cases h
            | ok state' =>
              simp only [hs] at h
              exact ih state' final (storeNumber_ok_index _ _ _ _ _ hs).1 h
          · simp only [hle, if_false] at h
            injection h with h
            subst h
            exact hpos

theorem mergeOuterRound_index_pos (count size inner_fuel : Nat) (state drained : MergeState)
    (min_data : MergeData)
    (h : mergeOuterRound count size inner_fuel state min_data = .ok drained) :
    0 < drained.current_merge_buffer_index := by
  simp only [mergeOuterRound, bind, Except.bind] at h
  cases hs : storeNumber count size
      { state with merge_queue := priority_queue_pop state.merge_queue } min_data.value_ with
  | error e => simp only [hs] at h; cases h
  | ok stored =>
    simp only [hs] at h
    exact mergeInnerLoop_index_pos _ _ _ _ _ stored drained (storeNumber_ok_index _ _ _ _ _ hs).1 h

/-- The initialisation loop of the merge, entry by entry: a reader that delivers a record gets
one entry under its own index, carrying that record, and a reader that delivers nothing gets
none. -/
theorem initMergeQueue_heap (readers : List BinaryFileBuffer) : ∀ (i : Nat)
    (merge_queue : List MergeData),
    (∀ reader ∈ readers, reader.Valid ∧ reader.buffer_0.is_ready_ = true) →
    ∃ readers' added, initMergeQueue readers i merge_queue = .ok (readers', added ++ merge_queue) ∧
      readers'.length = readers.length ∧
      (added.map (fun entry => entry.file_buffer_index_)).Nodup ∧
      (∀ entry ∈ added, i ≤ entry.file_buffer_index_) ∧
      (∀ entry ∈ added, ∃ (k : Nat) (reader reader' : BinaryFileBuffer),
        entry.file_buffer_index_ = i + k ∧ readers[k]? = some reader ∧
          readers'[k]? = some reader' ∧ reader.pending = entry.value_ :: reader'.pending) ∧
      (∀ (k : Nat) (reader reader' : BinaryFileBuffer), readers[k]? = some reader →
        readers'[k]? = some reader' →
        (∀ entry ∈ added, entry.file_buffer_index_ ≠ i + k) →
        reader.pending = reader'.pending) := by
  induction readers with
  | nil =>
    intro i merge_queue _
    refine ⟨[], [], rfl, rfl, List.nodup_nil, ?_, ?_, ?_⟩
    · intro entry h; cases h
    · intro entry h; cases h
    · intro k reader reader' h; simp at h
  | cons reader others ih =>
    intro i merge_queue hall
    obtain ⟨hv, hready⟩ := hall reader (List.mem_cons_self _ _)
    obtain ⟨reader', r, _, hg, hv', _, hsome, hnone⟩ := get_spec reader hv
    obtain ⟨later, added, hrun, hlen, hnd, hge, hentries, hfree⟩ := ih (i + 1)
      (pushDelivered merge_queue i r) (fun q hq => hall q (List.mem_cons_of_mem _ hq))
    have hstep := initMergeQueue_cons reader reader' others i merge_queue r hready hg
    rw [hrun] at hstep
    have hadded : ∀ entry ∈ added, ∃ (k : Nat) (found found' : BinaryFileBuffer),
        entry.file_buffer_index_ = i + k ∧ (reader :: others)[k]? = some found ∧
          (reader' :: later)[k]? = some found' ∧
          found.pending = entry.value_ :: found'.pending := by
      intro entry he
      obtain ⟨k, found, found', h1, h2, h3, h4⟩ := hentries entry he
      exact ⟨k + 1, found, found', by rw [h1]; omega, by simpa using h2, by simpa using h3, h4⟩
    cases r with
    | none =>
      obtain ⟨e1, e2⟩ := hnone rfl
      refine ⟨reader' :: later, added, hstep, by simp [hlen], hnd,
        fun entry he => Nat.le_of_succ_le (hge entry he), hadded, ?_⟩
      intro k found found' hf hf' hno
      cases k with
      | zero =>
        simp only [List.getElem?_cons_zero, Option.some.injEq] at hf hf'
        subst hf hf'
        rw [e1, e2]
      | succ k =>
        simp only [List.getElem?_cons_succ] at hf hf'
        exact hfree k found found' hf hf' (fun entry he c => hno entry he (by rw [c]; omega))
    | some number =>
      have hp := hsome number rfl
      refine ⟨reader' :: later, added ++ [⟨i, number⟩], ?_, by simp [hlen], ?_, ?_, ?_, ?_⟩
      · rw [hstep]
        simp [Except.map, priority_queue_push, pushDelivered]
      · rw [List.map_append, List.nodup_append]
        refine ⟨hnd, List.nodup_singleton _, ?_⟩
        intro a ha hb
        simp only [List.map_cons, List.map_nil, List.mem_singleton] at hb
        obtain ⟨entry, he, rfl⟩ := List.mem_map.1 ha
        have := hge entry he
        omega
      · intro entry he
        rcases List.mem_append.1 he with h1 | h1
        · exact Nat.le_of_succ_le (hge entry h1)
        · simp only [List.mem_singleton] at h1
          rw [h1]
      · intro entry he
        rcases List.mem_append.1 he with h1 | h1
        · exact hadded entry h1
        · simp only [List.mem_singleton] at h1
          subst h1
          exact ⟨0, reader, reader', rfl, by simp, by simp, hp⟩
      · intro k found found' hf hf' hno
        cases k with
        | zero =>
          exact absurd rfl (hno ⟨i, number⟩ (List.mem_append_right _ (List.mem_singleton_self _)))
        | succ k =>
          simp only [List.getElem?_cons_succ] at hf hf'
          exact hfree k found found' hf hf'
            (fun entry he c => hno entry (List.mem_append_left _ he) (by rw [c]; omega))

/-- The inner loop leaves the flag of `merge_buffer_1` set only when it was set before, and the
output is then untouched. -/
theorem mergeInnerLoop_flag (count size : Nat) (min_data : MergeData) (top_value : number_t)
    (fuel : Nat) : ∀ (state final : MergeState),
    mergeInnerLoop count size min_data top_value fuel state = .ok final →
    final.merge_buffer_1.is_ready_to_fill_ = true →
    state.merge_buffer_1.is_ready_to_fill_ = true ∧
      final.output_file_stream_ = state.output_file_stream_ := by
  induction fuel with
  | zero =>
    intro state final h _
    rw [mergeInnerLoop] at h
    cases h
  | succ fuel ih =>
    intro state final h hflag
    rw [mergeInnerLoop] at h
    cases hl : state.files_buffers[min_data.file_buffer_index_]? with
    | none => simp only [hl] at h; cases h
    | some reader =>
      simp only [hl] at h
      cases hg : reader.get with
      | error e => simp only [hg, bind, Except.bind] at h; cases h
      | ok step =>
        obtain ⟨reader', r⟩ := step
        cases r with
        | none =>
          simp only [hg, bind, Except.bind, pure, Except.pure] at h
          injection h with h
          subst h
          exact ⟨hflag, rfl⟩
        | some number =>
          simp only [hg, bind, Except.bind, pure, Except.pure] at h
          by_cases hle : number ≤ top_value
          · simp only [hle, if_true] at h
            cases hs : storeNumber count size { state with
                files_buffers := state.files_buffers.set min_data.file_buffer_index_ reader' }
                number with
            | error e => simp only [hs] at h; cases h
            | ok state' =>
              simp only [hs] at h
              obtain ⟨h1, h2⟩ := ih state' final h hflag
              obtain ⟨h3, h4⟩ := storeNumber_flag _ _ _ _ _ hs h1
              exact ⟨h3, h2.trans h4⟩
          · simp only [hle, if_false] at h
            injection h with h
            subst h
            exact ⟨hflag, rfl⟩

theorem mergeOuterRound_flag (count size inner_fuel : Nat) (state drained : MergeState)
    (min_data : MergeData)
    (h : mergeOuterRound count size inner_fuel state min_data = .ok drained)
    (hflag : drained.merge_buffer_1.is_ready_to_fill_ = true) :
    state.merge_buffer_1.is_ready_to_fill_ = true ∧
      drained.output_file_stream_ = state.output_file_stream_ := by
  simp only [mergeOuterRound, bind, Except.bind] at h
  cases hs : storeNumber count size
      { state with merge_queue := priority_queue_pop state.merge_queue } min_data.value_ with
  | error e => simp only [hs] at h; cases h
  | ok stored =>
    simp only [hs] at h
    obtain ⟨h1, h2⟩ := mergeInnerLoop_flag _ _ _ _ _ stored drained h hflag
    obtain ⟨h3, h4⟩ := storeNumber_flag _ _ _ _ _ hs h1
    exact ⟨h3, h2.trans h4⟩

theorem mergeOuterLoopHeads_done (count size inner_fuel fuel : Nat) (state : MergeState)
    (h : priority_queue_top state.merge_queue = none) :
    mergeOuterLoopHeads count size inner_fuel (fuel + 1) state = .ok [state] := by
  rw [mergeOuterLoopHeads]
  simp only [h]
  rfl

theorem mergeOuterLoopHeads_step (count size inner_fuel fuel : Nat) (state drained : MergeState)
    (min_data : MergeData)
    (h : priority_queue_top state.merge_queue = some min_data)
    (hr : mergeOuterRound count size inner_fuel state min_data = .ok drained) :
    mergeOuterLoopHeads count size inner_fuel (fuel + 1) state =
      (mergeOuterLoopHeads count size inner_fuel fuel drained).map (fun later => state :: later) := by
  rw [mergeOuterLoopHeads]
  simp only [h, bind, Except.bind, hr]
  cases mergeOuterLoopHeads count size inner_fuel fuel drained <;> rfl

/-- The recorded loop runs as the loop does: its last state is the state the loop returns, and
every state after the first one follows a store. -/
theorem mergeOuterLoopHeads_last (count size inner_fuel fuel : Nat) : ∀ (state : MergeState)
    (heads : List MergeState),
    mergeOuterLoopHeads count size inner_fuel fuel state = .ok heads →
    ∃ rest last, heads = state :: rest ∧ heads.getLast? = some last ∧ last.merge_queue = [] ∧
      mergeOuterLoop count size inner_fuel fuel state = .ok last ∧
      ∀ head ∈ rest, 0 < head.current_merge_buffer_index := by
  induction fuel with
  | zero =>
    intro state heads h
    rw [mergeOuterLoopHeads] at h
    cases h
  | succ fuel ih =>
    intro state heads h
    cases htop : priority_queue_top state.merge_queue with
    | none =>
      rw [mergeOuterLoopHeads_done count size inner_fuel fuel state htop] at h
      injection h with h
      subst h
      refine ⟨[], state, rfl, rfl, (priority_queue_top_eq_none _).1 htop,
        mergeOuterLoop_done count size inner_fuel fuel state htop, ?_⟩
      intro head hh; cases hh
    | some min_data =>
      cases hr : mergeOuterRound count size inner_fuel state min_data with
      | error e =>
        rw [mergeOuterLoopHeads] at h
        simp only [htop, bind, Except.bind, hr] at h
        cases h
      | ok drained =>
        rw [mergeOuterLoopHeads_step count size inner_fuel fuel state drained min_data htop hr] at h
        cases hl : mergeOuterLoopHeads count size inner_fuel fuel drained with
        | error e => rw [hl] at h; cases h
        | ok later =>
          rw [hl] at h
          simp only [Except.map] at h
          injection h with h
          subst h
          obtain ⟨rest, last, e1, e2, e3, e4, e5⟩ := ih drained later hl
          refine ⟨later, last, rfl, ?_, e3, ?_, ?_⟩
          · rw [e1] at e2 ⊢
            simpa [List.getLast?_cons_cons] using e2
          · rw [mergeOuterLoop_step count size inner_fuel fuel state drained min_data htop hr]
            exact e4
          · intro head hh
            rw [e1] at hh
            rcases List.mem_cons.1 hh with e | e
            · rw [e]
              exact mergeOuterRound_index_pos count size inner_fuel state drained min_data hr
            · exact e5 head e

/-- In a recorded state whose flag of `merge_buffer_1` is set no writeback task was added yet,
and the output is as the loop found it. -/
theorem mergeOuterLoopHeads_flag (count size inner_fuel fuel : Nat) : ∀ (state : MergeState)
    (heads : List MergeState),
    mergeOuterLoopHeads count size inner_fuel fuel state = .ok heads →
    ∀ head ∈ heads, head.merge_buffer_1.is_ready_to_fill_ = true →
      state.merge_buffer_1.is_ready_to_fill_ = true ∧
        head.output_file_stream_ = state.output_file_stream_ := by
  induction fuel with
  | zero =>
    intro state heads h
    rw [mergeOuterLoopHeads] at h
    cases h
  | succ fuel ih =>
    intro state heads h
    cases htop : priority_queue_top state.merge_queue with
    | none =>
      rw [mergeOuterLoopHeads_done count size inner_fuel fuel state htop] at h
      injection h with h
      subst h
      intro head hm hflag
      simp only [List.mem_singleton] at hm
      subst hm
      exact ⟨hflag, rfl⟩
    | some min_data =>
      cases hr : mergeOuterRound count size inner_fuel state min_data with
      | error e =>
        rw [mergeOuterLoopHeads] at h
        simp only [htop, bind, Except.bind, hr] at h
        cases h
      | ok drained =>
        rw [mergeOuterLoopHeads_step count size inner_fuel fuel state drained min_data htop hr] at h
        cases hl : mergeOuterLoopHeads count size inner_fuel fuel drained with
        | error e => rw [hl] at h; cases h
        | ok later =>
          rw [hl] at h
          simp only [Except.map] at h
          injection h with h
          subst h
          intro head hm hflag
          rcases List.mem_cons.1 hm with e | e
          · rw [e]; rw [e] at hflag
            exact ⟨hflag, rfl⟩
          · obtain ⟨h1, h2⟩ := ih drained later hl head e hflag
            obtain ⟨h3, h4⟩ := mergeOuterRound_flag _ _ _ _ _ _ hr h1
            exact ⟨h3, h2.trans h4⟩

/-- The recorded loop, started on a state that satisfies the invariants of the merge and the
account of the queue: it returns, and every recorded state satisfies them. -/
theorem mergeOuterLoopHeads_spec (files : List (List Byte)) (count size inner_fuel fuel : Nat) :
    ∀ (state : MergeState) (written : List (List number_t)),
    state.Valid count size → state.Ordered none → state.Heap files written none →
    (pendingAll state.files_buffers).length < inner_fuel →
    state.merge_queue.length + (pendingAll state.files_buffers).length < fuel →
    ∃ heads, mergeOuterLoopHeads count size inner_fuel fuel state = .ok heads ∧
      ∀ head ∈ heads, head.Valid count size ∧ head.Ordered none ∧
        ∃ written', head.Heap files written' none := by
  induction fuel with
  | zero => intro state _ _ _ _ _ h; exact absurd h (Nat.not_lt_zero _)
  | succ fuel ih =>
    intro state written hv ho hh hinner hfuel
    cases htop : priority_queue_top state.merge_queue with
    | none =>
      refine ⟨[state], mergeOuterLoopHeads_done count size inner_fuel fuel state htop, ?_⟩
      intro head hm
      simp only [List.mem_singleton] at hm
      subst hm
      exact ⟨hv, ho, written, hh⟩
    | some min_data =>
      obtain ⟨drained, hr, hdv, hdo, hdperm, hdlen, hdpend⟩ :=
        mergeOuterRound_spec count size inner_fuel state min_data hv ho htop hinner
      obtain ⟨written', hdh⟩ := mergeOuterRound_heap files count size inner_fuel state written
        min_data hv hh htop drained hr
      have hlen := hdperm.length_eq
      simp only [MergeState.content, List.length_append, queueValues, List.length_map] at hlen
      obtain ⟨later, hrunl, hall⟩ := ih drained written' hdv hdo hdh (by omega) (by omega)
      refine ⟨state :: later, ?_, ?_⟩
      · rw [mergeOuterLoopHeads_step count size inner_fuel fuel state drained min_data htop hr,
          hrunl]
        rfl
      · intro head hm
        rcases List.mem_cons.1 hm with e | e
        · rw [e]; exact ⟨hv, ho, written, hh⟩
        · exact hall head e

theorem concatAll_replicate (count : Nat) : concatAll (List.replicate count []) = [] := by
  induction count with
  | zero => rfl
  | succ count ih => simp only [List.replicate_succ, concatAll, ih, List.append_nil]

/-- The readers made over the run files, reader by reader: reader `k` has the whole numbers of
file `k` to deliver, or nothing when its buffers have room for no number. -/
theorem CreateIntermediateFilesBuffers_index (directory : Nat → Option (List Byte)) (size : Nat)
    (files : List (List Byte)) : ∀ (i : Nat),
    (∀ (k : Nat) (file : List Byte), files[k]? = some file → directory (i + k) = some file) →
    ∃ readers, CreateIntermediateFilesBuffers directory size files.length i = .ok readers ∧
      readers.length = files.length ∧
      ∀ (k : Nat) (reader : BinaryFileBuffer) (file : List Byte),
        readers[k]? = some reader → files[k]? = some file →
        reader.pending =
          if RoundSize (size / kBuffersCount) / sizeofNumberType = 0 then []
          else toNumbers file := by
  induction files with
  | nil =>
    intro i _
    refine ⟨[], rfl, rfl, ?_⟩
    intro k reader file h; simp at h
  | cons file files ih =>
    intro i hdir
    have h0 := hdir 0 file (by simp)
    simp only [Nat.add_zero] at h0
    obtain ⟨others, hrun, hlen, hall⟩ := ih (i + 1) (fun k f hf => by
      have := hdir (k + 1) f (by simpa using hf)
      rw [← this]; congr 1; omega)
    obtain ⟨reader, hc, hv, hready, hcount, hp⟩ := construct_spec file size
    rw [hcount] at hp
    refine ⟨reader :: others, ?_, by simp [hlen], ?_⟩
    · simp only [List.length_cons, CreateIntermediateFilesBuffers, h0, hc, hrun, bind, Except.bind,
        pure, Except.pure]
    · intro k found file' hf hfile'
      cases k with
      | zero =>
        simp only [List.getElem?_cons_zero, Option.some.injEq] at hf hfile'
        subst hf hfile'
        exact hp
      | succ k =>
        simp only [List.getElem?_cons_succ] at hf hfile'
        exact hall k found file' hf hfile'

/-- The merge phase over sorted run files with an accepted budget, its outer loop recorded: every
state in which the loop condition is evaluated satisfies the invariants of the merge and the
account of the queue; when the loop is entered it runs at least one round, it ends on an empty
queue with the cursor past a store, and the function returns after the tail flush of that
state, whenever the last writeback task runs. While the flag of `merge_buffer_1` is set the
output is untouched. What the merge has put out in the last state is sorted and holds the numbers
the readers had to deliver: all the whole numbers of the run files when the reader buffers have
room for a number, and none otherwise. -/
theorem mergeLoopHeads_spec (self : ExternalSorter) (files : List (List Byte))
    (hmin : kMinAvailableMemory ≤ self.available_memory_)
    (hrange : self.available_memory_ < sizeRange)
    (hcount : self.intermediate_files_count_ = files.length)
    (hdir : ∀ (k : Nat) (file : List Byte), files[k]? = some file →
      self.intermediate_directory k = some file)
    (hsorted : ∀ file ∈ files, (toNumbers file).Sorted (fun a b => a ≤ b))
    (hout : self.output_file_stream_.content = []) :
    ∃ heads, self.mergeLoopHeads = .ok heads ∧
      (∀ head ∈ heads,
        head.Valid (merge_numbers_count self.available_memory_ files.length)
          (merge_buffer_size_in_bytes self.available_memory_ files.length) ∧
        head.Ordered none ∧ ∃ written, head.Heap files written none) ∧
      (heads ≠ [] → ∃ first rest last, heads = first :: rest ∧
        first.current_merge_buffer_index = 0 ∧
        first.output_file_stream_ = self.output_file_stream_ ∧
        rest.getLast? = some last ∧ last.merge_queue = [] ∧
        (∀ head ∈ rest, 0 < head.current_merge_buffer_index) ∧
        ∀ schedule, self.mergeSortedChunksImpl schedule = .ok { self with
          output_file_stream_ := tailFlush last
            (merge_buffer_size_in_bytes self.available_memory_ files.length) schedule }) ∧
      (heads = [] → ∀ schedule, self.mergeSortedChunksImpl schedule = .ok self) ∧
      (∀ head ∈ heads, head.merge_buffer_1.is_ready_to_fill_ = true →
        head.output_file_stream_ = self.output_file_stream_) ∧
      ∃ merged : List number_t, merged.Sorted (fun a b => a ≤ b) ∧
        merged.Perm (if readerNumbersCount self.available_memory_ files.length = 0 then []
          else numbersOfFiles files) ∧
        (heads = [] → merged = []) ∧
        (∀ last, heads.getLast? = some last → last.emitted = merged) := by
  by_cases h0 : files.length = 0
  · have hf : files = [] := List.length_eq_zero.1 h0
    refine ⟨[], ?_, fun head h => (nomatch h), fun h => absurd rfl h, fun _ schedule => ?_,
      fun head h => (nomatch h), [], List.sorted_nil, ?_, fun _ => rfl,
      fun last h => (nomatch h)⟩
    · simp [ExternalSorter.mergeLoopHeads, hcount, h0]
      rfl
    · simp [ExternalSorter.mergeSortedChunksImpl, hcount, h0]
      rfl
    · rw [hf]; simp [numbersOfFiles, toNumbers]
  · obtain ⟨readers, hcreate, hall, hpending⟩ := CreateIntermediateFilesBuffers_spec
      self.intermediate_directory
      (file_buffer_memory_size self.available_memory_ files.length) files 0
      (fun k f hf => by rw [Nat.zero_add]; exact hdir k f hf)
    obtain ⟨readers2, hcreate2, hrlen, hidx⟩ := CreateIntermediateFilesBuffers_index
      self.intermediate_directory
      (file_buffer_memory_size self.available_memory_ files.length) files 0
      (fun k f hf => by rw [Nat.zero_add]; exact hdir k f hf)
    rw [hcreate] at hcreate2
    injection hcreate2 with hcreate2
    subst hcreate2
    have hall' : ∀ reader ∈ readers, reader.Valid ∧ reader.buffer_0.is_ready_ = true ∧
        reader.pending.Sorted (fun a b => a ≤ b) := by
      intro reader hr
      obtain ⟨a, b, f, hf, c⟩ := hall reader hr
      refine ⟨a, b, ?_⟩
      rw [c]
      split
      · exact List.sorted_nil
      · exact hsorted f hf
    obtain ⟨readers', added, hinit, hk, hentries, hperm⟩ := initMergeQueue_spec readers 0 [] hall'
    obtain ⟨readers2, added2, hinit2, hlen2, hnd, _, hentries2, hfree2⟩ :=
      initMergeQueue_heap readers 0 [] (fun reader hr => ⟨(hall' reader hr).1, (hall' reader hr).2.1⟩)
    rw [hinit] at hinit2
    simp only [List.append_nil, Except.ok.injEq, Prod.mk.injEq] at hinit2
    obtain ⟨e1, e2⟩ := hinit2
    subst e1 e2
    rw [List.append_nil] at hinit
    simp only [Nat.zero_add] at hk hentries hentries2 hfree2
    by_cases hq : added = []
    · subst hq
      have hnil : pendingAll readers' = [] :=
        pendingAll_eq_nil readers' (fun k r hr => by
          by_contra hne
          obtain ⟨_, h, _⟩ := (hk k r hr).2.2 hne
          cases h)
      refine ⟨[], ?_, fun head h => (nomatch h), fun h => absurd rfl h, fun _ schedule => ?_,
        fun head h => (nomatch h), [], List.sorted_nil, ?_, fun _ => rfl,
        fun last h => (nomatch h)⟩
      · simp only [ExternalSorter.mergeLoopHeads, hcount, h0, if_false, hcreate, hinit,
          bind, Except.bind, pure, Except.pure]
        rfl
      · simp only [ExternalSorter.mergeSortedChunksImpl, hcount, h0, if_false, hcreate, hinit,
          bind, Except.bind, pure, Except.pure]
        rfl
      · show List.Perm [] (if RoundSize (file_buffer_memory_size self.available_memory_
            files.length / kBuffersCount) / sizeofNumberType = 0 then [] else numbersOfFiles files)
        rw [← hpending]
        have := hperm
        simp only [queueValues, List.map_nil, List.nil_append, hnil] at this
        exact this
    · have hpos := merge_numbers_count_pos self.available_memory_ files.length hmin hrange
      have hsize := merge_buffer_size_eq self.available_memory_ files.length
      -- some reader has delivered a record, so the reader buffers have room for a number
      have hroom : ¬ RoundSize (file_buffer_memory_size self.available_memory_ files.length /
          kBuffersCount) / sizeofNumberType = 0 := by
        intro hzero
        obtain ⟨entry, he⟩ := List.exists_mem_of_ne_nil _ hq
        obtain ⟨k, reader, reader', _, hr, _, hp⟩ := hentries2 entry he
        obtain ⟨file, hfile⟩ := getElem?_of_length_eq readers files k reader hrlen.symm hr
        have := hidx k reader file hr hfile
        rw [if_pos hzero, hp] at this
        cases this
      have hv0 : MergeState.Valid (merge_numbers_count self.available_memory_ files.length)
          (merge_buffer_size_in_bytes self.available_memory_ files.length)
          ⟨readers', added,
            ⟨true, List.replicate (merge_numbers_count self.available_memory_ files.length) 0⟩,
            ⟨true, List.replicate (merge_numbers_count self.available_memory_ files.length) 0⟩,
            0, self.output_file_stream_⟩ :=
        ⟨fun k r hr => (hk k r hr).1, by simp, by simp, Nat.zero_le _, hpos, hsize,
          by rw [hout]; exact Dvd.intro_left 0 rfl⟩
      have ho0 : MergeState.Ordered
          ⟨readers', added,
            ⟨true, List.replicate (merge_numbers_count self.available_memory_ files.length) 0⟩,
            ⟨true, List.replicate (merge_numbers_count self.available_memory_ files.length) 0⟩,
            0, self.output_file_stream_⟩ none := by
        refine ⟨?_, ?_, ?_, ?_, ?_, ?_⟩
        · simp [MergeState.emitted, MergeState.queued, hout, toNumbers]
        · intro e he; simp [MergeState.emitted, MergeState.queued, hout, toNumbers] at he
        · intro j r hj; cases hj
        · intro entry he
          obtain ⟨k, r, h1, h2, h3⟩ := hentries entry he
          exact ⟨r, by rw [h1]; exact h2, h3⟩
        · intro j r _ hr hne
          exact (hk j r hr).2.2 hne
        · intro j r hr
          exact (hk j r hr).2.1
      have hh0 : MergeState.Heap files (List.replicate files.length [])
          ⟨readers', added,
            ⟨true, List.replicate (merge_numbers_count self.available_memory_ files.length) 0⟩,
            ⟨true, List.replicate (merge_numbers_count self.available_memory_ files.length) 0⟩,
            0, self.output_file_stream_⟩ none := by
        refine ⟨by simp, by show readers'.length = _; rw [hlen2, hrlen], ?_, hnd, ?_, ?_, ?_⟩
        · rw [concatAll_replicate]
          simp [MergeState.emitted, MergeState.queued, hout, toNumbers]
        · intro j hj; cases hj
        · intro entry he
          obtain ⟨k, reader, reader', h1, hr, hr', hp⟩ := hentries2 entry he
          obtain ⟨file, hfile⟩ := getElem?_of_length_eq readers files k reader hrlen.symm hr
          have hpend := hidx k reader file hr hfile
          rw [if_neg hroom] at hpend
          refine ⟨reader', file, [], by rw [h1]; exact hr', by rw [h1]; exact hfile, ?_, ?_⟩
          · rw [h1]
            have hklt : k < files.length := by
              rcases Nat.lt_or_ge k files.length with hlt | hge
              · exact hlt
              · rw [List.getElem?_eq_none hge] at hfile; cases hfile
            rw [List.getElem?_eq_getElem (by simpa using hklt)]
            simp
          · rw [← hpend, hp]
            rfl
        · intro j reader' file w hr' hfile hw hno
          have hjlt : j < files.length := by
            rcases Nat.lt_or_ge j files.length with hlt | hge
            · exact hlt
            · rw [List.getElem?_eq_none hge] at hfile; cases hfile
          rw [List.getElem?_eq_getElem (by simpa using hjlt)] at hw
          simp only [List.getElem_replicate, Option.some.injEq] at hw
          subst hw
          obtain ⟨reader, hr⟩ := getElem?_of_length_eq files readers j file hrlen hfile
          have hpend := hidx j reader file hr hfile
          rw [if_neg hroom] at hpend
          rw [← hfree2 j reader reader' hr hr' hno, hpend]
          rfl
      have hlen := hperm.length_eq
      simp only [List.length_append, queueValues, List.length_map] at hlen
      have hbytes := runFilesBytes_ge self.intermediate_directory files 0
        (fun k f hf => by rw [Nat.zero_add]; exact hdir k f hf)
      have hpl : (pendingAll readers).length ≤ (numbersOfFiles files).length := by
        rw [hpending]; split <;> simp
      obtain ⟨heads, hrun, hheads⟩ := mergeOuterLoopHeads_spec files
        (merge_numbers_count self.available_memory_ files.length)
        (merge_buffer_size_in_bytes self.available_memory_ files.length)
        (runFilesBytes self.intermediate_directory files.length 0 + 1)
        (runFilesBytes self.intermediate_directory files.length 0 + 1) _ _ hv0 ho0 hh0
        (by show (pendingAll readers').length < _; omega)
        (by show added.length + (pendingAll readers').length < _; omega)
      obtain ⟨rest, last, hcons, hlast, hlq, hloop, hposr⟩ :=
        mergeOuterLoopHeads_last _ _ _ _ _ heads hrun
      have hrest : rest ≠ [] := by
        intro hnil
        rw [hcons, hnil] at hlast
        simp only [List.getLast?_singleton, Option.some.injEq] at hlast
        rw [← hlast] at hlq
        exact hq hlq
      have hlast' : rest.getLast? = some last := by
        obtain ⟨second, others, hr⟩ := List.exists_cons_of_ne_nil hrest
        rw [hcons, hr, List.getLast?_cons_cons] at hlast
        rw [hr]
        exact hlast
      have hlmem : last ∈ rest := List.mem_of_getLast?_eq_some hlast'
      obtain ⟨final, hrunf, _, hfo, hfq, hfperm⟩ := mergeOuterLoop_spec
        (merge_numbers_count self.available_memory_ files.length)
        (merge_buffer_size_in_bytes self.available_memory_ files.length)
        (runFilesBytes self.intermediate_directory files.length 0 + 1)
        (runFilesBytes self.intermediate_directory files.length 0 + 1) _ hv0 ho0
        (by show (pendingAll readers').length < _; omega)
        (by show added.length + (pendingAll readers').length < _; omega)
      rw [hloop] at hrunf
      injection hrunf with hrunf
      subst hrunf
      have hfnil : pendingAll last.files_buffers = [] :=
        pendingAll_eq_nil _ (fun k r hr => by
          by_contra hne
          obtain ⟨_, h, _⟩ := hfo.covered k r (fun c => by cases c) hr hne
          rw [hfq] at h
          cases h)
      have hem : last.emitted.Perm (pendingAll readers) := by
        have := hfperm
        simp only [MergeState.content, hfq, hfnil, queueValues, List.map_nil, List.append_nil,
          MergeState.emitted, MergeState.queued, if_true, hout, toNumbers, List.take_zero,
          List.nil_append] at this
        exact this.trans hperm
      rw [hpending] at hem
      refine ⟨heads, ?_, hheads, fun _ => ⟨_, rest, last, hcons, rfl, rfl, hlast', hlq, hposr,
        fun schedule => ?_⟩, fun hnil => ?_, ?_, last.emitted, hfo.sorted, hem, fun hnil => ?_,
        fun other ho => ?_⟩
      · simp only [ExternalSorter.mergeLoopHeads, hcount, h0, if_false, hcreate, hinit,
          bind, Except.bind, pure, Except.pure, hq, hrun]
      · simp only [ExternalSorter.mergeSortedChunksImpl, hcount, h0, if_false, hcreate, hinit,
          bind, Except.bind, pure, Except.pure, hq, hloop]
      · rw [hcons] at hnil
        cases hnil
      · intro head hm hflag
        exact (mergeOuterLoopHeads_flag _ _ _ _ _ heads hrun head hm hflag).2
      · rw [hcons] at hnil
        cases hnil
      · rw [hlast] at ho
        injection ho with ho
        rw [ho]

/-- What the account of the queue says of a state at the head of the outer loop: at most one
entry for each run, the entry of a run carrying the first record of the run that was not put out
yet, and no entry for a run that was put out whole. -/
theorem heap_facts (files : List (List Byte)) (written : List (List number_t))
    (state : MergeState) (ho : state.Ordered none) (hh : state.Heap files written none) :
    state.merge_queue.length ≤ files.length ∧
    (∀ entry ∈ state.merge_queue, entry.file_buffer_index_ < files.length) ∧
    (state.merge_queue ≠ [] → ∃ top, priority_queue_top state.merge_queue = some top ∧
      top ∈ state.merge_queue ∧ ∀ entry ∈ state.merge_queue, top.value_ ≤ entry.value_) ∧
    ∀ (i : Nat) (file : List Byte) (w : List number_t), files[i]? = some file →
      written[i]? = some w →
      ∃ unwritten, toNumbers file = w ++ unwritten ∧
        (unwritten = [] → entriesOf state.merge_queue i = []) ∧
        (∀ v rest, unwritten = v :: rest → entriesOf state.merge_queue i = [⟨i, v⟩]) := by
  have hlt : ∀ entry ∈ state.merge_queue, entry.file_buffer_index_ < files.length := by
    intro entry he
    obtain ⟨_, file, _, _, hfile, _⟩ := hh.entry_next entry he
    rcases Nat.lt_or_ge entry.file_buffer_index_ files.length with h | h
    · exact h
    · rw [List.getElem?_eq_none h] at hfile; cases hfile
  refine ⟨queue_length_le _ _ hh.nodup hlt, hlt, ?_, ?_⟩
  · intro hne
    cases htop : priority_queue_top state.merge_queue with
    | none => exact absurd ((priority_queue_top_eq_none _).1 htop) hne
    | some top =>
      exact ⟨top, rfl, priority_queue_top_mem _ _ htop, priority_queue_top_le _ _ htop⟩
  · intro i file w hfile hw
    obtain ⟨reader, hr⟩ := getElem?_of_length_eq files state.files_buffers i file
      hh.readers_length hfile
    by_cases hex : ∃ entry ∈ state.merge_queue, entry.file_buffer_index_ = i
    · obtain ⟨entry, he, hi⟩ := hex
      obtain ⟨reader', file', w', _, hfile', hw', hsplit⟩ := hh.entry_next entry he
      rw [hi, hfile] at hfile'
      rw [hi, hw] at hw'
      injection hfile' with hfile'
      injection hw' with hw'
      subst hfile' hw'
      refine ⟨entry.value_ :: reader'.pending, hsplit, fun c => (nomatch c), ?_⟩
      intro v rest hv
      injection hv with hv _
      have := entriesOf_eq_singleton state.merge_queue entry hh.nodup he
      rw [hi] at this
      rw [this, ← hv, ← hi]
    · have hno : ∀ entry ∈ state.merge_queue, entry.file_buffer_index_ ≠ i :=
        fun entry he c => hex ⟨entry, he, c⟩
      have hsplit := hh.no_entry i reader file w hr hfile hw hno
      have hnil : reader.pending = [] := by
        by_contra hne
        obtain ⟨entry, he, hi⟩ := ho.covered i reader (fun c => by cases c) hr hne
        exact hno entry he hi
      rw [hnil] at hsplit
      exact ⟨[], hsplit, fun _ => entriesOf_eq_nil _ _ hno, fun v rest c => (nomatch c)⟩

/-- The program up to the merge phase leaves sorted run files, an empty output and an accepted
budget. -/
theorem chunkingPhase_runs (available_memory h : Nat) (input : List Byte)
    (hacc : kMinAvailableMemory ≤ usefulMemory available_memory) (hh : 1 ≤ h) :
    ∃ chunked files, chunkingPhase available_memory h input = .ok chunked ∧
      chunked.available_memory_ = usefulMemory available_memory ∧
      chunked.output_file_stream_.content = [] ∧
      chunked.intermediate_files_count_ = files.length ∧
      (∀ (j : Nat) (file : List Byte), files[j]? = some file →
        chunked.intermediate_directory j = some file) ∧
      (∀ file ∈ files, (toNumbers file).Sorted (fun a b => a ≤ b)) ∧
      (chunk_numbers_count (usefulMemory available_memory) h = 0 → files = []) ∧
      (0 < chunk_numbers_count (usefulMemory available_memory) h →
        files.length = ceilDiv input.length
          (chunk_numbers_count (usefulMemory available_memory) h * sizeofNumberType) %
            uint32Range) ∧
      (0 < chunk_numbers_count (usefulMemory available_memory) h →
        ceilDiv input.length
          (chunk_numbers_count (usefulMemory available_memory) h * sizeofNumberType) <
            uint32Range →
        (numbersOfFiles files).Perm (toNumbers input) ∧
        files.length = ceilDiv input.length
          (chunk_numbers_count (usefulMemory available_memory) h * sizeofNumberType)) ∧
      ∀ schedule, sortFile available_memory h input schedule =
        (chunked.mergeSortedChunksImpl schedule).map
          (fun merged => merged.output_file_stream_.content) := by
  have hc := construct_ok available_memory input hacc
  obtain ⟨chunked, files, hchunk, h1, h2, h3, h4, h5, h6, h7, h8⟩ :=
    createSortedChunksImplMultiThreaded_spec
      ⟨usefulMemory available_memory, ⟨input, goodbit, 0⟩, ⟨[]⟩, fun _ => none, 0⟩ h hh rfl rfl
  have h2' : chunked.output_file_stream_ = ⟨[]⟩ := h2
  refine ⟨chunked, files, ?_, h1, by rw [h2'], h3, h4, h5, h6, h7,
    fun hk hb => ⟨(h8 hk hb).1, (h8 hk hb).2.1⟩, fun schedule => ?_⟩
  · simp only [chunkingPhase, hc, hchunk, bind, Except.bind]
  · simp only [sortFile, hc, ExternalSorter.sort, hchunk, bind, Except.bind, pure, Except.pure]
    cases chunked.mergeSortedChunksImpl schedule <;> rfl

/-- The whole program on an accepted budget and a hardware concurrency of at least one. It
returns whenever the last writeback task runs. What the merge puts out splits into the batches
`W` the writeback tasks have written when the outer loop ends, the batch `P` of the task that may
still be queued then, and the tail `T` in the current writeback buffer: the output is `W`, `P`,
`T` when the task runs before the tail flush, `W`, `T`, `P` when it runs after it, and `W`, `T`
when it has not run at the return. `W`, `P`, `T` in this order are sorted and hold the numbers of
the run files `files` when the reader buffers have room for a number, and nothing otherwise. -/
theorem sortFile_outputs (available_memory h : Nat) (input : List Byte)
    (hrange : available_memory < sizeRange)
    (hacc : kMinAvailableMemory ≤ usefulMemory available_memory) (hh : 1 ≤ h) :
    ∃ (files : List (List Byte)) (W P T : List number_t),
      sortFile available_memory h input LastTask.beforeTailFlush = .ok (toBytes (W ++ P ++ T)) ∧
      sortFile available_memory h input LastTask.afterTailFlush = .ok (toBytes (W ++ T ++ P)) ∧
      sortFile available_memory h input LastTask.afterReturn = .ok (toBytes (W ++ T)) ∧
      (W ++ P ++ T).Sorted (fun a b => a ≤ b) ∧
      (W ++ P ++ T).Perm
        (if readerNumbersCount (usefulMemory available_memory) files.length = 0 then []
         else numbersOfFiles files) ∧
      (P = [] → W = []) ∧
      (P ≠ [] → P.length = merge_numbers_count (usefulMemory available_memory) files.length) ∧
      T.length ≤ merge_numbers_count (usefulMemory available_memory) files.length ∧
      (W ++ P ++ T ≠ [] → T ≠ []) ∧
      (chunk_numbers_count (usefulMemory available_memory) h = 0 → files = []) ∧
      (0 < chunk_numbers_count (usefulMemory available_memory) h →
        files.length = ceilDiv input.length
          (chunk_numbers_count (usefulMemory available_memory) h * sizeofNumberType) %
            uint32Range) ∧
      (0 < chunk_numbers_count (usefulMemory available_memory) h →
        ceilDiv input.length
          (chunk_numbers_count (usefulMemory available_memory) h * sizeofNumberType) <
            uint32Range →
        (numbersOfFiles files).Perm (toNumbers input) ∧
        files.length = ceilDiv input.length
          (chunk_numbers_count (usefulMemory available_memory) h * sizeofNumberType)) := by
  obtain ⟨chunked, files, hrun, hmem, hout, hcount, hdir, hsorted, hzero, hmod, hpos, hsort⟩ :=
    chunkingPhase_runs available_memory h input hacc hh
  obtain ⟨heads, hheads, hall, hlast, hempty, hflag, merged, hms, hmp, hmnil, hmlast⟩ :=
    mergeLoopHeads_spec chunked files
      (by rw [hmem]; exact hacc) (by rw [hmem]; exact usefulMemory_lt _ hrange) hcount hdir hsorted
      hout
  rw [hmem] at hmp
  by_cases hne : heads = []
  · have hm := hmnil hne
    subst hm
    have hall3 : ∀ schedule, sortFile available_memory h input schedule = .ok [] := by
      intro schedule
      rw [hsort, hempty hne]
      simp only [Except.map, hout]
    refine ⟨files, [], [], [], hall3 _, hall3 _, hall3 _, hms, hmp, fun _ => rfl,
      fun c => absurd rfl c, Nat.zero_le _, fun c => absurd rfl c, hzero, hmod, hpos⟩
  · obtain ⟨first, rest, last, hcons, _, _, hl, hq, hposr, hfinal⟩ := hlast hne
    have hlmem : last ∈ rest := List.mem_of_getLast?_eq_some hl
    have hlh : last ∈ heads := by rw [hcons]; exact List.mem_cons_of_mem _ hlmem
    have hgl : heads.getLast? = some last := by
      rw [hcons]
      cases rest with
      | nil => cases hl
      | cons second others => rw [List.getLast?_cons_cons]; exact hl
    obtain ⟨hv, _, _⟩ := hall last hlh
    rw [hmem] at hv
    obtain ⟨t1, t2, t3⟩ := tailFlush_spec _ _ last hv
    have hem := hmlast last hgl
    have hidx := hposr last hlmem
    have hsch : ∀ schedule, sortFile available_memory h input schedule =
        .ok (tailFlush last (merge_buffer_size_in_bytes (usefulMemory available_memory)
          files.length) schedule).content := by
      intro schedule
      rw [hsort, hfinal schedule, hmem]
      rfl
    refine ⟨files, toNumbers last.output_file_stream_.content, last.queued,
      last.merge_buffer_0.buffer_.take last.current_merge_buffer_index, ?_, ?_, ?_, ?_, ?_, ?_,
      ?_, ?_, ?_, hzero, hmod, hpos⟩
    · rw [hsch, t1]; rfl
    · rw [hsch, t2]
    · rw [hsch, t3]
    · show last.emitted.Sorted _
      rw [hem]; exact hms
    · show last.emitted.Perm _
      rw [hem]; exact hmp
    · intro hp
      have hready : last.merge_buffer_1.is_ready_to_fill_ = true := by
        cases hf : last.merge_buffer_1.is_ready_to_fill_ with
        | true => rfl
        | false =>
          exfalso
          simp only [MergeState.queued, hf, Bool.false_eq_true, if_false] at hp
          have := hv.length_1
          have := hv.count_pos
          rw [hp] at *
          simp at *
          omega
      rw [hflag last hlh hready, hout]
      rfl
    · intro hp
      cases hf : last.merge_buffer_1.is_ready_to_fill_ with
      | true => simp [MergeState.queued, hf] at hp
      | false =>
        simp only [MergeState.queued, hf, Bool.false_eq_true, if_false]
        exact hv.length_1
    · rw [List.length_take]
      have := hv.index_le
      omega
    · intro _ hnil
      have := congrArg List.length hnil
      rw [List.length_take, hv.length_0] at this
      have := hv.index_le
      simp at *
      omega

/-- The program returns on every input, whenever the last writeback task runs. -/
theorem sortFile_returns (available_memory h : Nat) (input : List Byte)
    (hrange : available_memory < sizeRange)
    (hacc : kMinAvailableMemory ≤ usefulMemory available_memory) (hh : 1 ≤ h)
    (schedule : LastTask) :
    ∃ output, sortFile available_memory h input schedule = .ok output := by
  obtain ⟨files, W, P, T, h1, h2, h3, _⟩ :=
    sortFile_outputs available_memory h input hrange hacc hh
  cases schedule
  · exact ⟨_, h1⟩
  · exact ⟨_, h2⟩
  · exact ⟨_, h3⟩

/-- When the last writeback task has run before the tail flush, the output is a whole number of
records in non-decreasing order. -/
theorem sortFile_sorted (available_memory h : Nat) (input : List Byte)
    (hrange : available_memory < sizeRange)
    (hacc : kMinAvailableMemory ≤ usefulMemory available_memory) (hh : 1 ≤ h) :
    ∃ output, sortFile available_memory h input LastTask.beforeTailFlush = .ok output ∧
      output = toBytes (toNumbers output) ∧
      (toNumbers output).Sorted (fun a b => a ≤ b) := by
  obtain ⟨files, W, P, T, h1, _, _, hs, _⟩ :=
    sortFile_outputs available_memory h input hrange hacc hh
  exact ⟨_, h1, by rw [toNumbers_toBytes], by rw [toNumbers_toBytes]; exact hs⟩

/-- With chunk buffers and reader buffers of at least one record and fewer than `2^32` runs, the
output holds exactly the whole numbers of the input, sorted, when the last writeback task has run
before the tail flush. -/
theorem sortFile_sorted_perm (available_memory h : Nat) (input : List Byte)
    (hrange : available_memory < sizeRange)
    (hacc : kMinAvailableMemory ≤ usefulMemory available_memory) (hh : 1 ≤ h)
    (hkc : 1 ≤ chunk_numbers_count (usefulMemory available_memory) h)
    (hruns : ceilDiv input.length
      (chunk_numbers_count (usefulMemory available_memory) h * sizeofNumberType) < uint32Range)
    (hkr : 1 ≤ readerNumbersCount (usefulMemory available_memory)
      (ceilDiv input.length
        (chunk_numbers_count (usefulMemory available_memory) h * sizeofNumberType))) :
    ∃ output, sortFile available_memory h input LastTask.beforeTailFlush = .ok output ∧
      output = toBytes (toNumbers output) ∧
      (toNumbers output).Sorted (fun a b => a ≤ b) ∧
      (toNumbers output).Perm (toNumbers input) := by
  obtain ⟨files, W, P, T, h1, _, _, hs, hp, _, _, _, _, _, _, hpos⟩ :=
    sortFile_outputs available_memory h input hrange hacc hh
  obtain ⟨hperm, hlen⟩ := hpos hkc hruns
  rw [hlen, if_neg (by omega)] at hp
  exact ⟨_, h1, by rw [toNumbers_toBytes], by rw [toNumbers_toBytes]; exact hs,
    by rw [toNumbers_toBytes]; exact hp.trans hperm⟩

/-- With chunk buffers and reader buffers of at least one record and fewer than `2^32` runs, the
output is the bytes of the whole numbers of the input in sorted order, when the last writeback
task has run before the tail flush. -/
theorem sortFile_bytes (available_memory h : Nat) (input : List Byte)
    (hrange : available_memory < sizeRange)
    (hacc : kMinAvailableMemory ≤ usefulMemory available_memory) (hh : 1 ≤ h)
    (hkc : 1 ≤ chunk_numbers_count (usefulMemory available_memory) h)
    (hruns : ceilDiv input.length
      (chunk_numbers_count (usefulMemory available_memory) h * sizeofNumberType) < uint32Range)
    (hkr : 1 ≤ readerNumbersCount (usefulMemory available_memory)
      (ceilDiv input.length
        (chunk_numbers_count (usefulMemory available_memory) h * sizeofNumberType))) :
    sortFile available_memory h input LastTask.beforeTailFlush =
      .ok (toBytes (stable_sort (toNumbers input))) := by
  obtain ⟨output, hrun, hwhole, hsorted, hperm⟩ :=
    sortFile_sorted_perm available_memory h input hrange hacc hh hkc hruns hkr
  have hs : toNumbers output = stable_sort (toNumbers input) :=
    List.eq_of_perm_of_sorted (hperm.trans (stable_sort_perm _).symm) hsorted
      (stable_sort_sorted _)
  rw [hrun, hwhole, hs]

/-- When the readers deliver nothing the output is empty, whenever the last task runs. -/
theorem sortFile_nil (available_memory h : Nat) (input : List Byte)
    (hrange : available_memory < sizeRange)
    (hacc : kMinAvailableMemory ≤ usefulMemory available_memory) (hh : 1 ≤ h)
    (hnil : ∀ files : List (List Byte),
      (chunk_numbers_count (usefulMemory available_memory) h = 0 → files = []) →
      (0 < chunk_numbers_count (usefulMemory available_memory) h →
        files.length = ceilDiv input.length
          (chunk_numbers_count (usefulMemory available_memory) h * sizeofNumberType) %
            uint32Range) →
      (if readerNumbersCount (usefulMemory available_memory) files.length = 0 then []
         else numbersOfFiles files) = [])
    (schedule : LastTask) :
    sortFile available_memory h input schedule = .ok [] := by
  obtain ⟨files, W, P, T, h1, h2, h3, _, hp, _, _, _, _, hzero, hmod, _⟩ :=
    sortFile_outputs available_memory h input hrange hacc hh
  rw [hnil files hzero hmod] at hp
  have he := hp.eq_nil
  have hw : W = [] := by
    cases W with
    | nil => rfl
    | cons a w => simp at he
  have hpn : P = [] := by
    cases P with
    | nil => rfl
    | cons a w => simp at he
  have ht : T = [] := by
    cases T with
    | nil => rfl
    | cons a w => simp at he
  subst hw hpn ht
  cases schedule
  · exact h1
  · exact h2
  · exact h3

theorem sortFile_empty (available_memory h : Nat)
    (hrange : available_memory < sizeRange)
    (hacc : kMinAvailableMemory ≤ usefulMemory available_memory) (hh : 1 ≤ h)
    (schedule : LastTask) :
    sortFile available_memory h [] schedule = .ok [] := by
  apply sortFile_nil available_memory h [] hrange hacc hh
  intro files hzero hmod
  have hnil : files = [] := by
    rcases Nat.eq_zero_or_pos (chunk_numbers_count (usefulMemory available_memory) h) with hk | hk
    · exact hzero hk
    · apply List.length_eq_zero.1
      rw [hmod hk]
      have : ceilDiv ([] : List Byte).length
          (chunk_numbers_count (usefulMemory available_memory) h * sizeofNumberType) = 0 := by
        simp only [ceilDiv, List.length_nil, Nat.zero_add]
        apply Nat.div_eq_of_lt
        simp only [sizeofNumberType]
        omega
      rw [this]
      rfl
  subst hnil
  split <;> rfl

theorem sortFile_none (available_memory h : Nat) (input : List Byte)
    (hrange : available_memory < sizeRange)
    (hacc : kMinAvailableMemory ≤ usefulMemory available_memory) (hh : 1 ≤ h)
    (hkc : 1 ≤ chunk_numbers_count (usefulMemory available_memory) h)
    (hkr : readerNumbersCount (usefulMemory available_memory)
      (ceilDiv input.length
        (chunk_numbers_count (usefulMemory available_memory) h * sizeofNumberType) %
          uint32Range) = 0)
    (schedule : LastTask) :
    sortFile available_memory h input schedule = .ok [] := by
  apply sortFile_nil available_memory h input hrange hacc hh
  intro files _ hmod
  rw [hmod hkc, hkr, if_pos rfl]

/-- With chunk buffers and reader buffers of at least one record, fewer than `2^32` runs and an
input of no more records than a writeback buffer holds, no writeback task is ever added, and the
output is the bytes of the whole numbers of the input in sorted order whatever the schedule. -/
theorem sortFile_small (available_memory h : Nat) (input : List Byte)
    (hrange : available_memory < sizeRange)
    (hacc : kMinAvailableMemory ≤ usefulMemory available_memory) (hh : 1 ≤ h)
    (hkc : 1 ≤ chunk_numbers_count (usefulMemory available_memory) h)
    (hruns : ceilDiv input.length
      (chunk_numbers_count (usefulMemory available_memory) h * sizeofNumberType) < uint32Range)
    (hkr : 1 ≤ readerNumbersCount (usefulMemory available_memory)
      (ceilDiv input.length
        (chunk_numbers_count (usefulMemory available_memory) h * sizeofNumberType)))
    (hsmall : (toNumbers input).length ≤ merge_numbers_count (usefulMemory available_memory)
      (ceilDiv input.length
        (chunk_numbers_count (usefulMemory available_memory) h * sizeofNumberType)))
    (schedule : LastTask) :
    sortFile available_memory h input schedule =
      .ok (toBytes (stable_sort (toNumbers input))) := by
  obtain ⟨files, W, P, T, h1, h2, h3, hs, hp, hpw, hpl, _, hT, _, _, hpos⟩ :=
    sortFile_outputs available_memory h input hrange hacc hh
  obtain ⟨hperm, hlen⟩ := hpos hkc hruns
  rw [hlen, if_neg (by omega)] at hp
  rw [hlen] at hpl
  have hall := hp.trans hperm
  have hsum := hall.length_eq
  simp only [List.length_append] at hsum
  have hpn : P = [] := by
    by_contra hne
    have h4 := hpl hne
    have h5 : T ≠ [] := hT (by simp [hne])
    have h6 : 0 < T.length := List.length_pos.2 h5
    omega
  have hw := hpw hpn
  subst hpn hw
  have hsame : stable_sort (toNumbers input) = T :=
    (List.eq_of_perm_of_sorted (hall.trans (stable_sort_perm _).symm) hs
      (stable_sort_sorted _)).symm
  simp only [List.nil_append, List.append_nil] at h1 h2 h3
  rw [hsame]
  cases schedule
  · exact h1
  · exact h2
  · exact h3

theorem toNumbers_replicate_zero (n : Nat) (rest : List Byte) :
    toNumbers (List.replicate (4 * n) (0 : Byte) ++ rest) =
      List.replicate n (0 : number_t) ++ toNumbers rest := by
  induction n with
  | zero => simp
  | succ n ih =>
    have h4 : 4 * (n + 1) = 4 * n + 1 + 1 + 1 + 1 := by omega
    rw [h4]
    simp only [List.replicate_succ, List.cons_append, toNumbers, ih]
    congr 1

/-- In every state the steps can reach, at most one writeback task is waiting or running, and
there is one exactly while the flag is clear. -/
theorem WriteState.run_tasks (steps : List WriteStep) : ∀ (state after : WriteState),
    state.tasks_ + state.active_tasks_ = (if state.is_ready_to_fill_ then 0 else 1) →
    WriteState.run steps state = some after →
    after.tasks_ + after.active_tasks_ = (if after.is_ready_to_fill_ then 0 else 1) := by
  induction steps with
  | nil =>
    intro state after hinv h
    simp only [WriteState.run, Option.some.injEq] at h
    subst h
    exact hinv
  | cons next steps ih =>
    intro state after hinv h
    simp only [WriteState.run] at h
    cases hs : state.step next with
    | none => rw [hs] at h; cases h
    | some middle =>
      rw [hs] at h
      refine ih middle after ?_ h
      obtain ⟨ready, queued, active, tail⟩ := state
      cases next <;> simp only [WriteState.step] at hs <;> split at hs <;>
        simp only [Option.some.injEq, reduceCtorEq] at hs <;> subst hs <;>
        cases ready <;> simp_all <;> omega

/-- An input of one record more than a writeback buffer holds, with chunk and reader buffers of
at least one record and fewer than `2^32` runs: the outer loop ends with the first full buffer
handed to a writeback task that nothing has waited for, and one record in the current buffer. The
output is the sorted records when the task runs before the tail flush; it is the last record
followed by the batch when the task runs after the tail flush, and the last record alone when the
task has not run at the return. -/
theorem sortFile_one_batch (available_memory h : Nat) (input : List Byte)
    (hrange : available_memory < sizeRange)
    (hacc : kMinAvailableMemory ≤ usefulMemory available_memory) (hh : 1 ≤ h)
    (hkc : 1 ≤ chunk_numbers_count (usefulMemory available_memory) h)
    (hruns : ceilDiv input.length
      (chunk_numbers_count (usefulMemory available_memory) h * sizeofNumberType) < uint32Range)
    (hkr : 1 ≤ readerNumbersCount (usefulMemory available_memory)
      (ceilDiv input.length
        (chunk_numbers_count (usefulMemory available_memory) h * sizeofNumberType)))
    (hone : (toNumbers input).length = merge_numbers_count (usefulMemory available_memory)
      (ceilDiv input.length
        (chunk_numbers_count (usefulMemory available_memory) h * sizeofNumberType)) + 1) :
    sortFile available_memory h input LastTask.beforeTailFlush =
      .ok (toBytes (stable_sort (toNumbers input))) ∧
    sortFile available_memory h input LastTask.afterTailFlush =
      .ok (toBytes ((stable_sort (toNumbers input)).drop
          (merge_numbers_count (usefulMemory available_memory)
            (ceilDiv input.length
              (chunk_numbers_count (usefulMemory available_memory) h * sizeofNumberType))) ++
        (stable_sort (toNumbers input)).take
          (merge_numbers_count (usefulMemory available_memory)
            (ceilDiv input.length
              (chunk_numbers_count (usefulMemory available_memory) h * sizeofNumberType))))) ∧
    sortFile available_memory h input LastTask.afterReturn =
      .ok (toBytes ((stable_sort (toNumbers input)).drop
          (merge_numbers_count (usefulMemory available_memory)
            (ceilDiv input.length
              (chunk_numbers_count (usefulMemory available_memory) h * sizeofNumberType))))) := by
  obtain ⟨files, W, P, T, h1, h2, h3, hs, hp, hpw, hpl, hle, hT, _, _, hpos⟩ :=
    sortFile_outputs available_memory h input hrange hacc hh
  obtain ⟨hperm, hlen⟩ := hpos hkc hruns
  rw [hlen, if_neg (by omega)] at hp
  rw [hlen] at hpl hle
  have hall := hp.trans hperm
  have hsum := hall.length_eq
  simp only [List.length_append] at hsum
  have hsorted : stable_sort (toNumbers input) = W ++ P ++ T :=
    (List.eq_of_perm_of_sorted (hall.trans (stable_sort_perm _).symm) hs
      (stable_sort_sorted _)).symm
  have hpne : P ≠ [] := by
    intro hpn
    have hw := hpw hpn
    rw [hpn, hw] at hsum
    simp at hsum
    omega
  have hplen := hpl hpne
  have htpos : 0 < T.length := List.length_pos.2 (hT (by simp [hpne]))
  have hw : W = [] := List.length_eq_zero.1 (by omega)
  subst hw
  simp only [List.nil_append] at h1 h2 h3 hsorted
  rw [hsorted, List.drop_left' hplen, List.take_left' hplen]
  exact ⟨h1, h2, h3⟩

/-- The program on 184320 records 0 followed by the record 1, with a budget of 10 MiB and
hardware concurrency 1: one run, writeback buffers of 184320 records. -/
theorem sortFile_failing_input :
    sortFile 10485760 1 (List.replicate 737280 0 ++ [1, 0, 0, 0]) LastTask.beforeTailFlush =
      .ok (toBytes (List.replicate 184320 0 ++ [1])) ∧
    sortFile 10485760 1 (List.replicate 737280 0 ++ [1, 0, 0, 0]) LastTask.afterTailFlush =
      .ok (toBytes (1 :: List.replicate 184320 0)) ∧
    sortFile 10485760 1 (List.replicate 737280 0 ++ [1, 0, 0, 0]) LastTask.afterReturn =
      .ok (toBytes [1]) := by
  have hnum : toNumbers (List.replicate 737280 (0 : Byte) ++ [1, 0, 0, 0]) =
      List.replicate 184320 (0 : number_t) ++ [1] := by
    have := toNumbers_replicate_zero 184320 [1, 0, 0, 0]
    rw [this]
    rfl
  have hlen : (List.replicate 737280 (0 : Byte) ++ [1, 0, 0, 0]).length = 737284 := by
    rw [List.length_append, List.length_replicate]
    rfl
  have hruns : ceilDiv (List.replicate 737280 (0 : Byte) ++ [1, 0, 0, 0]).length
      (chunk_numbers_count (usefulMemory 10485760) 1 * sizeofNumberType) = 1 := by
    rw [hlen]
    decide
  have hkw : merge_numbers_count (usefulMemory 10485760) 1 = 184320 := by decide
  have hsorted : (List.replicate 184320 (0 : number_t) ++ [1]).Sorted (fun a b => a ≤ b) := by
    rw [List.Sorted, List.pairwise_append]
    refine ⟨?_, List.pairwise_singleton _ _, ?_⟩
    · rw [List.pairwise_replicate]
      exact Or.inr (le_refl _)
    · intro a ha b hb
      rw [List.eq_of_mem_replicate ha]
      exact Fin.zero_le _
  have hst : stable_sort (toNumbers (List.replicate 737280 (0 : Byte) ++ [1, 0, 0, 0])) =
      List.replicate 184320 (0 : number_t) ++ [1] := by
    rw [hnum]
    exact stable_sort_of_sorted _ hsorted
  have key := sortFile_one_batch 10485760 1 (List.replicate 737280 0 ++ [1, 0, 0, 0])
    (by decide) (by decide) (by decide) (by decide) (by rw [hruns]; decide)
    (by rw [hruns]; decide)
    (by rw [hnum, hruns, hkw, List.length_append, List.length_replicate]; rfl)
  rw [hruns, hkw, hst, List.drop_left' (List.length_replicate _ _),
    List.take_left' (List.length_replicate _ _)] at key
  exact key

/-- With chunk buffers and reader buffers of at least one record, fewer than `2^32` runs and an
input of at least one record, the outer loop of the merge is entered and ends in a state whose
cursor is past a store and within the writeback buffer; what the merge has put out by then is the
whole numbers of the input in sorted order; while the flag of `merge_buffer_1` is still set
nothing was written; and the function returns after the tail flush of that state, whenever the
last writeback task runs. -/
theorem sortFile_last_head (available_memory h : Nat) (input : List Byte)
    (hrange : available_memory < sizeRange)
    (hacc : kMinAvailableMemory ≤ usefulMemory available_memory) (hh : 1 ≤ h)
    (hkc : 1 ≤ chunk_numbers_count (usefulMemory available_memory) h)
    (hruns : ceilDiv input.length
      (chunk_numbers_count (usefulMemory available_memory) h * sizeofNumberType) < uint32Range)
    (hkr : 1 ≤ readerNumbersCount (usefulMemory available_memory)
      (ceilDiv input.length
        (chunk_numbers_count (usefulMemory available_memory) h * sizeofNumberType)))
    (hin : toNumbers input ≠ []) :
    ∃ (chunked : ExternalSorter) (heads : List MergeState) (last : MergeState),
      chunkingPhase available_memory h input = .ok chunked ∧
      chunked.mergeLoopHeads = .ok heads ∧ heads.getLast? = some last ∧
      0 < last.current_merge_buffer_index ∧
      last.emitted = stable_sort (toNumbers input) ∧
      last.Valid
        (merge_numbers_count (usefulMemory available_memory)
          (ceilDiv input.length
            (chunk_numbers_count (usefulMemory available_memory) h * sizeofNumberType)))
        (merge_buffer_size_in_bytes (usefulMemory available_memory)
          (ceilDiv input.length
            (chunk_numbers_count (usefulMemory available_memory) h * sizeofNumberType))) ∧
      (last.merge_buffer_1.is_ready_to_fill_ = true → last.output_file_stream_.content = []) ∧
      ∀ schedule, chunked.mergeSortedChunksImpl schedule = .ok { chunked with
        output_file_stream_ := tailFlush last
          (merge_buffer_size_in_bytes (usefulMemory available_memory)
            (ceilDiv input.length
              (chunk_numbers_count (usefulMemory available_memory) h * sizeofNumberType)))
          schedule } := by
  obtain ⟨chunked, files, hrun, hmem, hout, hcount, hdir, hsorted, _, _, hpos, hsort⟩ :=
    chunkingPhase_runs available_memory h input hacc hh
  obtain ⟨heads, hheads, hall, hlast, hempty, hflag, merged, hms, hmp, hmnil, hmlast⟩ :=
    mergeLoopHeads_spec chunked files
      (by rw [hmem]; exact hacc) (by rw [hmem]; exact usefulMemory_lt _ hrange) hcount hdir hsorted
      hout
  obtain ⟨hperm, hlen⟩ := hpos hkc hruns
  rw [hmem, hlen, if_neg (by omega)] at hmp
  have hmall := hmp.trans hperm
  have hne : heads ≠ [] := by
    intro hnil
    rw [hmnil hnil] at hmall
    exact hin hmall.symm.eq_nil
  obtain ⟨first, rest, last, hcons, _, _, hl, hq, hposr, hfinal⟩ := hlast hne
  have hlmem : last ∈ rest := List.mem_of_getLast?_eq_some hl
  have hlh : last ∈ heads := by rw [hcons]; exact List.mem_cons_of_mem _ hlmem
  have hgl : heads.getLast? = some last := by
    rw [hcons]
    cases rest with
    | nil => cases hl
    | cons second others => rw [List.getLast?_cons_cons]; exact hl
  obtain ⟨hv, _, _⟩ := hall last hlh
  rw [hmem, hlen] at hv
  have hfinal2 : ∀ schedule, chunked.mergeSortedChunksImpl schedule = .ok { chunked with
      output_file_stream_ := tailFlush last
        (merge_buffer_size_in_bytes (usefulMemory available_memory)
          (ceilDiv input.length
            (chunk_numbers_count (usefulMemory available_memory) h * sizeofNumberType)))
        schedule } := by
    intro schedule
    rw [hfinal schedule, hmem, hlen]
  have hem := hmlast last hgl
  refine ⟨chunked, heads, last, hrun, hheads, hgl, hposr last hlmem, ?_, hv, ?_, hfinal2⟩
  · rw [hem]
    exact List.eq_of_perm_of_sorted (hmall.trans (stable_sort_perm _).symm) hms
      (stable_sort_sorted _)
  · intro hready
    rw [hflag last hlh hready, hout]

/-! # The claims -/

/-- C1, the code at the failing input. When the writeback task of the last batch has run before
the tail flush, the output of `sort` is a whole number of records in non-decreasing order, for
every input, every accepted budget and every hardware concurrency of at least one. But nothing
between the last `swapMergeBufferAndCreateTask` and the tail flush waits for that task. With
`available_memory = 10 MiB`, hardware concurrency 1 and the 737284 bytes of 184320 records 0
followed by the record 1 (one run, writeback buffers of 184320 records) the batch of 184320
records is handed to a task and the record 1 is left for the tail flush: when the task runs
before the tail flush the output is the sorted records, and when the tail flush comes first the
output starts with the record 1, followed by the records 0, and the first adjacent pair is
`(1, 0)`. -/
theorem C1_tail_flush_overtakes_last_batch :
    (∀ (available_memory h : Nat) (input : List Byte), available_memory < sizeRange →
      kMinAvailableMemory ≤ usefulMemory available_memory → 1 ≤ h →
      ∃ output, sortFile available_memory h input LastTask.beforeTailFlush = .ok output ∧
        output = toBytes (toNumbers output) ∧
        (toNumbers output).Chain' (fun a b => a ≤ b) ∧
        (toNumbers output).Pairwise (fun a b => a ≤ b)) ∧
    sortFile 10485760 1 (List.replicate 737280 0 ++ [1, 0, 0, 0]) LastTask.beforeTailFlush =
      .ok (toBytes (List.replicate 184320 0 ++ [1])) ∧
    (∃ output,
      sortFile 10485760 1 (List.replicate 737280 0 ++ [1, 0, 0, 0]) LastTask.afterTailFlush =
        .ok output ∧
      toNumbers output = 1 :: 0 :: List.replicate 184319 0 ∧
      ¬ (toNumbers output).Chain' (fun a b => a ≤ b)) := by
  obtain ⟨h1, h2, _⟩ := sortFile_failing_input
  refine ⟨?_, h1, _, h2, ?_, ?_⟩
  · intro available_memory h input hrange hacc hh
    obtain ⟨output, hrun, hwhole, hsorted⟩ := sortFile_sorted available_memory h input hrange hacc hh
    exact ⟨output, hrun, hwhole, hsorted.chain', hsorted⟩
  · rw [toNumbers_toBytes]
    rfl
  · rw [toNumbers_toBytes]
    intro hchain
    have h10 : (1 : number_t) ≤ 0 := (List.chain'_cons.1 hchain).1
    exact absurd h10 (by decide)

/-- C2, the code at the failing input. With chunk buffers and reader buffers of at least one
record and fewer than `2^32` runs, when the writeback task of the last batch has run before the
tail flush the multiset of the records of the output is the multiset of the whole records of the
input; the 12 bytes of `[3, 1, 2]` give the 12 bytes of `[1, 2, 3]` whatever the schedule, no
batch being handed to a task. But `sort` returns without waiting for the task of the last batch.
With `available_memory = 10 MiB`, hardware concurrency 1 and the 737284 bytes of 184320 records 0
followed by the record 1, the chunk buffer holds 1474560 records and the reader buffers 552960 each, the
batch of 184320 records 0 is handed to a task, and when that task has not run at the return of
`sort` the output holds the record 1 only: 1 record for the 184321 of the input. -/
theorem C2_last_batch_missing_at_return :
    (∀ (available_memory h : Nat) (input : List Byte), available_memory < sizeRange →
      kMinAvailableMemory ≤ usefulMemory available_memory → 1 ≤ h →
      1 ≤ chunk_numbers_count (usefulMemory available_memory) h →
      ceilDiv input.length
        (chunk_numbers_count (usefulMemory available_memory) h * sizeofNumberType) <
          uint32Range →
      1 ≤ readerNumbersCount (usefulMemory available_memory)
        (ceilDiv input.length
          (chunk_numbers_count (usefulMemory available_memory) h * sizeofNumberType)) →
      ∃ output, sortFile available_memory h input LastTask.beforeTailFlush = .ok output ∧
        output = toBytes (toNumbers output) ∧
        (↑(toNumbers output) : Multiset number_t) = ↑(toNumbers input)) ∧
    (∀ schedule, sortFile 10485760 4 [3, 0, 0, 0, 1, 0, 0, 0, 2, 0, 0, 0] schedule =
      .ok [1, 0, 0, 0, 2, 0, 0, 0, 3, 0, 0, 0]) ∧
    chunk_numbers_count (usefulMemory 10485760) 1 = 1474560 ∧
    readerNumbersCount (usefulMemory 10485760) 1 = 552960 ∧
    toNumbers (List.replicate 737280 (0 : Byte) ++ [1, 0, 0, 0]) =
      List.replicate 184320 0 ++ [1] ∧
    (∃ output,
      sortFile 10485760 1 (List.replicate 737280 0 ++ [1, 0, 0, 0]) LastTask.afterReturn =
        .ok output ∧
      toNumbers output = [1] ∧
      (↑(toNumbers output) : Multiset number_t) ≠
        ↑(toNumbers (List.replicate 737280 (0 : Byte) ++ [1, 0, 0, 0]))) := by
  obtain ⟨_, _, h3⟩ := sortFile_failing_input
  have hnum : toNumbers (List.replicate 737280 (0 : Byte) ++ [1, 0, 0, 0]) =
      List.replicate 184320 (0 : number_t) ++ [1] := by
    have := toNumbers_replicate_zero 184320 [1, 0, 0, 0]
    rw [this]
    rfl
  refine ⟨?_, ?_, by decide, by decide, hnum, _, h3, by rw [toNumbers_toBytes], ?_⟩
  · intro available_memory h input hrange hacc hh hkc hruns hkr
    obtain ⟨output, hrun, hwhole, _, hperm⟩ :=
      sortFile_sorted_perm available_memory h input hrange hacc hh hkc hruns hkr
    exact ⟨output, hrun, hwhole, Multiset.coe_eq_coe.2 hperm⟩
  · intro schedule
    have h1 : toNumbers ([3, 0, 0, 0, 1, 0, 0, 0, 2, 0, 0, 0] : List Byte) = [3, 1, 2] := by
      decide
    have key := sortFile_small 10485760 4 [3, 0, 0, 0, 1, 0, 0, 0, 2, 0, 0, 0] (by decide)
      (by decide) (by decide) (by decide) (by decide) (by decide) (by decide) schedule
    have h2 : toBytes (stable_sort [3, 1, 2]) = [1, 0, 0, 0, 2, 0, 0, 0, 3, 0, 0, 0] := by
      decide
    rw [key, h1, h2]
  · rw [toNumbers_toBytes, hnum]
    intro heq
    have hlen := (Multiset.coe_eq_coe.1 heq).length_eq
    rw [List.length_append, List.length_replicate] at hlen
    cases hlen

/-- C3, the code at the failing input. With chunk buffers and reader buffers of at least one
record and fewer than `2^32` runs, when the writeback task of the last batch has run before the
tail flush the output has exactly `floor(s / sizeof(N)) * sizeof(N)` bytes, the bytes of the
whole records of the input in sorted order. But `sort` returns without waiting for the task of
the last batch. With `available_memory = 10 MiB`, hardware concurrency 1 and an input of 737284
bytes (184320 records 0 followed by the record 1) the batch of 737280 bytes is handed to a task,
and when that task has not run at the return of `sort` the output has 4 bytes, not 737284. -/
theorem C3_output_short_at_return :
    (∀ (available_memory h : Nat) (input : List Byte), available_memory < sizeRange →
      kMinAvailableMemory ≤ usefulMemory available_memory → 1 ≤ h →
      1 ≤ chunk_numbers_count (usefulMemory available_memory) h →
      ceilDiv input.length
        (chunk_numbers_count (usefulMemory available_memory) h * sizeofNumberType) <
          uint32Range →
      1 ≤ readerNumbersCount (usefulMemory available_memory)
        (ceilDiv input.length
          (chunk_numbers_count (usefulMemory available_memory) h * sizeofNumberType)) →
      ∃ output, sortFile available_memory h input LastTask.beforeTailFlush = .ok output ∧
        output.length = input.length / sizeofNumberType * sizeofNumberType ∧
        output = toBytes (stable_sort (toNumbers input))) ∧
    (List.replicate 737280 (0 : Byte) ++ [1, 0, 0, 0]).length = 737284 ∧
    737284 / sizeofNumberType * sizeofNumberType = 737284 ∧
    (∃ output,
      sortFile 10485760 1 (List.replicate 737280 0 ++ [1, 0, 0, 0]) LastTask.beforeTailFlush =
        .ok output ∧ output.length = 737284) ∧
    (∃ output,
      sortFile 10485760 1 (List.replicate 737280 0 ++ [1, 0, 0, 0]) LastTask.afterReturn =
        .ok output ∧ output.length = 4) := by
  obtain ⟨h1, _, h3⟩ := sortFile_failing_input
  refine ⟨?_, ?_, by decide, ⟨_, h1, ?_⟩, ⟨_, h3, rfl⟩⟩
  · intro available_memory h input hrange hacc hh hkc hruns hkr
    have hrun := sortFile_bytes available_memory h input hrange hacc hh hkc hruns hkr
    refine ⟨_, hrun, ?_, rfl⟩
    rw [length_toBytes, (stable_sort_perm _).length_eq, length_toNumbers]
    simp only [sizeofNumberType]
    omega
  · rw [List.length_append, List.length_replicate]
    rfl
  · rw [length_toBytes, List.length_append, List.length_replicate]
    rfl

/-- C4, the claim as stated fails: for `available_memory = 10485775` the constructor accepts the
budget and stores 5898240, while `floor(9/16 * 10485775)` rounded down to a multiple of
`sizeof(N)` is 5898248. -/
theorem C4_counterexample :
    (∃ sorter, ExternalSorter.construct 10485775 (some []) true = .ok sorter ∧
      sorter.available_memory_ = 5898240) ∧
    9 * 10485775 / 16 / sizeofNumberType * sizeofNumberType = 5898248 :=
  ⟨⟨_, construct_ok 10485775 [] (by decide), by decide⟩, by decide⟩

/-- C4, amended: the useful budget the constructor stores is `floor(B / 16) * 9` rounded down to
a multiple of `sizeof(N)`, the division made before the multiplication. It is at most
`floor(9/16 * B)` rounded down to a multiple of `sizeof(N)`, less than 12 bytes below it, and
equal to it when `B` is a multiple of 16. -/
theorem C4_useful_budget (available_memory : Nat) (input : List Byte) (sorter : ExternalSorter)
    (hc : ExternalSorter.construct available_memory (some input) true = .ok sorter) :
    sorter.available_memory_ = available_memory / 16 * 9 / sizeofNumberType * sizeofNumberType ∧
    sorter.available_memory_ ≤ 9 * available_memory / 16 / sizeofNumberType * sizeofNumberType ∧
    9 * available_memory / 16 / sizeofNumberType * sizeofNumberType <
      sorter.available_memory_ + 12 ∧
    (16 ∣ available_memory → sorter.available_memory_ =
      9 * available_memory / 16 / sizeofNumberType * sizeofNumberType) := by
  have hm : sorter.available_memory_ = RoundSize (CalcUsefulMemorySize available_memory) := by
    simp only [ExternalSorter.construct, OpenInputBinaryFileStream, OpenOutputBinaryFileStream,
      if_true, bind, Except.bind, pure, Except.pure] at hc
    split at hc
    · cases hc
    · injection hc with hc
      rw [← hc]
  rw [hm]
  refine ⟨rfl, ?_, ?_, ?_⟩
  · simp only [RoundSize, CalcUsefulMemorySize, sizeofNumberType]
    omega
  · simp only [RoundSize, CalcUsefulMemorySize, sizeofNumberType]
    omega
  · rintro ⟨q, rfl⟩
    simp only [RoundSize, CalcUsefulMemorySize, sizeofNumberType]
    omega

theorem C4_useful_budget_witness :
    ExternalSorter.construct 10485760 (some []) true =
      .ok ⟨5898240, ⟨[], goodbit, 0⟩, ⟨[]⟩, fun _ => none, 0⟩ ∧
    (5898240 = 10485760 / 16 * 9 / sizeofNumberType * sizeofNumberType ∧
    5898240 ≤ 9 * 10485760 / 16 / sizeofNumberType * sizeofNumberType ∧
    9 * 10485760 / 16 / sizeofNumberType * sizeofNumberType < 5898240 + 12 ∧
    (16 ∣ 10485760 → 5898240 = 9 * 10485760 / 16 / sizeofNumberType * sizeofNumberType)) :=
  ⟨rfl, C4_useful_budget 10485760 [] ⟨5898240, ⟨[], goodbit, 0⟩, ⟨[]⟩, fun _ => none, 0⟩ rfl⟩

/-- C5. With an input and an output path that can be opened, the constructor fails if and only
if the useful budget it derives is below 2 MiB (2097152 bytes), and the failure is then the
"not enough memory" one; `available_memory = 1 MiB` fails and `available_memory = 10 MiB`
succeeds. -/
theorem C5_not_enough_memory :
    (∀ (available_memory : Nat) (input : List Byte),
      (ExternalSorter.construct available_memory (some input) true =
          .error exception_t.notEnoughMemory ↔
        RoundSize (CalcUsefulMemorySize available_memory) < 2097152) ∧
      ((∃ sorter, ExternalSorter.construct available_memory (some input) true = .ok sorter ∧
          sorter.available_memory_ = RoundSize (CalcUsefulMemorySize available_memory)) ↔
        ¬ RoundSize (CalcUsefulMemorySize available_memory) < 2097152)) ∧
    (∀ input : List Byte, ExternalSorter.construct 1048576 (some input) true =
      .error exception_t.notEnoughMemory) ∧
    (∀ input : List Byte, ∃ sorter,
      ExternalSorter.construct 10485760 (some input) true = .ok sorter) := by
  have key : ∀ (available_memory : Nat) (input : List Byte),
      ExternalSorter.construct available_memory (some input) true =
        if RoundSize (CalcUsefulMemorySize available_memory) < 2097152 then
          .error exception_t.notEnoughMemory
        else .ok ⟨RoundSize (CalcUsefulMemorySize available_memory), ⟨input, goodbit, 0⟩, ⟨[]⟩,
          fun _ => none, 0⟩ := by
    intro available_memory input
    simp only [ExternalSorter.construct, OpenInputBinaryFileStream, OpenOutputBinaryFileStream,
      if_true, bind, Except.bind, pure, Except.pure, kMinAvailableMemory]
    split <;> rfl
  refine ⟨fun available_memory input => ⟨?_, ?_⟩, fun input => ?_, fun input => ?_⟩
  · rw [key]
    by_cases h : RoundSize (CalcUsefulMemorySize available_memory) < 2097152 <;> simp [h]
  · rw [key]
    by_cases h : RoundSize (CalcUsefulMemorySize available_memory) < 2097152 <;> simp [h]
  · rw [key]; rfl
  · rw [key]; exact ⟨_, rfl⟩

/-- C6, the claim as stated fails: a 3-byte input holds no whole record, so the claimed count is
`ceil(0 / chunk_bytes) = 0`, but the chunking phase writes one run (of 3 bytes) and leaves the
run counter at 1. Budget 10 MiB, hardware concurrency 4, chunk of 368640 records. -/
theorem C6_counterexample :
    1 ≤ chunk_numbers_count (usefulMemory 10485760) 4 ∧
    (∃ chunked, chunkingPhase 10485760 4 [1, 2, 3] = .ok chunked ∧
      chunked.intermediate_files_count_ = 1) ∧
    ceilDiv (([1, 2, 3] : List Byte).length / sizeofNumberType * sizeofNumberType)
      (chunk_numbers_count (usefulMemory 10485760) 4 * sizeofNumberType) = 0 := by
  refine ⟨by decide, ?_, by decide⟩
  obtain ⟨chunked, files, hrun, _, hcount, _, _, hpos⟩ :=
    chunkingPhase_spec 10485760 4 [1, 2, 3] (by decide) (by decide)
  refine ⟨chunked, hrun, ?_⟩
  rw [hcount, (hpos (by decide) (by decide)).1]
  decide

/-- C6, amended: for every input of `s` bytes and every chunk of `k_c ≥ 1` records for which
`ceil(s / chunk_bytes)` is below `2^32`, with `chunk_bytes = k_c * sizeof(N)` and `s` the size of
the input as it is, trailing bytes included, after the chunking phase the run counter equals
`ceil(s / chunk_bytes)`; it is 0 for the empty input, and it equals
`ceil(size_usable_input / chunk_bytes)` when `s` is a multiple of `sizeof(N)`. -/
theorem C6_run_counter (available_memory h : Nat) (input : List Byte)
    (hacc : kMinAvailableMemory ≤ usefulMemory available_memory) (hh : 1 ≤ h)
    (hkc : 1 ≤ chunk_numbers_count (usefulMemory available_memory) h)
    (hruns : ceilDiv input.length
      (chunk_numbers_count (usefulMemory available_memory) h * sizeofNumberType) <
        uint32Range) :
    ∃ chunked, chunkingPhase available_memory h input = .ok chunked ∧
      chunked.intermediate_files_count_ = ceilDiv input.length
        (chunk_numbers_count (usefulMemory available_memory) h * sizeofNumberType) ∧
      (input = [] → chunked.intermediate_files_count_ = 0) ∧
      (sizeofNumberType ∣ input.length → chunked.intermediate_files_count_ =
        ceilDiv (input.length / sizeofNumberType * sizeofNumberType)
          (chunk_numbers_count (usefulMemory available_memory) h * sizeofNumberType)) := by
  obtain ⟨chunked, files, hrun, _, hcount, _, _, hpos⟩ :=
    chunkingPhase_spec available_memory h input hacc hh
  have hlen := (hpos hkc hruns).1
  refine ⟨chunked, hrun, by rw [hcount, hlen], ?_, ?_⟩
  · intro he
    subst he
    rw [hcount, hlen]
    simp only [ceilDiv, List.length_nil, Nat.zero_add]
    apply Nat.div_eq_of_lt
    simp only [sizeofNumberType]
    omega
  · intro hd
    rw [hcount, hlen, Nat.div_mul_cancel hd]

theorem C6_run_counter_witness :
    kMinAvailableMemory ≤ usefulMemory 10485760 ∧ 1 ≤ 4 ∧
    1 ≤ chunk_numbers_count (usefulMemory 10485760) 4 ∧
    ceilDiv ([1, 2, 3] : List Byte).length
      (chunk_numbers_count (usefulMemory 10485760) 4 * sizeofNumberType) < uint32Range ∧
    ∃ chunked, chunkingPhase 10485760 4 [1, 2, 3] = .ok chunked ∧
      chunked.intermediate_files_count_ = ceilDiv ([1, 2, 3] : List Byte).length
        (chunk_numbers_count (usefulMemory 10485760) 4 * sizeofNumberType) ∧
      (([1, 2, 3] : List Byte) = [] → chunked.intermediate_files_count_ = 0) ∧
      (sizeofNumberType ∣ ([1, 2, 3] : List Byte).length → chunked.intermediate_files_count_ =
        ceilDiv (([1, 2, 3] : List Byte).length / sizeofNumberType * sizeofNumberType)
          (chunk_numbers_count (usefulMemory 10485760) 4 * sizeofNumberType)) :=
  ⟨by decide, by decide, by decide, by decide,
    C6_run_counter 10485760 4 [1, 2, 3] (by decide) (by decide) (by decide) (by decide)⟩

/-- C7, the claim as stated fails: with `available_memory = 10 MiB` there is no hardware
concurrency `h ≥ 1` for which the chunking phase leaves exactly one run for an input of 10 MiB
(here 10485760 zero bytes): a chunk holds at most 5898240 bytes. -/
theorem C7_counterexample :
    ¬ ∃ (h : Nat) (chunked : ExternalSorter), 1 ≤ h ∧
      chunkingPhase 10485760 h (List.replicate 10485760 0) = .ok chunked ∧
      chunked.intermediate_files_count_ = 1 := by
  rintro ⟨h, chunked, hh, hrun, hone⟩
  obtain ⟨chunked', files, hrun', _, hcount, _, hzero, hpos⟩ :=
    chunkingPhase_spec 10485760 h (List.replicate 10485760 0) (by decide) hh
  rw [hrun] at hrun'
  injection hrun' with hrun'
  subst hrun'
  rcases Nat.eq_zero_or_pos (chunk_numbers_count (usefulMemory 10485760) h) with hk | hk
  · rw [hcount, hzero hk] at hone
    cases hone
  · have hc : 0 < chunk_numbers_count (usefulMemory 10485760) h * sizeofNumberType := by
      simp only [sizeofNumberType]; omega
    have hb := ceilDiv_le (List.replicate 10485760 (0 : Byte)).length _ hc
    rw [List.length_replicate] at hb
    have hlen := (hpos hk (by
      rw [List.length_replicate]
      exact lt_of_le_of_lt hb (by decide))).1
    have hle := chunk_bytes_le h
    rw [hcount, hlen] at hone
    simp only [ceilDiv, List.length_replicate] at hone
    generalize chunk_numbers_count (usefulMemory 10485760) h * sizeofNumberType = c at *
    have := Nat.div_mul_le_self (10485760 + c - 1) c
    have := Nat.lt_div_mul_add hc (a := 10485760 + c - 1)
    rw [hone] at *
    omega

/-- C7, amended: with `N = uint32` and `available_memory = 10 MiB` (useful budget 5898240 bytes),
a non-empty input of whole records that fits in one chunk (at most `4 * floor(1474560 / h)`
bytes) gives exactly one intermediate run, and the final output is byte-identical to that run
when no writeback task is pending at the tail flush; this is always so for an input of at most
737280 bytes (the 184320 records of one writeback buffer), for which the output is that run
whatever the schedule. An input of exactly 10 MiB never gives exactly one run: for every
hardware concurrency `h ≥ 1` it gives at least two runs when a chunk holds at least one record
(`h ≤ 1474560`) and no run at all when a chunk holds none. -/
theorem C7_single_chunk (h : Nat) (input : List Byte) (hh : 1 ≤ h) (hpos : 0 < input.length)
    (hfit : input.length ≤ chunk_numbers_count (usefulMemory 10485760) h * sizeofNumberType)
    (hwhole : sizeofNumberType ∣ input.length) :
    (∃ chunked run, chunkingPhase 10485760 h input = .ok chunked ∧
      chunked.intermediate_files_count_ = 1 ∧
      chunked.intermediate_directory 0 = some run ∧
      sortFile 10485760 h input LastTask.beforeTailFlush = .ok run ∧
      (input.length ≤ 737280 → ∀ schedule, sortFile 10485760 h input schedule = .ok run)) ∧
    (∀ (threads : Nat) (big : List Byte), 1 ≤ threads → big.length = 10485760 →
      ∃ chunked, chunkingPhase 10485760 threads big = .ok chunked ∧
        chunked.intermediate_files_count_ ≠ 1 ∧
        (1 ≤ chunk_numbers_count (usefulMemory 10485760) threads →
          2 ≤ chunked.intermediate_files_count_) ∧
        (chunk_numbers_count (usefulMemory 10485760) threads = 0 →
          chunked.intermediate_files_count_ = 0)) ∧
    merge_numbers_count (usefulMemory 10485760) 1 * sizeofNumberType = 737280 ∧
    (∀ threads : Nat, 1 ≤ threads →
      (1 ≤ chunk_numbers_count (usefulMemory 10485760) threads ↔ threads ≤ 1474560)) := by
  have hk : 0 < chunk_numbers_count (usefulMemory 10485760) h := by
    rcases Nat.eq_zero_or_pos (chunk_numbers_count (usefulMemory 10485760) h) with hk | hk
    · rw [hk] at hfit; omega
    · exact hk
  have hone : ceilDiv input.length
      (chunk_numbers_count (usefulMemory 10485760) h * sizeofNumberType) = 1 := by
    simp only [ceilDiv]
    generalize chunk_numbers_count (usefulMemory 10485760) h * sizeofNumberType = c at hfit
    have h1 : input.length + c - 1 = (input.length - 1) + c := by omega
    rw [h1, Nat.add_div_right _ (by omega), Nat.div_eq_of_lt (by omega)]
  refine ⟨?_, ?_, by decide, ?_⟩
  · obtain ⟨chunked, files, hrun, _, hcount, hdir, _, hp⟩ :=
      chunkingPhase_spec 10485760 h input (by decide) hh
    have hfiles := (hp hk (by rw [hone]; decide)).2.2 hpos hfit
    have hrunfile : chunkFile input = toBytes (stable_sort (toNumbers input)) := by
      simp only [chunkFile, Nat.div_mul_cancel hwhole, List.drop_length, List.append_nil]
    refine ⟨chunked, chunkFile input, hrun, by rw [hcount, hfiles]; rfl,
      hdir 0 _ (by rw [hfiles]; rfl), ?_, ?_⟩
    · rw [hrunfile]
      exact sortFile_bytes 10485760 h input (by decide) (by decide) hh hk
        (by rw [hone]; decide) (by rw [hone]; decide)
    · intro hsmall schedule
      rw [hrunfile]
      apply sortFile_small 10485760 h input (by decide) (by decide) hh hk
        (by rw [hone]; decide) (by rw [hone]; decide)
      rw [hone, length_toNumbers]
      have hkw : merge_numbers_count (usefulMemory 10485760) 1 = 184320 := by decide
      rw [hkw]
      omega
  · intro threads big ht hbig
    obtain ⟨chunked, files, hrun, _, hcount, _, hzero, hp⟩ :=
      chunkingPhase_spec 10485760 threads big (by decide) ht
    have htwo : 1 ≤ chunk_numbers_count (usefulMemory 10485760) threads →
        2 ≤ chunked.intermediate_files_count_ := by
      intro hkt
      have hc : 0 < chunk_numbers_count (usefulMemory 10485760) threads * sizeofNumberType := by
        simp only [sizeofNumberType]; omega
      have hb := ceilDiv_le big.length _ hc
      rw [hbig] at hb
      have hlen := (hp hkt (by
        rw [hbig]
        exact lt_of_le_of_lt hb (by decide))).1
      have hle := chunk_bytes_le threads
      rw [hcount, hlen, hbig]
      simp only [ceilDiv]
      generalize chunk_numbers_count (usefulMemory 10485760) threads * sizeofNumberType = c at *
      rw [Nat.le_div_iff_mul_le hc]
      omega
    have hnone : chunk_numbers_count (usefulMemory 10485760) threads = 0 →
        chunked.intermediate_files_count_ = 0 := by
      intro hkt
      rw [hcount, hzero hkt]
      rfl
    refine ⟨chunked, hrun, ?_, htwo, hnone⟩
    rcases Nat.eq_zero_or_pos (chunk_numbers_count (usefulMemory 10485760) threads) with hkt | hkt
    · rw [hnone hkt]; decide
    · have := htwo hkt
      omega
  · intro threads h0
    have e : usefulMemory 10485760 = 5898240 := by decide
    simp only [chunk_numbers_count, e, sizeofNumberType]
    rw [Nat.le_div_iff_mul_le (by omega)]
    omega

theorem C7_single_chunk_witness :
    1 ≤ 1 ∧ 0 < ([3, 0, 0, 0, 1, 0, 0, 0, 2, 0, 0, 0] : List Byte).length ∧
    ([3, 0, 0, 0, 1, 0, 0, 0, 2, 0, 0, 0] : List Byte).length ≤
      chunk_numbers_count (usefulMemory 10485760) 1 * sizeofNumberType ∧
    sizeofNumberType ∣ ([3, 0, 0, 0, 1, 0, 0, 0, 2, 0, 0, 0] : List Byte).length ∧
    ((∃ chunked run,
        chunkingPhase 10485760 1 [3, 0, 0, 0, 1, 0, 0, 0, 2, 0, 0, 0] = .ok chunked ∧
      chunked.intermediate_files_count_ = 1 ∧
      chunked.intermediate_directory 0 = some run ∧
      sortFile 10485760 1 [3, 0, 0, 0, 1, 0, 0, 0, 2, 0, 0, 0] LastTask.beforeTailFlush =
        .ok run ∧
      (([3, 0, 0, 0, 1, 0, 0, 0, 2, 0, 0, 0] : List Byte).length ≤ 737280 →
        ∀ schedule, sortFile 10485760 1 [3, 0, 0, 0, 1, 0, 0, 0, 2, 0, 0, 0] schedule =
          .ok run)) ∧
    (∀ (threads : Nat) (big : List Byte), 1 ≤ threads → big.length = 10485760 →
      ∃ chunked, chunkingPhase 10485760 threads big = .ok chunked ∧
        chunked.intermediate_files_count_ ≠ 1 ∧
        (1 ≤ chunk_numbers_count (usefulMemory 10485760) threads →
          2 ≤ chunked.intermediate_files_count_) ∧
        (chunk_numbers_count (usefulMemory 10485760) threads = 0 →
          chunked.intermediate_files_count_ = 0)) ∧
    merge_numbers_count (usefulMemory 10485760) 1 * sizeofNumberType = 737280 ∧
    (∀ threads : Nat, 1 ≤ threads →
      (1 ≤ chunk_numbers_count (usefulMemory 10485760) threads ↔ threads ≤ 1474560))) :=
  ⟨by decide, by decide, by decide, by decide,
    C7_single_chunk 1 [3, 0, 0, 0, 1, 0, 0, 0, 2, 0, 0, 0] (by decide) (by decide) (by decide)
      (by decide)⟩

/-- C8, the code at the failing input: with a useful budget of 5898240 bytes (`available_memory
= 10 MiB`) and two runs, the four reader buffers and the two writeback buffers of the merge phase
take 8110080 bytes together, more than the useful budget, because the writeback buffers get the
budget less the read budget of one run only. The chunk buffers stay within the budget, and so do
the buffers of the merge phase when there is a single run. -/
theorem C8_merge_buffers_exceed_budget :
    usefulMemory 10485760 = 5898240 ∧ kMinAvailableMemory ≤ 5898240 ∧
    file_buffer_memory_size 5898240 2 = 2211840 ∧
    readerNumbersCount 5898240 2 * sizeofNumberType = 1105920 ∧
    merge_numbers_count 5898240 2 * sizeofNumberType = 1843200 ∧
    mergeBuffersBytes 5898240 2 = 8110080 ∧
    ¬ mergeBuffersBytes 5898240 2 ≤ 5898240 ∧
    (∀ available_memory_ chunks_count : Nat,
      chunkBuffersBytes available_memory_ chunks_count ≤ available_memory_) ∧
    (∀ available_memory_ : Nat, kMinAvailableMemory ≤ available_memory_ →
      available_memory_ < sizeRange → mergeBuffersBytes available_memory_ 1 ≤ available_memory_) := by
  refine ⟨by decide, by decide, by decide, by decide, by decide, by decide, by decide, ?_,
    mergeBuffersBytes_one_le⟩
  intro available_memory_ chunks_count
  simp only [chunkBuffersBytes, chunk_numbers_count, sizeofNumberType]
  have h1 := Nat.mul_div_le (available_memory_ / 4) chunks_count
  have h2 := Nat.div_mul_le_self available_memory_ 4
  calc chunks_count * (available_memory_ / 4 / chunks_count * 4)
      = chunks_count * (available_memory_ / 4 / chunks_count) * 4 := by ring
    _ ≤ available_memory_ / 4 * 4 := Nat.mul_le_mul_right 4 h1
    _ ≤ available_memory_ := h2

/-- C9. For every run file of `s` bytes and every read budget that gives the reader buffers of at
least one record, with each load task run to completion when it is added, `count` successive
calls of `get` after `waitForReady` return `true` for the first `floor(s / sizeof(N))` of them,
delivering the whole records of the file in file order, each once, and `false` for every call
after those. -/
theorem C9_reader_delivers_file (file : List Byte) (buffer_size : Nat)
    (hkr : 1 ≤ RoundSize (buffer_size / kBuffersCount) / sizeofNumberType) (count : Nat) :
    readRun file buffer_size count =
      .ok (((toNumbers file).take count).map some ++
        List.replicate (count - file.length / sizeofNumberType) none) ∧
    (toNumbers file).length = file.length / sizeofNumberType := by
  obtain ⟨reader, hc, hv, hready, hcount, hp⟩ := construct_spec file buffer_size
  rw [hcount, if_neg (by omega)] at hp
  have hg := getMany_spec count reader hv
  rw [hp, length_toNumbers] at hg
  refine ⟨?_, length_toNumbers file⟩
  simp only [readRun, hc, BinaryFileBuffer.waitForReady, BinaryFileBuffer.waitForBuffer, hready,
    if_true, bind, Except.bind, pure, Except.pure, hg, sizeofNumberType]

theorem C9_reader_delivers_file_witness :
    1 ≤ RoundSize (16 / kBuffersCount) / sizeofNumberType ∧
    (readRun [3, 0, 0, 0, 1, 0, 0, 0, 2, 0, 0, 0, 9, 9] 16 5 =
      .ok (((toNumbers [3, 0, 0, 0, 1, 0, 0, 0, 2, 0, 0, 0, 9, 9]).take 5).map some ++
        List.replicate
          (5 - ([3, 0, 0, 0, 1, 0, 0, 0, 2, 0, 0, 0, 9, 9] : List Byte).length / sizeofNumberType)
          none) ∧
    (toNumbers [3, 0, 0, 0, 1, 0, 0, 0, 2, 0, 0, 0, 9, 9]).length =
      ([3, 0, 0, 0, 1, 0, 0, 0, 2, 0, 0, 0, 9, 9] : List Byte).length / sizeofNumberType) :=
  ⟨by decide, C9_reader_delivers_file [3, 0, 0, 0, 1, 0, 0, 0, 2, 0, 0, 0, 9, 9] 16 (by decide) 5⟩

/-- C10. `ReadFileStream` returns the classification of the state of the stream after the read;
for every such state, `(true, n)` when the state is good (the read was full), `(true, m)` with
`m` the count of bytes read when the state is `eofbit` and `failbit` without `badbit`, and
`(false, 0)` in every other state. After a read of `n ≥ 1` bytes the second case is a short read:
`m < n`; so the result is `(true, m)` with `m < n` exactly when the state is that of a short read
caused by the end of the file only. -/
theorem C10_ReadFileStream_result :
    (∀ (stream_state : iostate) (gcount n : Nat),
      (stream_state = goodbit → FileReadResult.ofState stream_state gcount n = ⟨true, n⟩) ∧
      (stream_state = ⟨true, true, false⟩ →
        FileReadResult.ofState stream_state gcount n = ⟨true, gcount⟩) ∧
      (stream_state ≠ goodbit → stream_state ≠ ⟨true, true, false⟩ →
        FileReadResult.ofState stream_state gcount n = ⟨false, 0⟩)) ∧
    (∀ (stream : ifstream) (buffer : List Byte) (n : Nat),
      (ReadFileStream stream buffer n).2.2 =
        FileReadResult.ofState (stream.read buffer n).1.state (stream.read buffer n).1.gcount n ∧
      ((stream.read buffer n).1.state = goodbit → (stream.read buffer n).1.gcount = n) ∧
      ((stream.read buffer n).1.state = ⟨true, true, false⟩ → 0 < n →
        (stream.read buffer n).1.gcount < n) ∧
      (((ReadFileStream stream buffer n).2.2.ok_ = true ∧
          (ReadFileStream stream buffer n).2.2.bytes_count_ < n) ↔
        ((stream.read buffer n).1.state = ⟨true, true, false⟩ ∧
          (stream.read buffer n).1.gcount < n))) := by
  have hclass : ∀ (stream_state : iostate) (gcount n : Nat),
      (stream_state = goodbit → FileReadResult.ofState stream_state gcount n = ⟨true, n⟩) ∧
      (stream_state = ⟨true, true, false⟩ →
        FileReadResult.ofState stream_state gcount n = ⟨true, gcount⟩) ∧
      (stream_state ≠ goodbit → stream_state ≠ ⟨true, true, false⟩ →
        FileReadResult.ofState stream_state gcount n = ⟨false, 0⟩) := by
    intro stream_state gcount n
    refine ⟨fun h => ?_, fun h => ?_, fun h1 h2 => ?_⟩
    · simp [FileReadResult.ofState, h]
    · subst h; simp [FileReadResult.ofState, goodbit, failbit_or_eofbit]
    · simp [FileReadResult.ofState, h1, failbit_or_eofbit, h2]
  refine ⟨hclass, ?_⟩
  intro stream buffer n
  have hgood : (stream.read buffer n).1.state = goodbit → (stream.read buffer n).1.gcount = n := by
    intro h
    by_cases hs : stream.state = goodbit
    · simp only [ifstream.read, hs, if_true, goodbit, iostate.mk.injEq, decide_eq_false_iff_not,
        and_self, and_true] at h ⊢
      simp only [List.length_take] at h ⊢
      omega
    · exfalso
      have e : (stream.read buffer n).1.state = { stream.state with failbit := true } := by
        simp only [ifstream.read, hs, if_false]
      rw [e] at h
      simp [goodbit] at h
  have hshort : (stream.read buffer n).1.state = ⟨true, true, false⟩ → 0 < n →
      (stream.read buffer n).1.gcount < n := by
    intro h hn
    by_cases hs : stream.state = goodbit
    · simp only [ifstream.read, hs, if_true, iostate.mk.injEq, decide_eq_true_eq, and_self,
        and_true] at h ⊢
      exact h
    · simp only [ifstream.read, hs, if_false]
      exact hn
  refine ⟨rfl, hgood, hshort, ?_⟩
  show ((FileReadResult.ofState (stream.read buffer n).1.state (stream.read buffer n).1.gcount
      n).ok_ = true ∧ (FileReadResult.ofState (stream.read buffer n).1.state
      (stream.read buffer n).1.gcount n).bytes_count_ < n) ↔ _
  by_cases h1 : (stream.read buffer n).1.state = goodbit
  · rw [(hclass _ _ n).1 h1]
    simp [h1, goodbit]
  · by_cases h2 : (stream.read buffer n).1.state = ⟨true, true, false⟩
    · rw [(hclass _ _ n).2.1 h2]
      simp [h2]
    · rw [(hclass _ _ n).2.2 h1 h2]
      simp [h2]

/-- C11, the code at the failing input: for the output directory `test/output`, given without a
trailing separator, the constructor opens the output file at `test/outputoutput`, a file named
`outputoutput` next to the directory, while the intermediate directory is
`test/output/intermediate`, inside it; the file `output` inside the directory is at
`test/output/output`. `CreateOutputFilePath` appends the file name to the string where
`CreateIntermediateDirectoryPath` uses the operator `/=`. For a directory given with a trailing
separator, and for the empty path, the two ways agree: the output file is `d/output`. -/
theorem C11_output_path_misses_separator :
    CreateOutputFilePath "test/output".toList = "test/outputoutput".toList ∧
    CreateIntermediateDirectoryPath "test/output".toList = "test/output/intermediate".toList ∧
    path_append "test/output".toList kOutputFileName = "test/output/output".toList ∧
    CreateOutputFilePath "test/output".toList ≠ path_append "test/output".toList kOutputFileName ∧
    CreateOutputFilePath "test/output/".toList = "test/output/output".toList ∧
    CreateIntermediateDirectoryPath "test/output/".toList = "test/output/intermediate".toList ∧
    (∀ d : List Char, d = [] ∨ d.getLast? = some '/' →
      CreateOutputFilePath d = path_append d kOutputFileName) := by
  refine ⟨by decide, by decide, by decide, by decide, by decide, by decide, ?_⟩
  intro d hd
  rcases hd with hd | hd
  · subst hd
    decide
  · simp [CreateOutputFilePath, path_append, hd, kOutputFileName]

/-- C12. In the pool whose workers run tasks one at a time, for every sequence of tasks in the
order in which they complete: running the tasks that were added is the same as handling their
completions in order; afterwards `checkException` raises if and only if at least one task has
thrown, what it raises is the exception of the first task that threw, whatever the later tasks
throw, and it raises nothing when no task threw. A call of `checkException` leaves the pool as it
was, so a repeated call raises the same. -/
theorem C12_first_failure (tasks : List task_t) :
    ThreadPool.workerRounds tasks.length (tasks.foldl ThreadPool.add ThreadPool.construct) =
      tasks.foldl ThreadPool.runTask ThreadPool.construct ∧
    ((∃ raised, (tasks.foldl ThreadPool.runTask ThreadPool.construct).checkException.2 =
        .error raised) ↔ ∃ task ∈ tasks, ∃ thrown, task = .error thrown) ∧
    (∀ thrown, firstFailure tasks = some thrown →
      (tasks.foldl ThreadPool.runTask ThreadPool.construct).checkException.2 =
        .error (some thrown)) ∧
    (firstFailure tasks = none →
      (tasks.foldl ThreadPool.runTask ThreadPool.construct).checkException.2 = .ok ()) ∧
    (∀ pool : ThreadPool, pool.checkException.1 = pool ∧
      pool.checkException.1.checkException.2 = pool.checkException.2) := by
  obtain ⟨hnone, hsome⟩ := foldl_runTask_spec tasks ThreadPool.construct rfl
  refine ⟨?_, ?_, ?_, ?_, ?_⟩
  · rw [foldl_add_tasks, workerRounds_spec tasks _ (by simp [ThreadPool.construct])]
    rfl
  · cases hf : firstFailure tasks with
    | none =>
      rw [hnone hf]
      have hall := (firstFailure_eq_none tasks).1 hf
      constructor
      · rintro ⟨raised, h⟩
        cases h
      · rintro ⟨task, hmem, thrown, h⟩
        rw [hall task hmem] at h
        cases h
    | some thrown =>
      rw [hsome thrown hf]
      constructor
      · intro _
        by_contra hno
        have hall : ∀ task ∈ tasks, task = .ok () := by
          intro task hmem
          cases task with
          | ok value => rfl
          | error other => exact absurd ⟨_, hmem, other, rfl⟩ hno
        rw [(firstFailure_eq_none tasks).2 hall] at hf
        cases hf
      · intro _
        exact ⟨some thrown, rfl⟩
  · intro thrown hf
    rw [hsome thrown hf]
    rfl
  · intro hf
    rw [hnone hf]
    rfl
  · intro pool
    by_cases h : pool.exception_flag_ = true <;> simp [ThreadPool.checkException, h]

/-- C13, the code at the failing input. With chunk buffers and reader buffers of at least one
record and fewer than `2^32` runs, when in both runs the writeback task of the last batch has run
before the tail flush, `sort` run on its own output returns the same bytes. But the tail flush
does not wait for that task. With `available_memory = 10 MiB` and hardware concurrency 1, the
737284 bytes of 184320 records 0 followed by the record 1 are sorted already and `sort` returns
them unchanged when the task runs before the tail flush; run on this output again, with the tail
flush ahead of the task, `sort` returns the record 1 followed by the records 0, which are other
bytes. -/
theorem C13_resort_differs :
    (∀ (available_memory h : Nat) (input : List Byte), available_memory < sizeRange →
      kMinAvailableMemory ≤ usefulMemory available_memory → 1 ≤ h →
      1 ≤ chunk_numbers_count (usefulMemory available_memory) h →
      ceilDiv input.length
        (chunk_numbers_count (usefulMemory available_memory) h * sizeofNumberType) <
          uint32Range →
      1 ≤ readerNumbersCount (usefulMemory available_memory)
        (ceilDiv input.length
          (chunk_numbers_count (usefulMemory available_memory) h * sizeofNumberType)) →
      ∃ output, sortFile available_memory h input LastTask.beforeTailFlush = .ok output ∧
        sortFile available_memory h output LastTask.beforeTailFlush = .ok output) ∧
    (∃ output again,
      sortFile 10485760 1 (List.replicate 737280 0 ++ [1, 0, 0, 0]) LastTask.beforeTailFlush =
        .ok output ∧
      output = List.replicate 737280 0 ++ [1, 0, 0, 0] ∧
      sortFile 10485760 1 output LastTask.afterTailFlush = .ok again ∧
      toNumbers output = List.replicate 184320 0 ++ [1] ∧
      toNumbers again = 1 :: List.replicate 184320 0 ∧
      again ≠ output) := by
  constructor
  · intro available_memory h input hrange hacc hh hkc hruns hkr
    have hrun := sortFile_bytes available_memory h input hrange hacc hh hkc hruns hkr
    refine ⟨_, hrun, ?_⟩
    generalize hout : toBytes (stable_sort (toNumbers input)) = output
    rcases Nat.eq_zero_or_pos output.length with hzero | hpos
    · rw [List.length_eq_zero.1 hzero]
      exact sortFile_empty available_memory h hrange hacc hh _
    · have hlen : output.length ≤ input.length := by
        rw [← hout, length_toBytes, (stable_sort_perm _).length_eq, length_toNumbers]
        omega
      have hc : 0 < chunk_numbers_count (usefulMemory available_memory) h * sizeofNumberType := by
        simp only [sizeofNumberType]; omega
      have hmono := ceilDiv_mono _ _
        (chunk_numbers_count (usefulMemory available_memory) h * sizeofNumberType) hlen
      have hkr2 := readerNumbersCount_anti (usefulMemory available_memory) _ _
        (ceilDiv_pos output.length _ hpos hc) hmono
      have hrun2 := sortFile_bytes available_memory h output hrange hacc hh hkc
        (lt_of_le_of_lt hmono hruns) (le_trans hkr hkr2)
      rw [hrun2]
      congr 1
      rw [← hout, toNumbers_toBytes, stable_sort_of_sorted _ (stable_sort_sorted _)]
  · obtain ⟨h1, h2, _⟩ := sortFile_failing_input
    have hnum : toNumbers (List.replicate 737280 (0 : Byte) ++ [1, 0, 0, 0]) =
        List.replicate 184320 (0 : number_t) ++ [1] := by
      have := toNumbers_replicate_zero 184320 [1, 0, 0, 0]
      rw [this]
      rfl
    have hsame : toBytes (List.replicate 184320 (0 : number_t) ++ [1]) =
        List.replicate 737280 (0 : Byte) ++ [1, 0, 0, 0] := by
      rw [← hnum]
      apply toBytes_toNumbers_of_dvd
      rw [List.length_append, List.length_replicate]
      decide
    rw [hsame] at h1
    refine ⟨_, _, h1, rfl, h2, hnum, by rw [toNumbers_toBytes], ?_⟩
    intro heq
    have h3 := congrArg toNumbers heq
    rw [toNumbers_toBytes, hnum] at h3
    have h4 : (1 : number_t) :: List.replicate 184320 0 = 0 :: (List.replicate 184319 0 ++ [1]) :=
      h3
    injection h4 with h5 _
    exact absurd h5 (by decide)

/-- C15. For every input, every accepted budget and every hardware concurrency of at least one,
the merge phase returns, and in every state in which the condition of its outer loop is evaluated
the heap holds at most `R` entries, all under run indices below `R`, and its top carries the
minimum value. The records the merge has put out so far (written to the output or stored in the
current writeback buffer) split run by run into a prefix `w` of each run, and for each run `i`:
if a record of the run follows `w`, the heap holds exactly one entry of run `i`, which carries
the first such record, the next unwritten one; if none follows, the heap holds no entry of run
`i`. The records put out so far are those written to the output, those of the batch handed to
the writeback task that is still queued, and those stored in the current writeback buffer. The
recorded states are those of the loop of `mergeSortedChunksImpl`: the function returns after the
tail flush of the last one, whenever the last writeback task runs, and the loop is entered
whenever the chunk buffers and the reader buffers hold at least one record, the runs are fewer
than `2^32` and the input holds a record. -/
theorem C15_heap_invariant (available_memory h : Nat) (input : List Byte)
    (hrange : available_memory < sizeRange)
    (hacc : kMinAvailableMemory ≤ usefulMemory available_memory) (hh : 1 ≤ h) :
    ∃ (chunked : ExternalSorter) (files : List (List Byte)) (heads : List MergeState),
      chunkingPhase available_memory h input = .ok chunked ∧
      chunked.intermediate_files_count_ = files.length ∧
      (∀ (i : Nat) (file : List Byte), files[i]? = some file →
        chunked.intermediate_directory i = some file) ∧
      chunked.mergeLoopHeads = .ok heads ∧
      (1 ≤ chunk_numbers_count (usefulMemory available_memory) h →
        ceilDiv input.length
          (chunk_numbers_count (usefulMemory available_memory) h * sizeofNumberType) <
            uint32Range →
        1 ≤ readerNumbersCount (usefulMemory available_memory)
          (ceilDiv input.length
            (chunk_numbers_count (usefulMemory available_memory) h * sizeofNumberType)) →
        toNumbers input ≠ [] → heads ≠ []) ∧
      (heads ≠ [] → ∃ last, heads.getLast? = some last ∧ last.merge_queue = [] ∧
        ∀ schedule, chunked.mergeSortedChunksImpl schedule = .ok { chunked with
          output_file_stream_ := tailFlush last
            (merge_buffer_size_in_bytes chunked.available_memory_ files.length) schedule }) ∧
      ∀ state ∈ heads,
        state.merge_queue.length ≤ files.length ∧
        (∀ entry ∈ state.merge_queue, entry.file_buffer_index_ < files.length) ∧
        (state.merge_queue ≠ [] → ∃ top, priority_queue_top state.merge_queue = some top ∧
          top ∈ state.merge_queue ∧ ∀ entry ∈ state.merge_queue, top.value_ ≤ entry.value_) ∧
        ∃ written : List (List number_t), written.length = files.length ∧
          state.emitted.Perm (concatAll written) ∧
          ∀ (i : Nat) (file : List Byte) (w : List number_t), files[i]? = some file →
            written[i]? = some w →
            ∃ unwritten, toNumbers file = w ++ unwritten ∧
              (unwritten = [] → entriesOf state.merge_queue i = []) ∧
              (∀ v rest, unwritten = v :: rest →
                entriesOf state.merge_queue i = [⟨i, v⟩]) := by
  obtain ⟨chunked, files, hrun, hmem, hout, hcount, hdir, hsorted, _⟩ :=
    chunkingPhase_runs available_memory h input hacc hh
  obtain ⟨heads, hheads, hall, hlast, _⟩ := mergeLoopHeads_spec chunked files
    (by rw [hmem]; exact hacc) (by rw [hmem]; exact usefulMemory_lt _ hrange) hcount hdir hsorted
    hout
  refine ⟨chunked, files, heads, hrun, hcount, hdir, hheads, ?_, ?_, ?_⟩
  · intro hkc hruns hkr hin hnil
    obtain ⟨chunked2, heads2, last, hrun2, hheads2, hl, _⟩ :=
      sortFile_last_head available_memory h input hrange hacc hh hkc hruns hkr hin
    rw [hrun] at hrun2
    injection hrun2 with hrun2
    subst hrun2
    rw [hheads] at hheads2
    injection hheads2 with hheads2
    subst hheads2
    rw [hnil] at hl
    cases hl
  · intro hne
    obtain ⟨first, rest, last, hcons, _, _, hl, hq, _, hfinal⟩ := hlast hne
    refine ⟨last, ?_, hq, hfinal⟩
    rw [hcons]
    cases rest with
    | nil => cases hl
    | cons second others => rw [List.getLast?_cons_cons]; exact hl
  · intro state hs
    obtain ⟨_, ho, written, hheap⟩ := hall state hs
    obtain ⟨f1, f2, f3, f4⟩ := heap_facts files written state ho hheap
    exact ⟨f1, f2, f3, written, hheap.written_length, hheap.emitted_perm, f4⟩

theorem C15_heap_invariant_witness :
    10485760 < sizeRange ∧ kMinAvailableMemory ≤ usefulMemory 10485760 ∧ 1 ≤ 4 ∧
    ∃ (chunked : ExternalSorter) (files : List (List Byte)) (heads : List MergeState),
      chunkingPhase 10485760 4 [3, 0, 0, 0, 1, 0, 0, 0, 2, 0, 0, 0] = .ok chunked ∧
      chunked.intermediate_files_count_ = files.length ∧
      (∀ (i : Nat) (file : List Byte), files[i]? = some file →
        chunked.intermediate_directory i = some file) ∧
      chunked.mergeLoopHeads = .ok heads ∧
      (1 ≤ chunk_numbers_count (usefulMemory 10485760) 4 →
        ceilDiv ([3, 0, 0, 0, 1, 0, 0, 0, 2, 0, 0, 0] : List Byte).length
          (chunk_numbers_count (usefulMemory 10485760) 4 * sizeofNumberType) < uint32Range →
        1 ≤ readerNumbersCount (usefulMemory 10485760)
          (ceilDiv ([3, 0, 0, 0, 1, 0, 0, 0, 2, 0, 0, 0] : List Byte).length
            (chunk_numbers_count (usefulMemory 10485760) 4 * sizeofNumberType)) →
        toNumbers [3, 0, 0, 0, 1, 0, 0, 0, 2, 0, 0, 0] ≠ [] → heads ≠ []) ∧
      (heads ≠ [] → ∃ last, heads.getLast? = some last ∧ last.merge_queue = [] ∧
        ∀ schedule, chunked.mergeSortedChunksImpl schedule = .ok { chunked with
          output_file_stream_ := tailFlush last
            (merge_buffer_size_in_bytes chunked.available_memory_ files.length) schedule }) ∧
      ∀ state ∈ heads,
        state.merge_queue.length ≤ files.length ∧
        (∀ entry ∈ state.merge_queue, entry.file_buffer_index_ < files.length) ∧
        (state.merge_queue ≠ [] → ∃ top, priority_queue_top state.merge_queue = some top ∧
          top ∈ state.merge_queue ∧ ∀ entry ∈ state.merge_queue, top.value_ ≤ entry.value_) ∧
        ∃ written : List (List number_t), written.length = files.length ∧
          state.emitted.Perm (concatAll written) ∧
          ∀ (i : Nat) (file : List Byte) (w : List number_t), files[i]? = some file →
            written[i]? = some w →
            ∃ unwritten, toNumbers file = w ++ unwritten ∧
              (unwritten = [] → entriesOf state.merge_queue i = []) ∧
              (∀ v rest, unwritten = v :: rest →
                entriesOf state.merge_queue i = [⟨i, v⟩]) :=
  ⟨by decide, by decide, by decide,
    C15_heap_invariant 10485760 4 [3, 0, 0, 0, 1, 0, 0, 0, 2, 0, 0, 0] (by decide) (by decide)
      (by decide)⟩

/-- C16, the code at the failing input. A writeback batch is written by a task that
`swapMergeBufferAndCreateTask` adds only after it has waited for the flag of the batch before, so
in every state the steps of the writers can reach at most one writeback task is waiting or
running, and a task that starts its write finds no earlier one. The tail flush is a `WriteFile`
the orchestrator calls itself, waiting for nothing: after a swap it can start while the writeback
task is still waiting in the queue, or while a worker is inside the `WriteFile` of that task.
The program reaches this: with `available_memory = 10 MiB`, hardware concurrency 1 and an input
of 737284 bytes (184321 records, one run, writeback buffers of 184320 records) the outer loop
ends with a batch handed to a writeback task whose flag is still clear, nothing having waited for
it, and the cursor past a store, and `mergeSortedChunksImpl` goes on to the `WriteFile` of the
tail, which writes behind the batch or ahead of it as the task happens to run. -/
theorem C16_tail_write_does_not_wait :
    (∀ (steps : List WriteStep) (state : WriteState),
      WriteState.run steps WriteState.initial = some state →
      state.tasks_ + state.active_tasks_ ≤ 1 ∧
      state.earlierTaskPending WriteStep.taskStart = false) ∧
    (∃ state, WriteState.run [WriteStep.swap] WriteState.initial = some state ∧
      (state.step WriteStep.tailWrite).isSome = true ∧ state.tasks_ = 1 ∧
      state.earlierTaskPending WriteStep.tailWrite = true) ∧
    (∃ state, WriteState.run [WriteStep.swap, WriteStep.taskStart] WriteState.initial =
        some state ∧
      (state.step WriteStep.tailWrite).isSome = true ∧ state.active_tasks_ = 1 ∧
      state.earlierTaskPending WriteStep.tailWrite = true) ∧
    (toNumbers (List.replicate 737284 (0 : Byte))).length = 184321 ∧
    ceilDiv (List.replicate 737284 (0 : Byte)).length
      (chunk_numbers_count (usefulMemory 10485760) 1 * sizeofNumberType) = 1 ∧
    merge_numbers_count (usefulMemory 10485760) 1 = 184320 ∧
    (∃ (chunked : ExternalSorter) (heads : List MergeState) (last : MergeState),
      chunkingPhase 10485760 1 (List.replicate 737284 0) = .ok chunked ∧
      chunked.mergeLoopHeads = .ok heads ∧ heads.getLast? = some last ∧
      last.merge_buffer_1.is_ready_to_fill_ = false ∧
      last.queued.length = 184320 ∧
      0 < last.current_merge_buffer_index ∧
      (∀ schedule, chunked.mergeSortedChunksImpl schedule = .ok { chunked with
        output_file_stream_ := tailFlush last
          (merge_buffer_size_in_bytes (usefulMemory 10485760) 1) schedule }) ∧
      (tailFlush last (merge_buffer_size_in_bytes (usefulMemory 10485760) 1)
          LastTask.beforeTailFlush).content =
        toBytes (last.queued ++
          last.merge_buffer_0.buffer_.take last.current_merge_buffer_index) ∧
      (tailFlush last (merge_buffer_size_in_bytes (usefulMemory 10485760) 1)
          LastTask.afterTailFlush).content =
        toBytes (last.merge_buffer_0.buffer_.take last.current_merge_buffer_index ++
          last.queued)) := by
  have hlen : (toNumbers (List.replicate 737284 (0 : Byte))).length = 184321 := by
    rw [length_toNumbers, List.length_replicate]
  have hruns : ceilDiv (List.replicate 737284 (0 : Byte)).length
      (chunk_numbers_count (usefulMemory 10485760) 1 * sizeofNumberType) = 1 := by
    rw [List.length_replicate]
    decide
  refine ⟨?_, ⟨_, rfl, by decide, by decide, by decide⟩, ⟨_, rfl, by decide, by decide, by decide⟩,
    hlen, hruns, by decide, ?_⟩
  · intro steps state hrun
    have hinv := WriteState.run_tasks steps WriteState.initial state rfl hrun
    have hle : state.tasks_ + state.active_tasks_ ≤ 1 := by
      rw [hinv]
      split <;> omega
    refine ⟨hle, ?_⟩
    simp only [WriteState.earlierTaskPending, decide_eq_false_iff_not]
    omega
  · obtain ⟨chunked, heads, last, hrun, hheads, hlast, hpos, hem, hv, hnone, hfinal⟩ :=
      sortFile_last_head 10485760 1 (List.replicate 737284 0) (by decide) (by decide) (by decide)
        (by decide) (by rw [hruns]; decide) (by rw [hruns]; decide)
        (fun c => by rw [c] at hlen; cases hlen)
    rw [hruns] at hv hfinal
    have hk : merge_numbers_count (usefulMemory 10485760) 1 = 184320 := by decide
    have hemlen : last.emitted.length = 184321 := by
      rw [hem, (stable_sort_perm _).length_eq, hlen]
    have hidx := hv.index_le
    have hflag : last.merge_buffer_1.is_ready_to_fill_ = false := by
      cases hf : last.merge_buffer_1.is_ready_to_fill_ with
      | false => rfl
      | true =>
        exfalso
        simp only [MergeState.emitted, MergeState.queued, hf, if_true, hnone hf, toNumbers,
          List.nil_append, List.append_nil, List.length_take] at hemlen
        omega
    have hq : last.queued = last.merge_buffer_1.buffer_ := by
      simp [MergeState.queued, hflag]
    have hwritten : toNumbers last.output_file_stream_.content = [] := by
      apply List.length_eq_zero.1
      have h0 := hv.length_0
      have h1 := hv.length_1
      simp only [MergeState.emitted, hq, List.length_append, List.length_take] at hemlen
      omega
    obtain ⟨t1, t2, _⟩ := tailFlush_spec _ _ last hv
    refine ⟨chunked, heads, last, hrun, hheads, hlast, hflag, ?_, hpos, hfinal, ?_, ?_⟩
    · rw [hq, hv.length_1, hk]
    · rw [t1, MergeState.emitted, hwritten, List.nil_append]
    · rw [t2, hwritten, List.nil_append]

/-- C17, the code at the failing input: a platform may report hardware concurrency 0; the pool
then still starts `max(0, 2) - 1 = 1` worker, but the chunking phase takes `chunks_count = 0` as
the divisor of `(available_memory_ / sizeof(NumberType)) / chunks_count`, so `sort` ends in a
division by zero for every input. For a hardware concurrency of at least one the divisor is not
zero and `sort` returns, whenever the last writeback task runs. -/
theorem C17_zero_hardware_concurrency :
    ThreadPool.threads_count 0 = 1 ∧
    (∀ self : ExternalSorter,
      self.createSortedChunksImplMultiThreaded 0 = .error exception_t.divisionByZero) ∧
    (∀ (input : List Byte) (schedule : LastTask),
      sortFile 10485760 0 input schedule = .error exception_t.divisionByZero) ∧
    (∀ (h : Nat) (input : List Byte) (schedule : LastTask), 1 ≤ h →
      ∃ output, sortFile 10485760 h input schedule = .ok output) := by
  refine ⟨by decide, fun self => rfl,
    fun input schedule => sortFile_zero_concurrency _ input (by decide) schedule, ?_⟩
  intro h input schedule hh
  exact sortFile_returns 10485760 h input (by decide) (by decide) hh schedule

/-- C18. For every useful budget `B_u ≥ 2 MiB` and every run count `R`, the capacity `k_w` of a
writeback buffer is at least 1, the per-run read budget is at most `B_u`, so the subtraction
`B_u - file_buffer_memory_size` does not wrap, and a store into the current writeback buffer, from
either loop, writes at a cursor `j < k_w`: after the flush of a full buffer the cursor is 0, and
otherwise it is below `k_w` already. A store that returns has written inside the array, and with
a budget that gives this `B_u` the whole of `sort` returns, whenever the last writeback task
runs, no store having left its array. -/
theorem C18_writeback_capacity (available_memory_ files_count : Nat)
    (hmin : kMinAvailableMemory ≤ available_memory_) (hrange : available_memory_ < sizeRange) :
    1 ≤ merge_numbers_count available_memory_ files_count ∧
    file_buffer_memory_size available_memory_ files_count ≤ available_memory_ ∧
    sizeSub available_memory_ (file_buffer_memory_size available_memory_ files_count) =
      available_memory_ - file_buffer_memory_size available_memory_ files_count ∧
    (∀ (state : MergeState) (number : number_t),
      state.Valid (merge_numbers_count available_memory_ files_count)
        (merge_buffer_size_in_bytes available_memory_ files_count) →
      ∃ state' j, storeNumber (merge_numbers_count available_memory_ files_count)
          (merge_buffer_size_in_bytes available_memory_ files_count) state number = .ok state' ∧
        j < merge_numbers_count available_memory_ files_count ∧
        j = (if state.current_merge_buffer_index = merge_numbers_count available_memory_ files_count
          then 0 else state.current_merge_buffer_index) ∧
        state'.merge_buffer_0.buffer_.length = merge_numbers_count available_memory_ files_count ∧
        state'.merge_buffer_0.buffer_[j]? = some number ∧
        state'.current_merge_buffer_index = j + 1 ∧
        state'.Valid (merge_numbers_count available_memory_ files_count)
          (merge_buffer_size_in_bytes available_memory_ files_count)) ∧
    (∀ (state state' : MergeState) (number : number_t),
      storeNumber (merge_numbers_count available_memory_ files_count)
        (merge_buffer_size_in_bytes available_memory_ files_count) state number = .ok state' →
      0 < state'.current_merge_buffer_index ∧
      state'.current_merge_buffer_index ≤ state'.merge_buffer_0.buffer_.length ∧
      state'.merge_buffer_0.buffer_[state'.current_merge_buffer_index - 1]? = some number) ∧
    (∀ (available_memory h : Nat) (input : List Byte) (schedule : LastTask),
      available_memory < sizeRange →
      usefulMemory available_memory = available_memory_ → 1 ≤ h →
      ∃ output, sortFile available_memory h input schedule = .ok output) := by
  have hle : file_buffer_memory_size available_memory_ files_count ≤ available_memory_ := by
    have h1 := file_buffer_memory_size_le available_memory_ files_count
    have h2 := CalcFilesBuffersMemorySize_le available_memory_ hmin
    omega
  refine ⟨merge_numbers_count_pos available_memory_ files_count hmin hrange, hle,
    sizeSub_eq _ _ hrange hle, ?_, ?_, ?_⟩
  · intro state number hv
    obtain ⟨state', j, hs, hj, hje, hlen, hget, hidx⟩ := storeNumber_index _ _ state number hv
    obtain ⟨other, hs2, hv2, _⟩ := storeNumber_spec _ _ state number hv
    rw [hs] at hs2
    injection hs2 with hs2
    subst hs2
    exact ⟨state', j, hs, hj, hje, hlen, hget, hidx, hv2⟩
  · intro state state' number hs
    exact storeNumber_ok_index _ _ state state' number hs
  · intro available_memory h input schedule hr hu hh
    exact sortFile_returns available_memory h input hr (by rw [hu]; exact hmin) hh schedule

theorem C18_writeback_capacity_witness :
    kMinAvailableMemory ≤ 5898240 ∧ 5898240 < sizeRange ∧
    (1 ≤ merge_numbers_count 5898240 2 ∧
    file_buffer_memory_size 5898240 2 ≤ 5898240 ∧
    sizeSub 5898240 (file_buffer_memory_size 5898240 2) =
      5898240 - file_buffer_memory_size 5898240 2 ∧
    (∀ (state : MergeState) (number : number_t),
      state.Valid (merge_numbers_count 5898240 2) (merge_buffer_size_in_bytes 5898240 2) →
      ∃ state' j, storeNumber (merge_numbers_count 5898240 2)
          (merge_buffer_size_in_bytes 5898240 2) state number = .ok state' ∧
        j < merge_numbers_count 5898240 2 ∧
        j = (if state.current_merge_buffer_index = merge_numbers_count 5898240 2
          then 0 else state.current_merge_buffer_index) ∧
        state'.merge_buffer_0.buffer_.length = merge_numbers_count 5898240 2 ∧
        state'.merge_buffer_0.buffer_[j]? = some number ∧
        state'.current_merge_buffer_index = j + 1 ∧
        state'.Valid (merge_numbers_count 5898240 2) (merge_buffer_size_in_bytes 5898240 2)) ∧
    (∀ (state state' : MergeState) (number : number_t),
      storeNumber (merge_numbers_count 5898240 2)
        (merge_buffer_size_in_bytes 5898240 2) state number = .ok state' →
      0 < state'.current_merge_buffer_index ∧
      state'.current_merge_buffer_index ≤ state'.merge_buffer_0.buffer_.length ∧
      state'.merge_buffer_0.buffer_[state'.current_merge_buffer_index - 1]? = some number) ∧
    (∀ (available_memory h : Nat) (input : List Byte) (schedule : LastTask),
      available_memory < sizeRange →
      usefulMemory available_memory = 5898240 → 1 ≤ h →
      ∃ output, sortFile available_memory h input schedule = .ok output)) :=
  ⟨by decide, by decide, C18_writeback_capacity 5898240 2 (by decide) (by decide)⟩

/-- C19. A run reader given a read budget below `2 * sizeof(N)` bytes has buffers of `k_r = 0`
records, and every `get` on it returns `false`, the first one included, whatever the run file
holds. When the merge phase sizes its readers so, for the run count the 32-bit counter holds, it
treats every run as exhausted and `sort` writes nothing, whatever the schedule. This happens for
an accepted budget: with `available_memory = 4 MiB` (useful
budget 2359296) and hardware concurrency 4 a chunk holds 589824 bytes, an input of 130459631620
bytes leaves 221185 runs, each reader gets a budget of 4 bytes, and the output is empty although
the input holds 32614907905 records. -/
theorem C19_empty_reader_buffers_lose_records :
    (∀ (file : List Byte) (buffer_size count : Nat), buffer_size < 2 * sizeofNumberType →
      RoundSize (buffer_size / kBuffersCount) / sizeofNumberType = 0 ∧
      readRun file buffer_size count = .ok (List.replicate count none)) ∧
    (∀ (available_memory h : Nat) (input : List Byte), available_memory < sizeRange →
      kMinAvailableMemory ≤ usefulMemory available_memory → 1 ≤ h →
      1 ≤ chunk_numbers_count (usefulMemory available_memory) h →
      readerNumbersCount (usefulMemory available_memory)
        (ceilDiv input.length
          (chunk_numbers_count (usefulMemory available_memory) h * sizeofNumberType) %
            uint32Range) = 0 →
      ∀ schedule, sortFile available_memory h input schedule = .ok []) ∧
    (kMinAvailableMemory ≤ usefulMemory 4194304 ∧
      chunk_numbers_count (usefulMemory 4194304) 4 * sizeofNumberType = 589824 ∧
      ceilDiv (List.replicate 130459631620 (7 : Byte)).length 589824 = 221185 ∧
      221185 < uint32Range ∧
      file_buffer_memory_size (usefulMemory 4194304) 221185 = 4 ∧
      readerNumbersCount (usefulMemory 4194304) 221185 = 0 ∧
      (∀ schedule, sortFile 4194304 4 (List.replicate 130459631620 7) schedule = .ok []) ∧
      (toNumbers (List.replicate 130459631620 (7 : Byte))).length = 32614907905) := by
  refine ⟨?_, ?_, by decide, by decide, ?_, by decide, by decide, by decide, ?_, ?_⟩
  · intro file buffer_size count hb
    refine ⟨?_, readRun_none file buffer_size count hb⟩
    simp only [RoundSize, kBuffersCount, sizeofNumberType] at hb ⊢
    omega
  · intro available_memory h input hr hacc hh hkc hkr schedule
    exact sortFile_none available_memory h input hr hacc hh hkc hkr schedule
  · rw [List.length_replicate]
    decide
  · intro schedule
    apply sortFile_none 4194304 4 _ (by decide) (by decide) (by decide) (by decide)
    rw [List.length_replicate]
    decide
  · rw [length_toNumbers, List.length_replicate]

end es
